import Mathlib

/-!
# Cryptopals (qua3k/cryptopals): block-cipher modes, PKCS#7 padding and oracle attacks

Shallow embedding of `set1.go`, `set2.go` and `set3.go`.

Conventions of the embedding.

* A Go `[]byte` is a `List Nat`; a list is a well-formed byte buffer when every
  element is below 256 (`IsBytes`).  Byte arithmetic that can overflow is
  written with an explicit `% 256`.
* A Go function that can panic (explicit `panic`, index or slice bounds out of
  range, integer division by zero) returns an `Option`: `none` is the panic.
  Loops are unrolled by a fuel counter; running out of fuel is also `none`.
* A Go function that can return the `nil` slice as a "no value" answer returns
  an inner `Option`: `some none` is "returned nil".
* `cipher.Block` (Go standard library) is the structure `Block`: a block size
  and two functions on one block.
-/

namespace Cryptopals

/-! ## Byte buffers and slice primitives -/

/-- Well-formed byte buffer: every element fits in a byte. -/
def IsBytes (l : List Nat) : Prop := ∀ b ∈ l, b < 256

instance (l : List Nat) : Decidable (IsBytes l) := by
  unfold IsBytes; infer_instance

/-- Go slice expression `s[a:b]` (capacity taken equal to the length). -/
def slice (s : List Nat) (a b : Nat) : Option (List Nat) :=
  if a ≤ b ∧ b ≤ s.length then some ((s.drop a).take (b - a)) else none

/-- Go slice expression `s[a:]`. -/
def sliceFrom (s : List Nat) (a : Nat) : Option (List Nat) :=
  if a ≤ s.length then some (s.drop a) else none

/-- Go slice expression `s[:b]`. -/
def sliceTo (s : List Nat) (b : Nat) : Option (List Nat) :=
  if b ≤ s.length then some (s.take b) else none

/-- Go builtin `copy(dst, src)`: the new contents of `dst`. -/
def copy (dst src : List Nat) : List Nat :=
  src.take dst.length ++ dst.drop src.length

/-- Go `make([]byte, n)`. -/
def make (n : Nat) : List Nat := List.replicate n 0

/-- Go `bytes.Repeat([]byte{b}, n)`. -/
def bytesRepeat (b n : Nat) : List Nat := List.replicate n b

/-! ## `cipher.Block` -/

/-- The `cipher.Block` interface: block size, and encryption and decryption of
one block. -/
structure Block where
  BlockSize : Nat
  Encrypt : List Nat → List Nat
  Decrypt : List Nat → List Nat

/-- Call `bl.Encrypt(dst, src)`: the first block of `src` is encrypted into
the first block of `dst`; the new contents of `dst` are returned.  As in
`crypto/aes`, the call panics when `src` or `dst` is shorter than a block. -/
def Block.encryptInto (bl : Block) (dst src : List Nat) : Option (List Nat) :=
  if src.length < bl.BlockSize ∨ dst.length < bl.BlockSize then none
  else some (bl.Encrypt (src.take bl.BlockSize) ++ dst.drop bl.BlockSize)

/-- Call `bl.Decrypt(dst, src)`, as `Block.encryptInto`. -/
def Block.decryptInto (bl : Block) (dst src : List Nat) : Option (List Nat) :=
  if src.length < bl.BlockSize ∨ dst.length < bl.BlockSize then none
  else some (bl.Decrypt (src.take bl.BlockSize) ++ dst.drop bl.BlockSize)

/-- A block cipher maps byte blocks to byte blocks. -/
structure Block.WF (bl : Block) : Prop where
  pos : 0 < bl.BlockSize
  enc_len : ∀ x, x.length = bl.BlockSize → IsBytes x → (bl.Encrypt x).length = bl.BlockSize
  dec_len : ∀ x, x.length = bl.BlockSize → IsBytes x → (bl.Decrypt x).length = bl.BlockSize
  enc_bytes : ∀ x, x.length = bl.BlockSize → IsBytes x → IsBytes (bl.Encrypt x)
  dec_bytes : ∀ x, x.length = bl.BlockSize → IsBytes x → IsBytes (bl.Decrypt x)

/-- Decrypt undoes Encrypt on every byte block. -/
def Block.Invertible (bl : Block) : Prop :=
  ∀ x, x.length = bl.BlockSize → IsBytes x → bl.Decrypt (bl.Encrypt x) = x

/-- Encrypt is injective on byte blocks. -/
def Block.Injective (bl : Block) : Prop :=
  ∀ x y, x.length = bl.BlockSize → y.length = bl.BlockSize → IsBytes x → IsBytes y →
    bl.Encrypt x = bl.Encrypt y → x = y

/-! ## set1.go -/

/-- Loop of `XorSlice`: `res[i] = x[i] ^ y[i % len(y)]`, from index `i` on. -/
def XorSlice.loop (y : List Nat) : Nat → List Nat → List Nat
  | _, [] => []
  | i, a :: x => (a ^^^ y.getD (i % y.length) 0) :: XorSlice.loop y (i + 1) x

/-- Source `set1.go`, `XorSlice`: XOR of `x` by `y` repeated cyclically.  An
empty `y` with a non-empty `x` divides by zero. -/
def XorSlice (x y : List Nat) : Option (List Nat) :=
  if y.length = 0 ∧ x.length ≠ 0 then none else some (XorSlice.loop y 0 x)

/-- Loop of `DecryptECB`. -/
def DecryptECB.loop (bl : Block) (src : List Nat) : Nat → Nat → List Nat → Option (List Nat)
  | 0, _, _ => none
  | fuel + 1, i, dst =>
    if i < src.length then
      (sliceFrom dst i).bind fun d =>
      (sliceFrom src i).bind fun s =>
      (bl.decryptInto d s).bind fun d1 =>
      DecryptECB.loop bl src fuel (i + bl.BlockSize) (dst.take i ++ d1)
    else some dst

/-- Source `set1.go`, `DecryptECB`. -/
def DecryptECB (src : List Nat) (block : Block) : Option (List Nat) :=
  DecryptECB.loop block src (src.length + 1) 0 (make src.length)

/-! ## set2.go -/

/-- Source `set2.go`, `PadPKCS7`; `size` is a `uint8`. -/
def PadPKCS7 (src : List Nat) (size : Nat) : Option (List Nat) :=
  if size = 0 then none
  else
    let padLen := size - src.length % size
    some (src ++ bytesRepeat (padLen % 256) padLen)

/-- Loop of `UnpadPKCS7`: `false` as soon as a byte of `padding` differs from
`added`. -/
def UnpadPKCS7.loop (added : Nat) : List Nat → Bool
  | [] => true
  | b :: rest => if b ≠ added then false else UnpadPKCS7.loop added rest

/-- Source `set2.go`, `UnpadPKCS7`; `size` is a `uint8`.  Outer `none`: panic;
`some none`: the nil result; `some (some b)`: the buffer `b`. -/
def UnpadPKCS7 (src : List Nat) (size : Nat) : Option (Option (List Nat)) :=
  if size = 0 then none
  else if src.length % size ≠ 0 then none
  else
    match src.getLast? with
    | none => none
    | some added =>
      if src.length < added then none
      else
        let padding := src.drop (src.length - added)
        if UnpadPKCS7.loop added padding then some (some (src.take (src.length - added)))
        else some none

/-- Loop of `EncryptECB`. -/
def EncryptECB.loop (bl : Block) (src : List Nat) : Nat → Nat → List Nat → Option (List Nat)
  | 0, _, _ => none
  | fuel + 1, i, dst =>
    if i < src.length then
      (sliceFrom dst i).bind fun d =>
      (sliceFrom src i).bind fun s =>
      (bl.encryptInto d s).bind fun d1 =>
      EncryptECB.loop bl src fuel (i + bl.BlockSize) (dst.take i ++ d1)
    else some dst

/-- Source `set2.go`, `EncryptECB`. -/
def EncryptECB (src : List Nat) (bl : Block) : Option (List Nat) :=
  if bl.BlockSize = 0 then none
  else if src.length % bl.BlockSize ≠ 0 then none
  else EncryptECB.loop bl src (src.length + 1) 0 (make src.length)

/-- Loop of `EncryptCBC`. -/
def EncryptCBC.loop (bl : Block) (src : List Nat) :
    Nat → Nat → List Nat → List Nat → Option (List Nat)
  | 0, _, _, _ => none
  | fuel + 1, i, res, iv =>
    if i < src.length then
      (slice res i (i + bl.BlockSize)).bind fun b =>
      (slice src i (i + bl.BlockSize)).bind fun s =>
      (XorSlice s iv).bind fun x =>
      (bl.encryptInto b x).bind fun b1 =>
      EncryptCBC.loop bl src fuel (i + bl.BlockSize)
        (res.take i ++ b1 ++ res.drop (i + bl.BlockSize)) b1
    else some res

/-- Source `set2.go`, `EncryptCBC`. -/
def EncryptCBC (bl : Block) (src iv : List Nat) : Option (List Nat) :=
  if bl.BlockSize = 0 then none
  else if src.length % bl.BlockSize ≠ 0 then none
  else if iv.length ≠ bl.BlockSize then none
  else EncryptCBC.loop bl src (src.length + 1) 0 (make src.length) iv

/-- Loop of `DecryptCBC`. -/
def DecryptCBC.loop (bl : Block) (src : List Nat) :
    Nat → Nat → List Nat → List Nat → Option (List Nat)
  | 0, _, _, _ => none
  | fuel + 1, i, res, iv =>
    if i < src.length then
      (sliceFrom res i).bind fun d =>
      (sliceFrom src i).bind fun s =>
      (bl.decryptInto d s).bind fun d1 =>
      (XorSlice d1 iv).bind fun x =>
      (slice src i (i + bl.BlockSize)).bind fun iv1 =>
      DecryptCBC.loop bl src fuel (i + bl.BlockSize) (res.take i ++ copy d1 x) iv1
    else some res

/-- Source `set2.go`, `DecryptCBC`. -/
def DecryptCBC (bl : Block) (src iv : List Nat) : Option (List Nat) :=
  if bl.BlockSize = 0 then none
  else if src.length % bl.BlockSize ≠ 0 then none
  else if iv.length ≠ bl.BlockSize then none
  else DecryptCBC.loop bl src (src.length + 1) 0 (make src.length) iv

/-! ## set1.go: ECB detection -/

/-- Loop of `DetectECB`; the Go map of seen blocks is the list `m`. -/
def DetectECB.loop (src : List Nat) (blockSize : Nat) :
    Nat → Nat → List (List Nat) → Option Bool
  | 0, _, _ => some false
  | n + 1, i, m =>
    (slice src (i * blockSize) ((i + 1) * blockSize)).bind fun block =>
    if block ∈ m then some true
    else DetectECB.loop src blockSize n (i + 1) (block :: m)

/-- Source `set1.go`, `DetectECB`. -/
def DetectECB (src : List Nat) (blockSize : Nat) : Option Bool :=
  if blockSize = 0 then none
  else DetectECB.loop src blockSize (src.length / blockSize) 0 []

/-! ## set2.go: the ECB append oracle and its attack -/

/-- Source `cryptopals.go`, `mod`: `(x%y + y) % y` with Go's truncated `%`. -/
def mod (x y : Int) : Int := (Int.tmod x y + y).tmod y

/-- Source `set2.go`, `NewAppendECBOracle`: the returned closure, for the
cipher `bl` it drew and the decoded secret. -/
def NewAppendECBOracle (bl : Block) (secret : List Nat) (src : List Nat) : Option (List Nat) :=
  (PadPKCS7 (src ++ secret) (bl.BlockSize % 256)).bind fun res => EncryptECB res bl

/-- Loop of `findBlockSize`, candidate sizes `bs, bs+1, ...`. -/
def findBlockSize.loop (oracle : List Nat → Option (List Nat)) : Nat → Nat → Option Nat
  | 0, _ => some 0
  | n + 1, bs =>
    (oracle (bytesRepeat 65 (bs * 3))).bind fun c =>
    (DetectECB c bs).bind fun e =>
    if e then some bs else findBlockSize.loop oracle n (bs + 1)

/-- Source `set2.go`, `findBlockSize`: sizes 3 to 63. -/
def findBlockSize (oracle : List Nat → Option (List Nat)) : Option Nat :=
  findBlockSize.loop oracle 61 3

/-- Closure `constructFirstMap` of `DecryptAppendOracle`; the Go map is an
association list whose newest entry for a key wins. -/
def DecryptAppendOracle.constructFirstMap (oracle : List Nat → Option (List Nat)) (bs : Nat)
    (src : List Nat) : Nat → Nat → List (List Nat × Nat) → Option (List (List Nat × Nat))
  | 0, _, res => some res
  | n + 1, i, res =>
    (oracle (src ++ [i % 256])).bind fun c =>
    (sliceTo c bs).bind fun key =>
    DecryptAppendOracle.constructFirstMap oracle bs src n (i + 1) ((key, i % 256) :: res)

/-- Closure `findNext` of `DecryptAppendOracle`. -/
def DecryptAppendOracle.findNext (oracle : List Nat → Option (List Nat)) (bs : Nat)
    (first pattern : List Nat) (current : Nat) : Nat → Nat → Option Nat
  | 0, _ => some 0
  | n + 1, i =>
    (oracle ((first ++ [i % 256]) ++ pattern)).bind fun c =>
    let pos := current * bs + bs
    (sliceTo c bs).bind fun a =>
    (slice c pos (pos + bs)).bind fun b =>
    if a = b then some (i % 256)
    else DecryptAppendOracle.findNext oracle bs first pattern current n (i + 1)

/-- Main loop of `DecryptAppendOracle`. -/
def DecryptAppendOracle.loop (oracle : List Nat → Option (List Nat)) (bs : Nat) :
    Nat → Nat → List Nat → Option (List Nat)
  | 0, _, res => some res
  | n + 1, i, res =>
    let r := bytesRepeat 65 (mod ((bs : Int) - (i : Int) - 1) (bs : Int)).toNat
    let current := i / bs
    if current = 0 then
      (sliceTo res i).bind fun known =>
      (DecryptAppendOracle.constructFirstMap oracle bs (r ++ known) 128 0 []).bind fun m =>
      (oracle r).bind fun c =>
      (sliceTo c bs).bind fun key =>
      match m.lookup key with
      | some b => DecryptAppendOracle.loop oracle bs n (i + 1) (res.set i b)
      | none => DecryptAppendOracle.loop oracle bs n (i + 1) res
    else
      (slice res (i - bs + 1) i).bind fun first =>
      (DecryptAppendOracle.findNext oracle bs first r current 128 0).bind fun b =>
      DecryptAppendOracle.loop oracle bs n (i + 1) (res.set i b)

/-- Source `set2.go`, `DecryptAppendOracle`.  The slices that `findNext`
appends to share the backing array of `res`, but only at indices that the main
loop assigns afterwards, so the buffer returned is the one computed here. -/
def DecryptAppendOracle (oracle : List Nat → Option (List Nat)) : Option (List Nat) :=
  (findBlockSize oracle).bind fun bs =>
  if bs = 0 then none
  else
    (oracle []).bind fun c0 =>
    DecryptAppendOracle.loop oracle bs c0.length 0 (make c0.length)

/-! ## set3.go: the CBC padding oracle and CTR mode -/

/-- Source `set3.go`, `NewCBCPaddingOracle`: the ciphertext `res` it returns,
for the cipher and IV it drew and the plaintext it chose. -/
def NewCBCPaddingOracle.res (bl : Block) (iv plaintext : List Nat) : Option (List Nat) :=
  (PadPKCS7 plaintext (bl.BlockSize % 256)).bind fun p =>
  (EncryptCBC bl p iv).bind fun c => some (iv ++ c)

/-- Source `set3.go`, `NewCBCPaddingOracle`: the closure `verify`. -/
def NewCBCPaddingOracle.verify (bl : Block) (iv : List Nat) (src : List Nat) : Option Bool :=
  (sliceFrom src bl.BlockSize).bind fun s =>
  (DecryptCBC bl s iv).bind fun d =>
  (UnpadPKCS7 d (bl.BlockSize % 256)).bind fun u => some u.isSome

/-- Loop `for k := 0; k < int(pad); k++ { src[prev-k] ^= out[curr-k] ^ pad }`
of `DecryptPaddingOracle`; the new contents of `src`. -/
def DecryptPaddingOracle.xorLoop (out : List Nat) (prev curr pad : Nat) :
    Nat → Nat → List Nat → Option (List Nat)
  | 0, _, src => some src
  | n + 1, k, src =>
    if prev < k ∨ curr < k then none
    else
      match src[prev - k]?, out[curr - k]? with
      | some s, some o =>
        DecryptPaddingOracle.xorLoop out prev curr pad n (k + 1)
          (src.set (prev - k) (s ^^^ (o ^^^ pad)))
      | _, _ => none

/-- Loop over the candidates `j` of `DecryptPaddingOracle`; the state is
`(src, out, valid)`. -/
def DecryptPaddingOracle.jLoop (padCheck : List Nat → Option Bool) (i prev curr pad : Nat) :
    Nat → Nat → List Nat → List Nat → Bool → Option (List Nat × List Nat × Bool)
  | 0, _, src, out, valid => some (src, out, valid)
  | n + 1, j, src, out, valid =>
    if j = pad then DecryptPaddingOracle.jLoop padCheck i prev curr pad n (j + 1) src out valid
    else if out.length ≤ i then none
    else
      let out1 := out.set i j
      (DecryptPaddingOracle.xorLoop out1 prev curr pad pad 0 src).bind fun src1 =>
      (sliceTo src1 (curr + 1)).bind fun arg =>
      (padCheck arg).bind fun valid1 =>
      (DecryptPaddingOracle.xorLoop out1 prev curr pad pad 0 src1).bind fun src2 =>
      if valid1 then some (src2, out1, true)
      else DecryptPaddingOracle.jLoop padCheck i prev curr pad n (j + 1) src2 out1 valid1

/-- Loop over the positions `i = 2*blockSize + n, ..., 2*blockSize` of
`DecryptPaddingOracle`; the state is `(src, out)`. -/
def DecryptPaddingOracle.iLoop (padCheck : List Nat → Option Bool) (blockSize : Nat) :
    Nat → List Nat → List Nat → Option (List Nat × List Nat)
  | 0, src, out => some (src, out)
  | n + 1, src, out =>
    let i := 2 * blockSize + n
    let prev := i / blockSize * blockSize - 1
    let curr := prev + blockSize
    let pad := (blockSize - i % blockSize) % 256
    (DecryptPaddingOracle.jLoop padCheck i prev curr pad 256 0 src out false).bind fun r =>
    let out1 := if r.2.2 then r.2.1 else r.2.1.set i pad
    DecryptPaddingOracle.iLoop padCheck blockSize n r.1 out1

/-- Source `set3.go`, `DecryptPaddingOracle`. -/
def DecryptPaddingOracle (src : List Nat) (blockSize : Nat)
    (padCheck : List Nat → Option Bool) : Option (List Nat) :=
  if blockSize = 0 then none
  else
    (sliceTo src blockSize).bind fun head =>
    let src1 := head ++ src
    let out := make src1.length
    (DecryptPaddingOracle.iLoop padCheck blockSize (src1.length - 2 * blockSize) src1 out).bind
    fun r =>
    (UnpadPKCS7 r.2 (blockSize % 256)).bind fun u =>
    match u with
    | none => none
    | some out1 => sliceFrom out1 (2 * blockSize)

/-- Loop `for j := 0; i+j < sz && j < bs; j++ { output[j] ^= src[i+j] }` of
`EncryptCTR`; the new contents of `output`. -/
def EncryptCTR.xorLoop (src : List Nat) (sz bs i : Nat) : Nat → Nat → List Nat → Option (List Nat)
  | 0, _, output => some output
  | n + 1, j, output =>
    if i + j < sz ∧ j < bs then
      match output[j]?, src[i + j]? with
      | some o, some s => EncryptCTR.xorLoop src sz bs i n (j + 1) (output.set j (o ^^^ s))
      | _, _ => none
    else some output

/-- Counter update of `EncryptCTR`: `input[p]++; if input[p] == 0 { p++;
input[p]++ }`; the new `(input, p)`. -/
def EncryptCTR.incr (input : List Nat) (p : Nat) : Option (List Nat × Nat) :=
  (input[p]?).bind fun a =>
  let input1 := input.set p ((a + 1) % 256)
  if (a + 1) % 256 = 0 then
    (input1[p + 1]?).bind fun b => some (input1.set (p + 1) ((b + 1) % 256), p + 1)
  else some (input1, p)

/-- Main loop of `EncryptCTR`. -/
def EncryptCTR.loop (bl : Block) (src : List Nat) :
    Nat → Nat → List Nat → List Nat → List Nat → Nat → Option (List Nat)
  | 0, _, _, _, _, _ => none
  | fuel + 1, i, dst, input, output, p =>
    if i < src.length then
      (bl.encryptInto output input).bind fun output1 =>
      (EncryptCTR.incr input p).bind fun st =>
      (EncryptCTR.xorLoop src src.length bl.BlockSize i bl.BlockSize 0 output1).bind fun output2 =>
      (sliceFrom dst i).bind fun d =>
      EncryptCTR.loop bl src fuel (i + bl.BlockSize) (dst.take i ++ copy d output2)
        st.1 output2 st.2
    else some dst

/-- Source `set3.go`, `EncryptCTR`. -/
def EncryptCTR (bl : Block) (src nonce : List Nat) : Option (List Nat) :=
  EncryptCTR.loop bl src (src.length + 1) 0 (make src.length)
    (copy (make bl.BlockSize) nonce) (make bl.BlockSize) nonce.length

/-- Source `set3.go`: `var DecryptCTR = EncryptCTR`. -/
def DecryptCTR : Block → List Nat → List Nat → Option (List Nat) := EncryptCTR

/-! ## set2.go: the profile oracle and the CBC bit-flipping oracle

Strings are byte lists; string constants are spelled out as ASCII codes.
The functions of `net/url` that the source calls are modelled from the Go
standard library (`url.Values.Encode`, `url.QueryEscape`, `url.ParseQuery`,
`url.Values.Get`), as are `bytes.ReplaceAll` and `strings.Contains`. -/

/-- Go `bytes.ReplaceAll(src, []byte{old}, new)` for a one-byte `old`. -/
def bytesReplaceAll (old : Nat) (new : List Nat) : List Nat → List Nat
  | [] => []
  | b :: rest =>
    if b = old then new ++ bytesReplaceAll old new rest else b :: bytesReplaceAll old new rest

/-- Go `strings.Contains(s, substr)`. -/
def stringsContains (substr : List Nat) : List Nat → Bool
  | [] => substr.isPrefixOf []
  | c :: rest => substr.isPrefixOf (c :: rest) || stringsContains substr rest

/-- Go `strings.Cut(s, sep)` for a one-byte `sep`: the text before the first
`sep` and the text after it (all of `s` and the empty string without `sep`). -/
def stringsCut (sep : Nat) : List Nat → List Nat × List Nat
  | [] => ([], [])
  | c :: rest =>
    if c = sep then ([], rest)
    else ((c :: (stringsCut sep rest).1), (stringsCut sep rest).2)

/-- Upper-case hexadecimal digit of a value below 16. -/
def upperhex (n : Nat) : Nat := if n < 10 then 48 + n else 55 + n

/-- Go `url.shouldEscape(c, encodeQueryComponent)`: letters, digits and
`-_.~` are kept. -/
def shouldEscape (c : Nat) : Bool :=
  !((97 ≤ c ∧ c ≤ 122) ∨ (65 ≤ c ∧ c ≤ 90) ∨ (48 ≤ c ∧ c ≤ 57)
    ∨ c = 45 ∨ c = 95 ∨ c = 46 ∨ c = 126)

/-- Go `url.QueryEscape`. -/
def QueryEscape : List Nat → List Nat
  | [] => []
  | c :: rest =>
    if shouldEscape c then
      if c = 32 then 43 :: QueryEscape rest
      else 37 :: upperhex (c / 16) :: upperhex (c % 16) :: QueryEscape rest
    else c :: QueryEscape rest

/-- Value of a hexadecimal digit, `none` for any other byte. -/
def unhex (c : Nat) : Option Nat :=
  if 48 ≤ c ∧ c ≤ 57 then some (c - 48)
  else if 97 ≤ c ∧ c ≤ 102 then some (c - 97 + 10)
  else if 65 ≤ c ∧ c ≤ 70 then some (c - 65 + 10)
  else none

/-- Go `url.QueryUnescape`; `none` is the error result (a `%` not followed by
two hexadecimal digits). -/
def QueryUnescape : List Nat → Option (List Nat)
  | [] => some []
  | 37 :: a :: b :: rest =>
    (unhex a).bind fun x => (unhex b).bind fun y =>
    (QueryUnescape rest).bind fun r => some ((x * 16 + y) :: r)
  | 37 :: _ => none
  | 43 :: rest => (QueryUnescape rest).bind fun r => some (32 :: r)
  | c :: rest => (QueryUnescape rest).bind fun r => some (c :: r)

/-- Go `m[key] = append(m[key], value)` on a `url.Values`, kept as an
association list. -/
def valuesAdd (key value : List Nat) :
    List (List Nat × List (List Nat)) → List (List Nat × List (List Nat))
  | [] => [(key, [value])]
  | (k, vs) :: rest =>
    if k = key then (k, vs ++ [value]) :: rest else (k, vs) :: valuesAdd key value rest

/-- Go `url.parseQuery`: the loop over the `&`-separated pairs; the state is
the map and the error flag. -/
def parseQuery : Nat → List Nat → List (List Nat × List (List Nat)) → Bool →
    List (List Nat × List (List Nat)) × Bool
  | 0, _, m, err => (m, err)
  | fuel + 1, query, m, err =>
    if query = [] then (m, err)
    else
      let pair := (stringsCut 38 query).1
      let query1 := (stringsCut 38 query).2
      if stringsContains [59] pair then parseQuery fuel query1 m true
      else if pair = [] then parseQuery fuel query1 m err
      else
        match QueryUnescape (stringsCut 61 pair).1 with
        | none => parseQuery fuel query1 m true
        | some key =>
          match QueryUnescape (stringsCut 61 pair).2 with
          | none => parseQuery fuel query1 m true
          | some value => parseQuery fuel query1 (valuesAdd key value m) err

/-- Go `url.ParseQuery`: the values and whether an error was met. -/
def ParseQuery (query : List Nat) : List (List Nat × List (List Nat)) × Bool :=
  parseQuery (query.length + 1) query [] false

/-- Go `url.Values.Get`: the first value of `key`, or the empty string. -/
def valuesGet (m : List (List Nat × List (List Nat))) (key : List Nat) : List Nat :=
  match m.lookup key with
  | some (v :: _) => v
  | _ => []

/-- Source `set2.go`, `GenerateProfile`: `url.Values.Encode` writes the keys
in sorted order, `email`, `role`, `uid`. -/
def GenerateProfile (email : List Nat) : List Nat :=
  [101, 109, 97, 105, 108, 61] ++ QueryEscape email
    ++ ([38, 114, 111, 108, 101, 61, 117, 115, 101, 114] ++ [38, 117, 105, 100, 61, 49, 48])

/-- Source `set2.go`, `NewProfileOracle`: the closure `oracle`, for the cipher
`block` it drew. -/
def NewProfileOracle.oracle (block : Block) (email : List Nat) : Option (List Nat) :=
  (PadPKCS7 (GenerateProfile email) (block.BlockSize % 256)).bind fun p => EncryptECB p block

/-- Source `set2.go`, `DecryptAdmin`. -/
def DecryptAdmin (src : List Nat) (bl : Block) : Option Bool :=
  (DecryptECB src bl).bind fun b =>
  (UnpadPKCS7 b (bl.BlockSize % 256)).bind fun b1 =>
  let v := ParseQuery (b1.getD [])
  if v.2 then some false
  else some (decide (valuesGet v.1 [114, 111, 108, 101] = [97, 100, 109, 105, 110]))

/-- Source `set2.go`, `GenerateAdmin`; `e = len("email=")`, `r = len("&role=")`. -/
def GenerateAdmin (oracle : List Nat → Option (List Nat)) (size : Nat) : Option (List Nat) :=
  if size < 6 then none
  else
    let b := bytesRepeat 65 (size - 6)
    if b.length < 6 then none
    else
      (sliceTo b (b.length - 6)).bind fun email1 =>
      (oracle email1).bind fun c1 =>
      (slice c1 0 size).bind fun x =>
      (oracle (b ++ [97, 100, 109, 105, 110])).bind fun c2 =>
      (slice c2 size (size * 3)).bind fun y =>
      some (x ++ y)

/-- Source `set2.go`, `NewCBCBitflipOracle`: the constant `pre`,
`"comment1=cooking%20MCs;userdata="`. -/
def NewCBCBitflipOracle.pre : List Nat :=
  [99, 111, 109, 109, 101, 110, 116, 49, 61, 99, 111, 111, 107, 105, 110, 103, 37, 50, 48, 77, 67, 115, 59, 117, 115, 101, 114, 100, 97, 116, 97, 61]

/-- Source `set2.go`, `NewCBCBitflipOracle`: the constant `end`,
`";comment2=%20like%20a%20pound%20of%20bacon"`. -/
def NewCBCBitflipOracle.end_ : List Nat :=
  [59, 99, 111, 109, 109, 101, 110, 116, 50, 61, 37, 50, 48, 108, 105, 107, 101, 37, 50, 48, 97, 37, 50, 48, 112, 111, 117, 110, 100, 37, 50, 48, 111, 102, 37, 50, 48, 98, 97, 99, 111, 110]

/-- Source `set2.go`, `NewCBCBitflipOracle`: the closure `oracle`, for the
cipher and IV it drew. -/
def NewCBCBitflipOracle.oracle (bl : Block) (iv : List Nat) (src : List Nat) :
    Option (List Nat) :=
  let src1 := bytesReplaceAll 59 [37, 51, 66] src
  let src2 := bytesReplaceAll 61 [37, 51, 68] src1
  let inp := (NewCBCBitflipOracle.pre ++ src2) ++ NewCBCBitflipOracle.end_
  (PadPKCS7 inp (bl.BlockSize % 256)).bind fun p => EncryptCBC bl p iv

/-- Source `set2.go`, `NewCBCBitflipOracle`: the closure `checkAdmin`, which
looks for `";admin=true;"`. -/
def NewCBCBitflipOracle.checkAdmin (bl : Block) (iv : List Nat) (src : List Nat) :
    Option Bool :=
  (DecryptCBC bl src iv).bind fun d =>
  some (stringsContains [59, 97, 100, 109, 105, 110, 61, 116, 114, 117, 101, 59] d)

/-- Go `o[i] ^= v` on a byte slice. -/
def xorAt (o : List Nat) (i v : Nat) : Option (List Nat) :=
  (o[i]?).bind fun x => some (o.set i (x ^^^ v))

/-- Source `set2.go`, `SolveCBCBitflipOracle`: the input is `"XadminXtrue"`,
and the two bytes are XORed with `'X' ^ ';'` and `'X' ^ '='`. -/
def SolveCBCBitflipOracle (oracle : List Nat → Option (List Nat)) : Option (List Nat) :=
  (oracle [88, 97, 100, 109, 105, 110, 88, 116, 114, 117, 101]).bind fun o =>
  (xorAt o 16 (88 ^^^ 59)).bind fun o1 =>
  xorAt o1 22 (88 ^^^ 61)

/-! ## set1.go: Hamming distance -/

/-- Go `bits.OnesCount8`: the number of one bits among the 8 bits of a byte. -/
def OnesCount8 (b : Nat) : Nat := (List.range 8).countP fun k => b.testBit k

/-- Loop `for _, b := range ... { count += bits.OnesCount8(b) }` of
`ComputeHamming`. -/
def ComputeHamming.loop : List Nat → Nat → Nat
  | [], count => count
  | b :: rest, count => ComputeHamming.loop rest (count + OnesCount8 b)

/-- Source `set1.go`, `ComputeHamming`. -/
def ComputeHamming (x y : List Nat) : Option Nat :=
  (XorSlice x y).bind fun r => some (ComputeHamming.loop r 0)

/-! ## set1.go: single-byte XOR and the frequency score

`float64` in `ScoreString` and `GuessKey`.  A score is a sum of entries of
`frequency`, all of which are at least `2^-11`; every `float64` that such a sum
can be is therefore a multiple of `2^-63`, and it is represented by the natural
number `v * 2^63`.  Addition rounds to 53 significant bits, to nearest, ties to
even, as IEEE 754 does; a Go slice has fewer than `2^63` elements, so no sum
overflows. -/

/-- Source `set1.go`, `SingleXor`, at type `byte`. -/
def SingleXor (x : List Nat) (key : Nat) : List Nat := x.map fun b => b ^^^ key

/-- The number of bits that `q` has beyond 53: the least `e` with
`q / 2^e < 2^53` (the first argument bounds the search and is `q` itself). -/
def excessBits : Nat → Nat → Nat
  | 0, _ => 0
  | fuel + 1, q => if q < 2 ^ 53 then 0 else excessBits fuel (q / 2) + 1

/-- The `float64` nearest to `num / den` (ties to even), both in units of
`2^-63`, for `num / den >= 2^52` units (and for integers below `2^53`, which
are exact). -/
def roundFloat64 (num den : Nat) : Nat :=
  let e := excessBits (num / den) (num / den)
  let d := den * 2 ^ e
  let m := num / d
  let r := num % d
  if 2 * r < d then m * 2 ^ e
  else if 2 * r = d ∧ m % 2 = 0 then m * 2 ^ e
  else (m + 1) * 2 ^ e

/-- Addition of `float64`, `count += f`. -/
def addFloat64 (a b : Nat) : Nat := roundFloat64 (a + b) 1

/-- The `float64` constant written as the decimal `n / 100000` in the source. -/
def decimalFloat64 (n : Nat) : Nat := roundFloat64 (n * 2 ^ 63) 100000

/-- Source `set1.go`, the map `frequency`, from runes to `float64`, entry by
entry in the order of the source. -/
def frequency (r : Nat) : Option Nat :=
  if r = 32 then some (decimalFloat64 18288)
  else if r = 101 then some (decimalFloat64 10267)
  else if r = 116 then some (decimalFloat64 7517)
  else if r = 97 then some (decimalFloat64 6532)
  else if r = 111 then some (decimalFloat64 6160)
  else if r = 110 then some (decimalFloat64 5712)
  else if r = 105 then some (decimalFloat64 5668)
  else if r = 115 then some (decimalFloat64 5317)
  else if r = 114 then some (decimalFloat64 4988)
  else if r = 104 then some (decimalFloat64 4979)
  else if r = 108 then some (decimalFloat64 3318)
  else if r = 100 then some (decimalFloat64 3283)
  else if r = 117 then some (decimalFloat64 2276)
  else if r = 99 then some (decimalFloat64 2234)
  else if r = 109 then some (decimalFloat64 2027)
  else if r = 102 then some (decimalFloat64 1983)
  else if r = 119 then some (decimalFloat64 1704)
  else if r = 103 then some (decimalFloat64 1625)
  else if r = 112 then some (decimalFloat64 1504)
  else if r = 121 then some (decimalFloat64 1428)
  else if r = 98 then some (decimalFloat64 1259)
  else if r = 118 then some (decimalFloat64 796)
  else if r = 107 then some (decimalFloat64 560)
  else if r = 120 then some (decimalFloat64 141)
  else if r = 106 then some (decimalFloat64 97)
  else if r = 113 then some (decimalFloat64 837)
  else if r = 122 then some (decimalFloat64 51)
  else none

/-- Go `range` over a string: the rune decoded at the head of the bytes and its
width in bytes.  Bytes that do not start a well-formed UTF-8 sequence decode to
U+FFFD with width 1. -/
def decodeRune : List Nat → Nat × Nat
  | [] => (0xFFFD, 1)
  | b0 :: rest =>
    if b0 < 0x80 then (b0, 1)
    else if 0xC2 ≤ b0 ∧ b0 ≤ 0xDF then
      match rest with
      | b1 :: _ =>
        if 0x80 ≤ b1 ∧ b1 ≤ 0xBF then (b0 % 32 * 64 + b1 % 64, 2) else (0xFFFD, 1)
      | _ => (0xFFFD, 1)
    else if 0xE0 ≤ b0 ∧ b0 ≤ 0xEF then
      match rest with
      | b1 :: b2 :: _ =>
        if (if b0 = 0xE0 then 0xA0 else 0x80) ≤ b1 ∧ b1 ≤ (if b0 = 0xED then 0x9F else 0xBF)
            ∧ 0x80 ≤ b2 ∧ b2 ≤ 0xBF then
          (b0 % 16 * 4096 + b1 % 64 * 64 + b2 % 64, 3)
        else (0xFFFD, 1)
      | _ => (0xFFFD, 1)
    else if 0xF0 ≤ b0 ∧ b0 ≤ 0xF4 then
      match rest with
      | b1 :: b2 :: b3 :: _ =>
        if (if b0 = 0xF0 then 0x90 else 0x80) ≤ b1 ∧ b1 ≤ (if b0 = 0xF4 then 0x8F else 0xBF)
            ∧ 0x80 ≤ b2 ∧ b2 ≤ 0xBF ∧ 0x80 ≤ b3 ∧ b3 ≤ 0xBF then
          (b0 % 8 * 262144 + b1 % 64 * 4096 + b2 % 64 * 64 + b3 % 64, 4)
        else (0xFFFD, 1)
      | _ => (0xFFFD, 1)
    else (0xFFFD, 1)

/-- Go `unicode.ToLower`, as far as a lookup in `frequency` can tell: the
runes whose lower case is a key of the map are `A`..`Z`, U+0130 (lower case
`i`) and U+212A (lower case `k`), besides the keys themselves; every other rune
is left as it is, and neither it nor its lower case is a key. -/
def toLower (r : Nat) : Nat :=
  if 65 ≤ r ∧ r ≤ 90 then r + 32
  else if r = 0x130 then 105
  else if r = 0x212A then 107
  else r

/-- Loop of `ScoreString` over the bytes of the string; `skip` counts the
bytes still to pass over of a rune wider than one byte. -/
def ScoreString.loop : Nat → List Nat → Nat → Nat
  | _, [], count => count
  | skip + 1, _ :: rest, count => ScoreString.loop skip rest count
  | 0, b :: rest, count =>
    match frequency (toLower (decodeRune (b :: rest)).1) with
    | some f => ScoreString.loop ((decodeRune (b :: rest)).2 - 1) rest (addFloat64 count f)
    | none => ScoreString.loop ((decodeRune (b :: rest)).2 - 1) rest count

/-- Source `set1.go`, `ScoreString`, on the bytes of the string. -/
def ScoreString (s : List Nat) : Nat := ScoreString.loop 0 s 0

/-- Loop of `GuessKey` over the candidates `i, i+1, ...`; the state is
`(key, high)`. -/
def GuessKey.loop (src : List Nat) : Nat → Nat → Nat × Nat → Nat × Nat
  | 0, _, kh => kh
  | n + 1, i, kh =>
    if ScoreString (SingleXor src (i % 256)) > kh.2 then
      GuessKey.loop src n (i + 1) (i % 256, ScoreString (SingleXor src (i % 256)))
    else GuessKey.loop src n (i + 1) kh

/-- Source `set1.go`, `GuessKey`: the key and its score. -/
def GuessKey (src : List Nat) : Nat × Nat := GuessKey.loop src 256 0 (0, 0)


/-- Source `set1_test.go`, `TestChallenge3`: the ciphertext
`1b37373331363f78151b7f2b783431333d78397828372d363c78373e783a393b3736`. -/
def challenge3Ciphertext : List Nat :=
  [0x1b, 0x37, 0x37, 0x33, 0x31, 0x36, 0x3f, 0x78, 0x15, 0x1b, 0x7f, 0x2b, 0x78, 0x34, 0x31, 0x33,
    0x3d, 0x78, 0x39, 0x78, 0x28, 0x37, 0x2d, 0x36, 0x3c, 0x78, 0x37, 0x3e, 0x78, 0x3a, 0x39, 0x3b,
    0x37, 0x36]

/-- Source `set1_test.go`, `TestChallenge3`: the expected plaintext
`Cooking MC's like a pound of bacon`. -/
def challenge3Plaintext : List Nat :=
  [67, 111, 111, 107, 105, 110, 103, 32, 77, 67, 39, 115, 32, 108, 105, 107, 101, 32, 97, 32, 112,
    111, 117, 110, 100, 32, 111, 102, 32, 98, 97, 99, 111, 110]

/-! ## set1.go: key size and transposition

`float64` in `averageChunks` and `FindXorKeySize`.  A score is the quotient of
a sum of Hamming distances by a number of chunks and by a size below 40.  A Go
slice has fewer than `2^63` elements, so every `float64` that occurs and is not
zero is at least `2^-69`, hence a multiple of `2^-121`, and none overflows.  A
`float64` `v` is represented by the natural number `v * 2^128`; the conversion
from `int`, the addition and the division round to 53 significant bits, to
nearest, ties to even, as IEEE 754 does (`roundFloat64`).  The only value that
is not a number is the NaN of `0 / 0`, the `none` of an `Option`. -/

/-- Conversion `float64(n)` of an `int` that is not negative, in units of
`2^-128`. -/
def float64OfInt (n : Nat) : Nat := roundFloat64 (n * 2 ^ 128) 1

/-- Division `a / b` of `float64`, in units of `2^-128`, for `b` not zero. -/
def divFloat64 (a b : Nat) : Nat := roundFloat64 (a * 2 ^ 128) b

/-- Loop `for i = range src` of `averageChunks`.  The arguments are the number
of indices left, the next index, the current value of the variable `i` and the
sum `avg`; the result is `(i, avg)` when the loop is left. -/
def averageChunks.loop (src : List Nat) (size : Nat) :
    Nat → Nat → Nat → Nat → Option (Nat × Nat)
  | 0, _, i, avg => some (i, avg)
  | n + 1, idx, _, avg =>
    if size * (idx + 2) > src.length then some (idx, avg)
    else
      (sliceTo src size).bind fun a =>
      (slice src (size * (idx + 1)) (size * (idx + 2))).bind fun b =>
      (ComputeHamming a b).bind fun h =>
      averageChunks.loop src size n (idx + 1) idx (addFloat64 avg (float64OfInt h))

/-- Source `set1.go`, `averageChunks`: `avg / float64(i)`.  When `i` is 0 the
sum `avg` is 0 as well, and the quotient is the NaN of `0 / 0`. -/
def averageChunks (src : List Nat) (size : Nat) : Option (Option Nat) :=
  (averageChunks.loop src size src.length 0 0 0).bind fun r =>
  if r.1 = 0 then some none else some (some (divFloat64 r.2 (float64OfInt r.1)))

/-- Go `math.MaxFloat64`, in units of `2^-128`. -/
def MaxFloat64 : Nat := (2 ^ 1024 - 2 ^ 971) * 2 ^ 128

/-- Loop of `FindXorKeySize` over the sizes `size, size+1, ...`; a NaN score is
not below `low`. -/
def FindXorKeySize.loop (src : List Nat) : Nat → Nat → Nat → Nat → Option Nat
  | 0, _, result, _ => some result
  | n + 1, size, result, low =>
    (averageChunks src size).bind fun avg =>
    match avg with
    | none => FindXorKeySize.loop src n (size + 1) result low
    | some a =>
      if divFloat64 a (float64OfInt size) < low then
        FindXorKeySize.loop src n (size + 1) size (divFloat64 a (float64OfInt size))
      else FindXorKeySize.loop src n (size + 1) result low

/-- Source `set1.go`, `FindXorKeySize`: sizes 2 to 39. -/
def FindXorKeySize (src : List Nat) : Option Nat :=
  FindXorKeySize.loop src 38 2 0 MaxFloat64

/-- Loop of `TransposeBytes` over the bytes of `src` from index `i` on. -/
def TransposeBytes.loop (size : Nat) :
    List Nat → Nat → List (List Nat) → Option (List (List Nat))
  | [], _, res => some res
  | b :: rest, i, res =>
    if size = 0 then none
    else
      (res[i % size]?).bind fun col =>
      TransposeBytes.loop size rest (i + 1) (res.set (i % size) (col ++ [b]))

/-- Source `set1.go`, `TransposeBytes`. -/
def TransposeBytes (src : List Nat) (size : Nat) : Option (List (List Nat)) :=
  TransposeBytes.loop size src 0 (List.replicate size [])

/-- Loop `for i := range blocks` of `FindTransposedXorKey`. -/
def FindTransposedXorKey.loop : List (List Nat) → Nat → List Nat → Option (List Nat)
  | [], _, key => some key
  | block :: rest, i, key =>
    if i < key.length then
      FindTransposedXorKey.loop rest (i + 1) (key.set i (GuessKey block).1)
    else none

/-- Source `set1.go`, `FindTransposedXorKey`. -/
def FindTransposedXorKey (src : List Nat) (size : Nat) : Option (List Nat) :=
  (TransposeBytes src size).bind fun blocks =>
  FindTransposedXorKey.loop blocks 0 (make size)

/-! ## set2.go: the ECB oracle with a random prefix and its attack -/

/-- Source `set2.go`, `NewPrependECBOracle`: the returned closure, for the
prefix and the cipher it drew and the decoded secret. -/
def NewPrependECBOracle (bl : Block) (pre secret : List Nat) (src : List Nat) :
    Option (List Nat) :=
  (PadPKCS7 ((pre ++ src) ++ secret) (bl.BlockSize % 256)).bind fun res => EncryptECB res bl

/-- First loop of `DecryptPrependOracle`: the blocks of `c` are entered in the
map `m` with their index; the index stored for the first block that is seen a
second time is `pos`, and `pos` stays 0 when no block repeats. -/
def DecryptPrependOracle.findPos (c : List Nat) (bs : Nat) :
    Nat → Nat → List (List Nat × Nat) → Option Nat
  | 0, _, _ => none
  | fuel + 1, i, m =>
    if i < c.length then
      (slice c i (i + bs)).bind fun b =>
      match m.lookup b with
      | some p => some p
      | none => DecryptPrependOracle.findPos c bs fuel (i + bs) ((b, i) :: m)
    else some 0

/-- Second loop of `DecryptPrependOracle`: the first `i < bs` for which block
`[pos-bs : pos]` of `oracle(i bytes 'A')` equals that block of `c`; `needed`
stays 0 when there is none.  A negative slice index `pos - bs` panics. -/
def DecryptPrependOracle.findNeeded (oracle : List Nat → Option (List Nat)) (c : List Nat)
    (bs pos : Nat) : Nat → Nat → Option Nat
  | 0, _ => some 0
  | n + 1, i =>
    (oracle (bytesRepeat 65 i)).bind fun oc =>
    if pos < bs then none
    else
      (slice oc (pos - bs) pos).bind fun o =>
      (slice c (pos - bs) pos).bind fun p =>
      if o = p then some i
      else DecryptPrependOracle.findNeeded oracle c bs pos n (i + 1)

/-- Source `set2.go`, `DecryptPrependOracle`. -/
def DecryptPrependOracle (oracle : List Nat → Option (List Nat)) : Option (List Nat) :=
  (findBlockSize oracle).bind fun bs =>
  if bs = 0 then none
  else
    (oracle (bytesRepeat 65 (bs * 3))).bind fun c =>
    (DecryptPrependOracle.findPos c bs (c.length + 1) 0 []).bind fun pos =>
    (DecryptPrependOracle.findNeeded oracle c bs pos bs 0).bind fun needed =>
    DecryptAppendOracle fun src =>
      (oracle (bytesRepeat 65 needed ++ src)).bind fun r => sliceFrom r pos

/-! ## Specification-side definitions -/

/-- Block-by-block image of a buffer: `f` applied to each of the first `m`
blocks of `bs` bytes, independently of the others. -/
def mapBlocks (f : List Nat → List Nat) (bs : Nat) : Nat → List Nat → List Nat
  | 0, _ => []
  | m + 1, src => f (src.take bs) ++ mapBlocks f bs m (src.drop bs)

/-- Bytewise XOR of two buffers (of the same length). -/
def xorBytes (a b : List Nat) : List Nat := List.zipWith (fun x y => x ^^^ y) a b

/-- CBC encryption, block by block: `c[k] = Encrypt(p[k] XOR c[k-1])`, with
`c[-1] = iv`, for the first `m` blocks. -/
def cbcEncBlocks (bl : Block) : Nat → List Nat → List Nat → List Nat
  | 0, _, _ => []
  | m + 1, src, iv =>
    bl.Encrypt (xorBytes (src.take bl.BlockSize) iv)
      ++ cbcEncBlocks bl m (src.drop bl.BlockSize)
          (bl.Encrypt (xorBytes (src.take bl.BlockSize) iv))

/-- CBC decryption, block by block: `p[k] = Decrypt(c[k]) XOR c[k-1]`, with
`c[-1] = iv`, for the first `m` blocks. -/
def cbcDecBlocks (bl : Block) : Nat → List Nat → List Nat → List Nat
  | 0, _, _ => []
  | m + 1, src, iv =>
    xorBytes (bl.Decrypt (src.take bl.BlockSize)) iv
      ++ cbcDecBlocks bl m (src.drop bl.BlockSize) (src.take bl.BlockSize)

/-- A concrete cipher for examples: every byte of the block is XORed with
`key`. -/
def xorBlock (bs key : Nat) : Block where
  BlockSize := bs
  Encrypt x := x.map fun b => b ^^^ key
  Decrypt x := x.map fun b => b ^^^ key

/-- Well-formed PKCS#7 padding at the end of `d`, in the words of the
specification: the last byte `k` lies in `[1, size]` and the last `k` bytes of
`d` all equal `k`. -/
def wellFormedPKCS7 (d : List Nat) (size : Nat) : Bool :=
  match d.getLast? with
  | none => false
  | some k =>
    decide (1 ≤ k) && decide (k ≤ size) && decide (k ≤ d.length)
      && (d.drop (d.length - k)).all (fun b => b == k)

/-- An exact padding oracle for the cipher `bl` and the IV `iv`: the leading
IV block of the argument is dropped, the rest is decrypted in CBC mode under
`iv`, and the answer is whether the result ends in well-formed PKCS#7
padding. -/
def exactPadCheck (bl : Block) (iv : List Nat) (src : List Nat) : Option Bool :=
  (sliceFrom src bl.BlockSize).bind fun s =>
  (DecryptCBC bl s iv).bind fun d => some (wellFormedPKCS7 d bl.BlockSize)

/-- The padded plaintext that the append oracle encrypts for the input `x`:
`x ++ secret` followed by its PKCS#7 padding for the block size `bs`. -/
def appendPlain (bs : Nat) (secret x : List Nat) : List Nat :=
  (x ++ secret) ++ bytesRepeat ((bs - (x ++ secret).length % bs) % 256)
    (bs - (x ++ secret).length % bs)

/-- The block-aligned window `src[i*blockSize : (i+1)*blockSize]`. -/
def window (src : List Nat) (blockSize i : Nat) : List Nat :=
  (src.drop (i * blockSize)).take blockSize

/-- The number of bit positions, among the 8 of a byte, in which `a` and `b`
differ. -/
def bitDifferences (a b : Nat) : Nat :=
  (List.range 8).countP fun k => a.testBit k != b.testBit k

/-- The number of bit positions in which the byte sequences `x` and `y`
differ. -/
def differingBits (x y : List Nat) : Nat := (List.zipWith bitDifferences x y).sum

/-- Column `i` of `src` for the width `size`: the bytes of `src` at the
positions `p, p+1, ...` that are congruent to `i` modulo `size`, in increasing
position order; `p` is the position of the head of the list. -/
def columnFrom (size i : Nat) : Nat → List Nat → List Nat
  | _, [] => []
  | p, b :: rest =>
    if p % size = i then b :: columnFrom size i (p + 1) rest
    else columnFrom size i (p + 1) rest

/-- Column `i` of `src`: the bytes at positions congruent to `i` modulo
`size`. -/
def column (src : List Nat) (size i : Nat) : List Nat := columnFrom size i 0 src

/-- The sum of `ComputeHamming(chunk 0, chunk c)` over `c = 1 .. k`, for the
chunks `src[c*L : (c+1)*L]`. -/
def chunkDistanceTotal (src : List Nat) (L k : Nat) : Nat :=
  ((List.range k).map fun c =>
    (ComputeHamming (window src L 0) (window src L (c + 1))).getD 0).sum

/-- The normalised distance `d(L) / L` in exact arithmetic, where `d(L)` is the
average of `ComputeHamming(chunk 0, chunk c)` over
`c = 1 .. floor(len(src)/L) - 1`. -/
def normalizedDistance (src : List Nat) (L : Nat) : ℚ :=
  (chunkDistanceTotal src L (src.length / L - 1) : ℚ) / ((src.length / L - 1 : Nat) : ℚ)
    / (L : ℚ)

/-- The normalised distance `d(L) / L` in `float64` arithmetic, in units of
`2^-128`: the sum of the distances is divided by the number
`floor(len(src)/L) - 1` of chunks compared and the quotient by `L`, and each
of the two quotients is rounded to the nearest `float64`. -/
def float64Score (src : List Nat) (L : Nat) : Nat :=
  divFloat64
    (divFloat64 (float64OfInt (chunkDistanceTotal src L (src.length / L - 1)))
      (float64OfInt (src.length / L - 1)))
    (float64OfInt L)

/-- A buffer of 24 bytes on which the sizes 5 and 12 have the same normalised
distance `2/3` in exact arithmetic, `(10/3)/5` and `8/12`. -/
def tieExample : List Nat :=
  [16, 0, 4, 0, 0, 1, 0, 12, 0, 0, 64, 0, 0, 0, 0, 128, 0, 0, 0, 32, 0, 0, 0, 0]

/-- The comparison that `DecryptAppendOracle` makes for the candidate `c` at
the byte index `i`, with the buffer `res` recovered so far: in the first block
the first cipher block of `oracle(filler ++ res[:i] ++ [c])` against the
first cipher block of `oracle(filler)` (the lookup in the map of
`constructFirstMap`), in a later block the comparison of `findNext`.  The
result is `none` when a call or a slice panics. -/
def candidateMatches (oracle : List Nat → Option (List Nat)) (bs i : Nat) (res : List Nat)
    (c : Nat) : Option Bool :=
  if i / bs = 0 then
    (sliceTo res i).bind fun known =>
    (oracle ((bytesRepeat 65 (mod ((bs : Int) - (i : Int) - 1) (bs : Int)).toNat ++ known)
      ++ [c % 256])).bind fun q =>
    (sliceTo q bs).bind fun a =>
    (oracle (bytesRepeat 65 (mod ((bs : Int) - (i : Int) - 1) (bs : Int)).toNat)).bind fun ref =>
    (sliceTo ref bs).bind fun key => some (decide (a = key))
  else
    (slice res (i - bs + 1) i).bind fun first =>
    (oracle ((first ++ [c % 256])
      ++ bytesRepeat 65 (mod ((bs : Int) - (i : Int) - 1) (bs : Int)).toNat)).bind fun q =>
    (sliceTo q bs).bind fun a =>
    (slice q (i / bs * bs + bs) (i / bs * bs + bs + bs)).bind fun t => some (decide (a = t))

/-! ## Basic facts on byte buffers -/

theorem isBytes_nil : IsBytes [] := by
  intro b hb; cases hb

theorem isBytes_append {a b : List Nat} : IsBytes (a ++ b) ↔ IsBytes a ∧ IsBytes b := by
  unfold IsBytes
  constructor
  · intro h
    exact ⟨fun x hx => h x (List.mem_append_left _ hx), fun x hx => h x (List.mem_append_right _ hx)⟩
  · rintro ⟨h1, h2⟩ x hx
    rcases List.mem_append.1 hx with h | h
    · exact h1 x h
    · exact h2 x h

theorem isBytes_take {a : List Nat} (n : Nat) (h : IsBytes a) : IsBytes (a.take n) :=
  fun x hx => h x (List.mem_of_mem_take hx)

theorem isBytes_drop {a : List Nat} (n : Nat) (h : IsBytes a) : IsBytes (a.drop n) :=
  fun x hx => h x (List.mem_of_mem_drop hx)

theorem isBytes_replicate {b : Nat} (n : Nat) (h : b < 256) : IsBytes (List.replicate n b) := by
  intro x hx
  rw [List.eq_of_mem_replicate hx]; exact h

theorem length_make (n : Nat) : (make n).length = n := by
  simp [make]

theorem xorBlock_wf (bs key : Nat) (hbs : 0 < bs) (hk : key < 256) : (xorBlock bs key).WF := by
  have hb : ∀ x : List Nat, IsBytes x → IsBytes (x.map fun b => b ^^^ key) := by
    intro x hx z hz
    obtain ⟨w, hw, rfl⟩ := List.mem_map.1 hz
    exact Nat.xor_lt_two_pow (n := 8) (hx w hw) hk
  exact ⟨hbs, fun x hx _ => by simpa [xorBlock] using hx, fun x hx _ => by simpa [xorBlock] using hx,
    fun x _ hx => hb x hx, fun x _ hx => hb x hx⟩

theorem xorBlock_invertible (bs key : Nat) : (xorBlock bs key).Invertible := by
  intro x _ _
  show List.map (fun b => b ^^^ key) (List.map (fun b => b ^^^ key) x) = x
  rw [List.map_map]
  have : ((fun b => b ^^^ key) ∘ fun b => b ^^^ key) = id := by
    funext b; simp [Nat.xor_cancel_right]
  rw [this, List.map_id]

/-! ## ECB mode -/

theorem mapBlocks_length (f : List Nat → List Nat) (bs : Nat)
    (hf : ∀ x, x.length = bs → IsBytes x → (f x).length = bs) :
    ∀ (m : Nat) (src : List Nat), m * bs ≤ src.length → IsBytes src →
      (mapBlocks f bs m src).length = m * bs := by
  intro m
  induction m with
  | zero => intro src _ _; simp [mapBlocks]
  | succ m ih =>
    intro src hlen hb
    have h1 : bs ≤ src.length := by
      have : (m + 1) * bs = m * bs + bs := by ring
      omega
    have h2 : m * bs ≤ (src.drop bs).length := by
      have : (m + 1) * bs = m * bs + bs := by ring
      simp only [List.length_drop]; omega
    simp only [mapBlocks, List.length_append]
    rw [ih _ h2 (isBytes_drop _ hb), hf _ (by simp [h1]) (isBytes_take _ hb)]
    ring

theorem mapBlocks_isBytes (f : List Nat → List Nat) (bs : Nat)
    (hf : ∀ x, x.length = bs → IsBytes x → IsBytes (f x)) :
    ∀ (m : Nat) (src : List Nat), m * bs ≤ src.length → IsBytes src →
      IsBytes (mapBlocks f bs m src) := by
  intro m
  induction m with
  | zero => intro src _ _; simpa [mapBlocks] using isBytes_nil
  | succ m ih =>
    intro src hlen hb
    have h1 : bs ≤ src.length := by
      have : (m + 1) * bs = m * bs + bs := by ring
      omega
    have h2 : m * bs ≤ (src.drop bs).length := by
      have : (m + 1) * bs = m * bs + bs := by ring
      simp only [List.length_drop]; omega
    simp only [mapBlocks]
    exact isBytes_append.2 ⟨hf _ (by simp [h1]) (isBytes_take _ hb), ih _ h2 (isBytes_drop _ hb)⟩

theorem EncryptECB_loop_eq (bl : Block) (hwf : bl.WF) (src : List Nat) (hsrc : IsBytes src) :
    ∀ (m fuel i : Nat) (dst : List Nat), dst.length = src.length →
      i + m * bl.BlockSize = src.length → 0 < bl.BlockSize → m < fuel →
      EncryptECB.loop bl src fuel i dst
        = some (dst.take i ++ mapBlocks bl.Encrypt bl.BlockSize m (src.drop i)) := by
  intro m
  induction m with
  | zero =>
    intro fuel i dst hd hi _ hf
    obtain ⟨fuel, rfl⟩ : ∃ k, fuel = k + 1 := ⟨fuel - 1, by omega⟩
    have hi2 : i = src.length := by omega
    have : ¬ i < src.length := by omega
    simp only [EncryptECB.loop, this, if_false, mapBlocks, List.append_nil]
    rw [hi2, ← hd, List.take_length]
  | succ m ih =>
    intro fuel i dst hd hi hbs hf
    obtain ⟨fuel, rfl⟩ : ∃ k, fuel = k + 1 := ⟨fuel - 1, by omega⟩
    have hexp : (m + 1) * bl.BlockSize = m * bl.BlockSize + bl.BlockSize := by ring
    have hlt : i < src.length := by omega
    have hEl : (bl.Encrypt ((src.drop i).take bl.BlockSize)).length = bl.BlockSize :=
      hwf.enc_len _ (by simp only [List.length_take, List.length_drop]; omega)
        (isBytes_take _ (isBytes_drop _ hsrc))
    have h1 : sliceFrom dst i = some (dst.drop i) := by
      simp only [sliceFrom]; rw [if_pos (by omega)]
    have h2 : sliceFrom src i = some (src.drop i) := by
      simp only [sliceFrom]; rw [if_pos (by omega)]
    have h3 : bl.encryptInto (dst.drop i) (src.drop i)
        = some (bl.Encrypt ((src.drop i).take bl.BlockSize) ++ (dst.drop i).drop bl.BlockSize) := by
      simp only [Block.encryptInto, List.length_drop]
      rw [if_neg (by omega)]
    simp only [EncryptECB.loop, hlt, if_true, h1, h2, h3, Option.some_bind]
    rw [ih fuel (i + bl.BlockSize) _ (by simp [hEl, List.length_take, List.length_drop]; omega)
      (by omega) hbs (by omega)]
    have htk : (dst.take i ++ bl.Encrypt ((src.drop i).take bl.BlockSize)).length
        = i + bl.BlockSize := by
      simp only [List.length_append, List.length_take, hEl]; omega
    rw [← List.append_assoc, List.take_left' htk]
    simp only [mapBlocks, List.drop_drop, List.append_assoc, Nat.add_comm]

theorem DecryptECB_loop_eq (bl : Block) (hwf : bl.WF) (src : List Nat) (hsrc : IsBytes src) :
    ∀ (m fuel i : Nat) (dst : List Nat), dst.length = src.length →
      i + m * bl.BlockSize = src.length → 0 < bl.BlockSize → m < fuel →
      DecryptECB.loop bl src fuel i dst
        = some (dst.take i ++ mapBlocks bl.Decrypt bl.BlockSize m (src.drop i)) := by
  intro m
  induction m with
  | zero =>
    intro fuel i dst hd hi _ hf
    obtain ⟨fuel, rfl⟩ : ∃ k, fuel = k + 1 := ⟨fuel - 1, by omega⟩
    have hi2 : i = src.length := by omega
    have : ¬ i < src.length := by omega
    simp only [DecryptECB.loop, this, if_false, mapBlocks, List.append_nil]
    rw [hi2, ← hd, List.take_length]
  | succ m ih =>
    intro fuel i dst hd hi hbs hf
    obtain ⟨fuel, rfl⟩ : ∃ k, fuel = k + 1 := ⟨fuel - 1, by omega⟩
    have hexp : (m + 1) * bl.BlockSize = m * bl.BlockSize + bl.BlockSize := by ring
    have hlt : i < src.length := by omega
    have hEl : (bl.Decrypt ((src.drop i).take bl.BlockSize)).length = bl.BlockSize :=
      hwf.dec_len _ (by simp only [List.length_take, List.length_drop]; omega)
        (isBytes_take _ (isBytes_drop _ hsrc))
    have h1 : sliceFrom dst i = some (dst.drop i) := by
      simp only [sliceFrom]; rw [if_pos (by omega)]
    have h2 : sliceFrom src i = some (src.drop i) := by
      simp only [sliceFrom]; rw [if_pos (by omega)]
    have h3 : bl.decryptInto (dst.drop i) (src.drop i)
        = some (bl.Decrypt ((src.drop i).take bl.BlockSize) ++ (dst.drop i).drop bl.BlockSize) := by
      simp only [Block.decryptInto, List.length_drop]
      rw [if_neg (by omega)]
    simp only [DecryptECB.loop, hlt, if_true, h1, h2, h3, Option.some_bind]
    rw [ih fuel (i + bl.BlockSize) _ (by simp [hEl, List.length_take, List.length_drop]; omega)
      (by omega) hbs (by omega)]
    have htk : (dst.take i ++ bl.Decrypt ((src.drop i).take bl.BlockSize)).length
        = i + bl.BlockSize := by
      simp only [List.length_append, List.length_take, hEl]; omega
    rw [← List.append_assoc, List.take_left' htk]
    simp only [mapBlocks, List.drop_drop, List.append_assoc, Nat.add_comm]

theorem EncryptECB_eq (bl : Block) (hwf : bl.WF) (src : List Nat) (hsrc : IsBytes src)
    (hal : src.length % bl.BlockSize = 0) :
    EncryptECB src bl
      = some (mapBlocks bl.Encrypt bl.BlockSize (src.length / bl.BlockSize) src) := by
  have hpos := hwf.pos
  have hdiv : src.length / bl.BlockSize * bl.BlockSize = src.length :=
    Nat.div_mul_cancel (Nat.dvd_of_mod_eq_zero hal)
  have hm : src.length / bl.BlockSize ≤ src.length := Nat.div_le_self _ _
  unfold EncryptECB
  rw [if_neg (by omega), if_neg (by simp [hal])]
  rw [EncryptECB_loop_eq bl hwf src hsrc (src.length / bl.BlockSize) _ 0 _ (length_make _)
    (by omega) hpos (by omega)]
  simp

theorem DecryptECB_eq (bl : Block) (hwf : bl.WF) (src : List Nat) (hsrc : IsBytes src)
    (hal : src.length % bl.BlockSize = 0) :
    DecryptECB src bl
      = some (mapBlocks bl.Decrypt bl.BlockSize (src.length / bl.BlockSize) src) := by
  have hpos := hwf.pos
  have hdiv : src.length / bl.BlockSize * bl.BlockSize = src.length :=
    Nat.div_mul_cancel (Nat.dvd_of_mod_eq_zero hal)
  have hm : src.length / bl.BlockSize ≤ src.length := Nat.div_le_self _ _
  unfold DecryptECB
  rw [DecryptECB_loop_eq bl hwf src hsrc (src.length / bl.BlockSize) _ 0 _ (length_make _)
    (by omega) hpos (by omega)]
  simp

theorem mapBlocks_inverse (bl : Block) (hwf : bl.WF) (hinv : bl.Invertible) :
    ∀ (m : Nat) (src : List Nat), m * bl.BlockSize ≤ src.length → IsBytes src →
      mapBlocks bl.Decrypt bl.BlockSize m (mapBlocks bl.Encrypt bl.BlockSize m src)
        = src.take (m * bl.BlockSize) := by
  intro m
  induction m with
  | zero => intro src _ _; simp [mapBlocks]
  | succ m ih =>
    intro src hlen hb
    have hexp : (m + 1) * bl.BlockSize = bl.BlockSize + m * bl.BlockSize := by ring
    have h1 : bl.BlockSize ≤ src.length := by omega
    have h2 : m * bl.BlockSize ≤ (src.drop bl.BlockSize).length := by
      simp only [List.length_drop]; omega
    have htl : (src.take bl.BlockSize).length = bl.BlockSize := by simp [h1]
    have hEl := hwf.enc_len _ htl (isBytes_take _ hb)
    simp only [mapBlocks]
    rw [List.take_left' hEl, List.drop_left' hEl, ih _ h2 (isBytes_drop _ hb),
      hinv _ htl (isBytes_take _ hb), hexp, List.take_add]

/-- C8. ECB round trip: for a block cipher whose Decrypt undoes Encrypt and a
plaintext whose length is a multiple of the block size, `EncryptECB` returns the
block-by-block image of the plaintext under `Encrypt` (each block transformed
independently of the others), `DecryptECB` of a block-aligned buffer is its
block-by-block image under `Decrypt`, and `DecryptECB(EncryptECB(pt, bl), bl)`
returns `pt`. -/
theorem ecb_round_trip (bl : Block) (hwf : bl.WF) (hinv : bl.Invertible) (pt : List Nat)
    (hpt : IsBytes pt) (hal : pt.length % bl.BlockSize = 0) :
    EncryptECB pt bl = some (mapBlocks bl.Encrypt bl.BlockSize (pt.length / bl.BlockSize) pt)
    ∧ (∀ ct, IsBytes ct → ct.length % bl.BlockSize = 0 →
        DecryptECB ct bl
          = some (mapBlocks bl.Decrypt bl.BlockSize (ct.length / bl.BlockSize) ct))
    ∧ (EncryptECB pt bl).bind (fun ct => DecryptECB ct bl) = some pt := by
  have hdiv : pt.length / bl.BlockSize * bl.BlockSize = pt.length :=
    Nat.div_mul_cancel (Nat.dvd_of_mod_eq_zero hal)
  have hlen := mapBlocks_length bl.Encrypt bl.BlockSize hwf.enc_len (pt.length / bl.BlockSize) pt
    (by omega) hpt
  have hby := mapBlocks_isBytes bl.Encrypt bl.BlockSize hwf.enc_bytes (pt.length / bl.BlockSize) pt
    (by omega) hpt
  refine ⟨EncryptECB_eq bl hwf pt hpt hal, fun ct hct hcal => DecryptECB_eq bl hwf ct hct hcal, ?_⟩
  rw [EncryptECB_eq bl hwf pt hpt hal, Option.some_bind,
    DecryptECB_eq bl hwf _ hby (by rw [hlen]; exact Nat.mul_mod_left _ _), hlen,
    Nat.mul_div_cancel _ hwf.pos, mapBlocks_inverse bl hwf hinv _ _ (by omega) hpt, hdiv,
    List.take_length]

theorem ecb_round_trip_witness :
    (xorBlock 4 90).WF ∧ (xorBlock 4 90).Invertible ∧ IsBytes [1, 2, 3, 4, 5, 6, 7, 8]
    ∧ (EncryptECB [1, 2, 3, 4, 5, 6, 7, 8] (xorBlock 4 90)).bind
        (fun ct => DecryptECB ct (xorBlock 4 90)) = some [1, 2, 3, 4, 5, 6, 7, 8] :=
  ⟨xorBlock_wf 4 90 (by decide) (by decide), xorBlock_invertible 4 90, by decide,
    (ecb_round_trip (xorBlock 4 90) (xorBlock_wf 4 90 (by decide) (by decide))
      (xorBlock_invertible 4 90) [1, 2, 3, 4, 5, 6, 7, 8] (by decide) (by decide)).2.2⟩

/-! ## CBC mode -/

theorem XorSlice_loop_length (y : List Nat) :
    ∀ (x : List Nat) (i : Nat), (XorSlice.loop y i x).length = x.length := by
  intro x
  induction x with
  | nil => intro i; simp [XorSlice.loop]
  | cons a x ih => intro i; simp [XorSlice.loop, ih]

theorem XorSlice_loop_append (y : List Nat) :
    ∀ (a b : List Nat) (i : Nat),
      XorSlice.loop y i (a ++ b) = XorSlice.loop y i a ++ XorSlice.loop y (i + a.length) b := by
  intro a
  induction a with
  | nil => intro b i; simp [XorSlice.loop]
  | cons h a ih =>
    intro b i
    have e : i + 1 + a.length = i + (a.length + 1) := by omega
    show (h ^^^ y.getD (i % y.length) 0) :: XorSlice.loop y (i + 1) (a ++ b) = _
    rw [ih b (i + 1), e]
    simp [XorSlice.loop]

theorem XorSlice_loop_eq_xorBytes (y : List Nat) :
    ∀ (x : List Nat) (i : Nat), i + x.length ≤ y.length →
      XorSlice.loop y i x = xorBytes x (y.drop i) := by
  intro x
  induction x with
  | nil => intro i _; simp [XorSlice.loop, xorBytes]
  | cons a x ih =>
    intro i hi
    simp only [List.length_cons] at hi
    have hlt : i < y.length := by omega
    have hd : y.drop i = y[i] :: y.drop (i + 1) := List.drop_eq_getElem_cons hlt
    simp only [XorSlice.loop]
    rw [ih (i + 1) (by omega), Nat.mod_eq_of_lt hlt]
    have hg : y.getD i 0 = y[i] := by
      simp [List.getD_eq_getElem?_getD, List.getElem?_eq_getElem hlt]
    rw [hg]
    conv => rhs; rw [hd]
    rfl

theorem XorSlice_eq (x y : List Nat) (h : x.length = y.length) :
    XorSlice x y = some (xorBytes x y) := by
  unfold XorSlice
  rw [if_neg (by omega), XorSlice_loop_eq_xorBytes y x 0 (by omega)]
  simp

theorem xorBytes_length (a b : List Nat) (h : a.length = b.length) :
    (xorBytes a b).length = a.length := by
  simp [xorBytes, h]

theorem xorBytes_isBytes (a b : List Nat) (ha : IsBytes a) (hb : IsBytes b) :
    IsBytes (xorBytes a b) := by
  induction a generalizing b with
  | nil => simpa [xorBytes] using isBytes_nil
  | cons x a ih =>
    cases b with
    | nil => simpa [xorBytes] using isBytes_nil
    | cons y b =>
      intro z hz
      simp only [xorBytes, List.zipWith_cons_cons, List.mem_cons] at hz
      rcases hz with rfl | hz
      · exact Nat.xor_lt_two_pow (n := 8) (ha x (List.mem_cons_self _ _)) (hb y (List.mem_cons_self _ _))
      · exact ih b (fun w hw => ha w (List.mem_cons_of_mem _ hw))
          (fun w hw => hb w (List.mem_cons_of_mem _ hw)) z hz

theorem xorBytes_cancel (a b : List Nat) (h : a.length = b.length) :
    xorBytes (xorBytes a b) b = a := by
  induction a generalizing b with
  | nil => simp [xorBytes]
  | cons x a ih =>
    cases b with
    | nil => simp at h
    | cons y b =>
      simp only [List.length_cons, Nat.add_right_cancel_iff] at h
      have := ih b h
      simp only [xorBytes] at this
      simp [xorBytes, Nat.xor_cancel_right, this]


theorem EncryptCBC_loop_eq (bl : Block) (hwf : bl.WF) (src : List Nat) (hsrc : IsBytes src) :
    ∀ (m fuel i : Nat) (res iv : List Nat), res.length = src.length →
      i + m * bl.BlockSize = src.length → iv.length = bl.BlockSize → IsBytes iv → m < fuel →
      EncryptCBC.loop bl src fuel i res iv
        = some (res.take i ++ cbcEncBlocks bl m (src.drop i) iv) := by
  intro m
  induction m with
  | zero =>
    intro fuel i res iv hd hi _ _ hf
    obtain ⟨fuel, rfl⟩ : ∃ k, fuel = k + 1 := ⟨fuel - 1, by omega⟩
    have hi2 : i = src.length := by omega
    have : ¬ i < src.length := by omega
    simp only [EncryptCBC.loop, this, if_false, cbcEncBlocks, List.append_nil]
    rw [hi2, ← hd, List.take_length]
  | succ m ih =>
    intro fuel i res iv hd hi hiv hivb hf
    obtain ⟨fuel, rfl⟩ : ∃ k, fuel = k + 1 := ⟨fuel - 1, by omega⟩
    have hpos := hwf.pos
    have hexp : (m + 1) * bl.BlockSize = m * bl.BlockSize + bl.BlockSize := by ring
    have hlt : i < src.length := by omega
    have hsl : ((src.drop i).take bl.BlockSize).length = bl.BlockSize := by
      simp only [List.length_take, List.length_drop]; omega
    have hrl : ((res.drop i).take bl.BlockSize).length = bl.BlockSize := by
      simp only [List.length_take, List.length_drop]; omega
    have hxl : (xorBytes ((src.drop i).take bl.BlockSize) iv).length = bl.BlockSize := by
      rw [xorBytes_length _ _ (by omega), hsl]
    have hxb : IsBytes (xorBytes ((src.drop i).take bl.BlockSize) iv) :=
      xorBytes_isBytes _ _ (isBytes_take _ (isBytes_drop _ hsrc)) hivb
    have hEl := hwf.enc_len _ hxl hxb
    have h1 : slice res i (i + bl.BlockSize) = some ((res.drop i).take bl.BlockSize) := by
      simp only [slice]; rw [if_pos ⟨by omega, by omega⟩, Nat.add_sub_cancel_left]
    have h2 : slice src i (i + bl.BlockSize) = some ((src.drop i).take bl.BlockSize) := by
      simp only [slice]; rw [if_pos ⟨by omega, by omega⟩, Nat.add_sub_cancel_left]
    have h3 := XorSlice_eq ((src.drop i).take bl.BlockSize) iv (by omega)
    have h4 : bl.encryptInto ((res.drop i).take bl.BlockSize)
        (xorBytes ((src.drop i).take bl.BlockSize) iv)
        = some (bl.Encrypt (xorBytes ((src.drop i).take bl.BlockSize) iv)) := by
      have e1 : (xorBytes ((src.drop i).take bl.BlockSize) iv).take bl.BlockSize
          = xorBytes ((src.drop i).take bl.BlockSize) iv := List.take_of_length_le (by omega)
      have e2 : ((res.drop i).take bl.BlockSize).drop bl.BlockSize = [] :=
        List.drop_of_length_le (by omega)
      simp only [Block.encryptInto]
      rw [if_neg (by omega), e1, e2, List.append_nil]
    simp only [EncryptCBC.loop, hlt, if_true, h1, h2, h3, h4, Option.some_bind]
    have htk : (res.take i ++ bl.Encrypt (xorBytes ((src.drop i).take bl.BlockSize) iv)).length
        = i + bl.BlockSize := by
      simp only [List.length_append, List.length_take, hEl]; omega
    rw [ih fuel (i + bl.BlockSize) _ _
      (by simp only [List.length_append, List.length_take, List.length_drop, hEl]; omega)
      (by omega) hEl (hwf.enc_bytes _ hxl hxb) (by omega)]
    rw [List.take_left' htk]
    simp only [cbcEncBlocks, List.drop_drop, List.append_assoc, Nat.add_comm]

theorem DecryptCBC_loop_eq (bl : Block) (hwf : bl.WF) (src : List Nat) (hsrc : IsBytes src) :
    ∀ (m fuel i : Nat) (res iv : List Nat), res.length = src.length →
      i + m * bl.BlockSize = src.length → iv.length = bl.BlockSize → m < fuel →
      DecryptCBC.loop bl src fuel i res iv
        = some (res.take i ++ cbcDecBlocks bl m (src.drop i) iv) := by
  intro m
  induction m with
  | zero =>
    intro fuel i res iv hd hi _ hf
    obtain ⟨fuel, rfl⟩ : ∃ k, fuel = k + 1 := ⟨fuel - 1, by omega⟩
    have hi2 : i = src.length := by omega
    have : ¬ i < src.length := by omega
    simp only [DecryptCBC.loop, this, if_false, cbcDecBlocks, List.append_nil]
    rw [hi2, ← hd, List.take_length]
  | succ m ih =>
    intro fuel i res iv hd hi hiv hf
    obtain ⟨fuel, rfl⟩ : ∃ k, fuel = k + 1 := ⟨fuel - 1, by omega⟩
    have hpos := hwf.pos
    have hexp : (m + 1) * bl.BlockSize = m * bl.BlockSize + bl.BlockSize := by ring
    have hlt : i < src.length := by omega
    have hsl : ((src.drop i).take bl.BlockSize).length = bl.BlockSize := by
      simp only [List.length_take, List.length_drop]; omega
    have hDl := hwf.dec_len _ hsl (isBytes_take _ (isBytes_drop _ hsrc))
    have h1 : sliceFrom res i = some (res.drop i) := by
      simp only [sliceFrom]; rw [if_pos (by omega)]
    have h2 : sliceFrom src i = some (src.drop i) := by
      simp only [sliceFrom]; rw [if_pos (by omega)]
    have h3 : bl.decryptInto (res.drop i) (src.drop i)
        = some (bl.Decrypt ((src.drop i).take bl.BlockSize) ++ (res.drop i).drop bl.BlockSize) := by
      simp only [Block.decryptInto, List.length_drop]
      rw [if_neg (by omega)]
    have h4 : XorSlice (bl.Decrypt ((src.drop i).take bl.BlockSize) ++ (res.drop i).drop bl.BlockSize) iv
        = some (xorBytes (bl.Decrypt ((src.drop i).take bl.BlockSize)) iv
            ++ XorSlice.loop iv bl.BlockSize ((res.drop i).drop bl.BlockSize)) := by
      unfold XorSlice
      rw [if_neg (by omega), XorSlice_loop_append, XorSlice_loop_eq_xorBytes iv _ 0 (by omega)]
      simp [hDl]
    have h5 : slice src i (i + bl.BlockSize) = some ((src.drop i).take bl.BlockSize) := by
      simp only [slice]; rw [if_pos ⟨by omega, by omega⟩, Nat.add_sub_cancel_left]
    have hxl : (xorBytes (bl.Decrypt ((src.drop i).take bl.BlockSize)) iv).length
        = bl.BlockSize := by
      rw [xorBytes_length _ _ (by omega), hDl]
    have h6 : copy (bl.Decrypt ((src.drop i).take bl.BlockSize) ++ (res.drop i).drop bl.BlockSize)
        (xorBytes (bl.Decrypt ((src.drop i).take bl.BlockSize)) iv
            ++ XorSlice.loop iv bl.BlockSize ((res.drop i).drop bl.BlockSize))
        = xorBytes (bl.Decrypt ((src.drop i).take bl.BlockSize)) iv
            ++ XorSlice.loop iv bl.BlockSize ((res.drop i).drop bl.BlockSize) := by
      generalize hA : bl.Decrypt ((src.drop i).take bl.BlockSize)
        ++ (res.drop i).drop bl.BlockSize = A
      generalize hB : xorBytes (bl.Decrypt ((src.drop i).take bl.BlockSize)) iv
        ++ XorSlice.loop iv bl.BlockSize ((res.drop i).drop bl.BlockSize) = B
      have hAB : A.length = B.length := by
        rw [← hA, ← hB]
        simp only [List.length_append, hxl, hDl, XorSlice_loop_length]
      have e1 : B.take A.length = B := List.take_of_length_le (by omega)
      have e2 : A.drop B.length = [] := List.drop_of_length_le (by omega)
      unfold copy
      rw [e1, e2, List.append_nil]
    simp only [DecryptCBC.loop, hlt, if_true, h1, h2, h3, h4, h5, h6, Option.some_bind]
    have htk : (res.take i ++ xorBytes (bl.Decrypt ((src.drop i).take bl.BlockSize)) iv).length
        = i + bl.BlockSize := by
      simp only [List.length_append, List.length_take, hxl]; omega
    rw [ih fuel (i + bl.BlockSize) _ _
      (by simp only [List.length_append, List.length_take, List.length_drop, hxl,
            XorSlice_loop_length]; omega)
      (by omega) hsl (by omega)]
    rw [← List.append_assoc, List.take_left' htk]
    simp only [cbcDecBlocks, List.drop_drop, List.append_assoc, Nat.add_comm]

theorem EncryptCBC_eq (bl : Block) (hwf : bl.WF) (src iv : List Nat) (hsrc : IsBytes src)
    (hivb : IsBytes iv) (hal : src.length % bl.BlockSize = 0) (hiv : iv.length = bl.BlockSize) :
    EncryptCBC bl src iv = some (cbcEncBlocks bl (src.length / bl.BlockSize) src iv) := by
  have hpos := hwf.pos
  have hdiv : src.length / bl.BlockSize * bl.BlockSize = src.length :=
    Nat.div_mul_cancel (Nat.dvd_of_mod_eq_zero hal)
  have hm : src.length / bl.BlockSize ≤ src.length := Nat.div_le_self _ _
  unfold EncryptCBC
  rw [if_neg (by omega), if_neg (by simp [hal]), if_neg (by simp [hiv])]
  rw [EncryptCBC_loop_eq bl hwf src hsrc (src.length / bl.BlockSize) _ 0 _ _ (length_make _)
    (by omega) hiv hivb (by omega)]
  simp

theorem DecryptCBC_eq (bl : Block) (hwf : bl.WF) (src iv : List Nat) (hsrc : IsBytes src)
    (hal : src.length % bl.BlockSize = 0) (hiv : iv.length = bl.BlockSize) :
    DecryptCBC bl src iv = some (cbcDecBlocks bl (src.length / bl.BlockSize) src iv) := by
  have hpos := hwf.pos
  have hdiv : src.length / bl.BlockSize * bl.BlockSize = src.length :=
    Nat.div_mul_cancel (Nat.dvd_of_mod_eq_zero hal)
  have hm : src.length / bl.BlockSize ≤ src.length := Nat.div_le_self _ _
  unfold DecryptCBC
  rw [if_neg (by omega), if_neg (by simp [hal]), if_neg (by simp [hiv])]
  rw [DecryptCBC_loop_eq bl hwf src hsrc (src.length / bl.BlockSize) _ 0 _ _ (length_make _)
    (by omega) hiv (by omega)]
  simp

theorem cbcEncBlocks_length (bl : Block) (hwf : bl.WF) :
    ∀ (m : Nat) (src iv : List Nat), m * bl.BlockSize ≤ src.length → IsBytes src →
      iv.length = bl.BlockSize → IsBytes iv →
      (cbcEncBlocks bl m src iv).length = m * bl.BlockSize
      ∧ IsBytes (cbcEncBlocks bl m src iv) := by
  intro m
  induction m with
  | zero => intro src iv _ _ _ _; simpa [cbcEncBlocks] using isBytes_nil
  | succ m ih =>
    intro src iv hlen hb hiv hivb
    have hexp : (m + 1) * bl.BlockSize = bl.BlockSize + m * bl.BlockSize := by ring
    have h1 : bl.BlockSize ≤ src.length := by omega
    have h2 : m * bl.BlockSize ≤ (src.drop bl.BlockSize).length := by
      simp only [List.length_drop]; omega
    have htl : (src.take bl.BlockSize).length = bl.BlockSize := by simp [h1]
    have hxl : (xorBytes (src.take bl.BlockSize) iv).length = bl.BlockSize := by
      rw [xorBytes_length _ _ (by omega), htl]
    have hxb := xorBytes_isBytes _ _ (isBytes_take bl.BlockSize hb) hivb
    have hEl := hwf.enc_len _ hxl hxb
    have hEb := hwf.enc_bytes _ hxl hxb
    obtain ⟨r1, r2⟩ := ih (src.drop bl.BlockSize) _ h2 (isBytes_drop _ hb) hEl hEb
    simp only [cbcEncBlocks, List.length_append]
    exact ⟨by rw [r1, hEl, hexp], isBytes_append.2 ⟨hEb, r2⟩⟩

theorem cbcBlocks_inverse (bl : Block) (hwf : bl.WF) (hinv : bl.Invertible) :
    ∀ (m : Nat) (src iv : List Nat), m * bl.BlockSize ≤ src.length → IsBytes src →
      iv.length = bl.BlockSize → IsBytes iv →
      cbcDecBlocks bl m (cbcEncBlocks bl m src iv) iv = src.take (m * bl.BlockSize) := by
  intro m
  induction m with
  | zero => intro src iv _ _ _ _; simp [cbcDecBlocks]
  | succ m ih =>
    intro src iv hlen hb hiv hivb
    have hexp : (m + 1) * bl.BlockSize = bl.BlockSize + m * bl.BlockSize := by ring
    have h1 : bl.BlockSize ≤ src.length := by omega
    have h2 : m * bl.BlockSize ≤ (src.drop bl.BlockSize).length := by
      simp only [List.length_drop]; omega
    have htl : (src.take bl.BlockSize).length = bl.BlockSize := by simp [h1]
    have hxl : (xorBytes (src.take bl.BlockSize) iv).length = bl.BlockSize := by
      rw [xorBytes_length _ _ (by omega), htl]
    have hxb := xorBytes_isBytes _ _ (isBytes_take bl.BlockSize hb) hivb
    have hEl := hwf.enc_len _ hxl hxb
    have hEb := hwf.enc_bytes _ hxl hxb
    simp only [cbcEncBlocks, cbcDecBlocks]
    rw [List.take_left' hEl, List.drop_left' hEl, hinv _ hxl hxb,
      xorBytes_cancel _ _ (by omega), ih _ _ h2 (isBytes_drop _ hb) hEl hEb, hexp, List.take_add]

/-- C5. CBC round trip: for a block cipher whose Decrypt undoes Encrypt, an IV
of exactly block length and a plaintext whose length is a multiple of the block
size, `EncryptCBC` returns a ciphertext and `DecryptCBC` of that ciphertext
under the same IV returns the plaintext. -/
theorem cbc_round_trip (bl : Block) (hwf : bl.WF) (hinv : bl.Invertible) (pt iv : List Nat)
    (hpt : IsBytes pt) (hivb : IsBytes iv) (hiv : iv.length = bl.BlockSize)
    (hal : pt.length % bl.BlockSize = 0) :
    ∃ ct, EncryptCBC bl pt iv = some ct ∧ DecryptCBC bl ct iv = some pt := by
  have hdiv : pt.length / bl.BlockSize * bl.BlockSize = pt.length :=
    Nat.div_mul_cancel (Nat.dvd_of_mod_eq_zero hal)
  obtain ⟨hlen, hby⟩ := cbcEncBlocks_length bl hwf (pt.length / bl.BlockSize) pt iv
    (by omega) hpt hiv hivb
  refine ⟨_, EncryptCBC_eq bl hwf pt iv hpt hivb hal hiv, ?_⟩
  rw [DecryptCBC_eq bl hwf _ iv hby (by rw [hlen]; exact Nat.mul_mod_left _ _) hiv, hlen,
    Nat.mul_div_cancel _ hwf.pos, cbcBlocks_inverse bl hwf hinv _ _ _ (by omega) hpt hiv hivb,
    hdiv, List.take_length]

theorem cbc_round_trip_witness :
    (xorBlock 4 90).WF ∧ (xorBlock 4 90).Invertible
    ∧ IsBytes [1, 2, 3, 4, 5, 6, 7, 8] ∧ IsBytes [9, 8, 7, 6]
    ∧ ∃ ct, EncryptCBC (xorBlock 4 90) [1, 2, 3, 4, 5, 6, 7, 8] [9, 8, 7, 6] = some ct
        ∧ DecryptCBC (xorBlock 4 90) ct [9, 8, 7, 6] = some [1, 2, 3, 4, 5, 6, 7, 8] :=
  ⟨xorBlock_wf 4 90 (by decide) (by decide), xorBlock_invertible 4 90, by decide, by decide,
    cbc_round_trip (xorBlock 4 90) (xorBlock_wf 4 90 (by decide) (by decide))
      (xorBlock_invertible 4 90) [1, 2, 3, 4, 5, 6, 7, 8] [9, 8, 7, 6] (by decide) (by decide)
      (by decide) (by decide)⟩

/-! ## PKCS#7 unpadding -/

theorem UnpadPKCS7_loop_iff (added : Nat) :
    ∀ l : List Nat, UnpadPKCS7.loop added l = true ↔ ∀ b ∈ l, b = added := by
  intro l
  induction l with
  | nil => simp [UnpadPKCS7.loop]
  | cons b rest ih =>
    by_cases h : b = added
    · simp [UnpadPKCS7.loop, h, ih]
    · simp [UnpadPKCS7.loop, h]

/-- What `UnpadPKCS7` computes when it does not panic: with `k` the last byte
of `src` and `k ≤ len(src)`, the result is `src` without its last `k` bytes when
these all equal `k`, and nil otherwise.  The parameter `size` plays no part. -/
theorem UnpadPKCS7_eq (src : List Nat) (size k : Nat) (hs : 0 < size)
    (hal : src.length % size = 0) (hk : src.getLast? = some k) (hle : k ≤ src.length) :
    UnpadPKCS7 src size
      = if ∀ b ∈ src.drop (src.length - k), b = k then some (some (src.take (src.length - k)))
        else some none := by
  unfold UnpadPKCS7
  rw [if_neg (by omega), if_neg (by simp [hal]), hk]
  simp only
  rw [if_neg (by omega)]
  by_cases h : ∀ b ∈ src.drop (src.length - k), b = k
  · rw [if_pos h, if_pos ((UnpadPKCS7_loop_iff k _).2 h)]
  · rw [if_neg h, if_neg (fun hc => h ((UnpadPKCS7_loop_iff k _).1 hc))]

/-- C9 (code defect). A buffer whose last byte is 0 has no well-formed PKCS#7
padding, yet `UnpadPKCS7` answers with a buffer, the whole of `src`, and not
with nil: the pad byte is never compared with the range `[1, size]`. -/
theorem UnpadPKCS7_zero_pad_byte (src : List Nat) (size : Nat) (hs : 0 < size)
    (hal : src.length % size = 0) (hk : src.getLast? = some 0) :
    UnpadPKCS7 src size = some (some src) := by
  rw [UnpadPKCS7_eq src size 0 hs hal hk (Nat.zero_le _)]
  simp

theorem UnpadPKCS7_zero_pad_byte_witness :
    UnpadPKCS7 [73, 67, 69, 32, 73, 67, 69, 32, 66, 65, 66, 89, 4, 4, 4, 0] 16
      = some (some [73, 67, 69, 32, 73, 67, 69, 32, 66, 65, 66, 89, 4, 4, 4, 0]) :=
  UnpadPKCS7_zero_pad_byte [73, 67, 69, 32, 73, 67, 69, 32, 66, 65, 66, 89, 4, 4, 4, 0] 16
    (by decide) (by decide) (by decide)

/-- C10 (code defect). When the last byte of `src` exceeds `len(src)`, the
slice expression `src[len(src)-int(added):]` of `UnpadPKCS7` is out of bounds:
the call panics and no nil result is returned. -/
theorem UnpadPKCS7_panics (src : List Nat) (size k : Nat) (hk : src.getLast? = some k)
    (hlt : src.length < k) : UnpadPKCS7 src size = none := by
  unfold UnpadPKCS7
  by_cases h1 : size = 0
  · rw [if_pos h1]
  · rw [if_neg h1]
    by_cases h2 : src.length % size ≠ 0
    · rw [if_pos h2]
    · rw [if_neg h2, hk]
      simp only
      rw [if_pos hlt]

theorem UnpadPKCS7_panics_witness :
    UnpadPKCS7 [73, 67, 69, 32, 73, 67, 69, 32, 66, 65, 66, 89, 4, 4, 4, 17] 16 = none :=
  UnpadPKCS7_panics [73, 67, 69, 32, 73, 67, 69, 32, 66, 65, 66, 89, 4, 4, 4, 17] 16 17
    (by decide) (by decide)

/-! ## CTR mode -/

theorem EncryptCTR_incr_carry_panics (input : List Nat) (p : Nat) (hlen : input.length = p + 1)
    (hp : input[p]? = some 255) : EncryptCTR.incr input p = none := by
  unfold EncryptCTR.incr
  rw [hp, Option.some_bind]
  simp only
  rw [if_pos (by decide)]
  have : (input.set p ((255 + 1) % 256))[p + 1]? = none := by
    apply List.getElem?_eq_none
    simp only [List.length_set]; omega
  rw [this, Option.none_bind]

theorem EncryptCTR_incr_no_carry (input : List Nat) (p a : Nat) (hp : input[p]? = some a)
    (ha : a < 255) : EncryptCTR.incr input p = some (input.set p (a + 1), p) := by
  unfold EncryptCTR.incr
  rw [hp, Option.some_bind]
  simp only
  have h1 : (a + 1) % 256 = a + 1 := Nat.mod_eq_of_lt (by omega)
  rw [h1, if_neg (by omega)]

theorem EncryptCTR_loop_panics (bl : Block) (src : List Nat) :
    ∀ (n fuel i : Nat) (dst input output : List Nat) (p : Nat), input.length = p + 1 →
      input[p]? = some (255 - n) → n ≤ 255 → i + n * bl.BlockSize < src.length → n < fuel →
      EncryptCTR.loop bl src fuel i dst input output p = none := by
  intro n
  induction n with
  | zero =>
    intro fuel i dst input output p hlen hp _ hi hf
    obtain ⟨fuel, rfl⟩ : ∃ k, fuel = k + 1 := ⟨fuel - 1, by omega⟩
    have hlt : i < src.length := by omega
    simp only [EncryptCTR.loop, hlt, if_true]
    cases bl.encryptInto output input with
    | none => rfl
    | some o1 =>
      rw [Option.some_bind, EncryptCTR_incr_carry_panics input p hlen hp, Option.none_bind]
  | succ n ih =>
    intro fuel i dst input output p hlen hp hn hi hf
    obtain ⟨fuel, rfl⟩ : ∃ k, fuel = k + 1 := ⟨fuel - 1, by omega⟩
    have hexp : (n + 1) * bl.BlockSize = n * bl.BlockSize + bl.BlockSize := by ring
    have hlt : i < src.length := by omega
    simp only [EncryptCTR.loop, hlt, if_true]
    cases bl.encryptInto output input with
    | none => rfl
    | some o1 =>
      rw [Option.some_bind, EncryptCTR_incr_no_carry input p (255 - (n + 1)) hp (by omega),
        Option.some_bind]
      cases EncryptCTR.xorLoop src src.length bl.BlockSize i bl.BlockSize 0 o1 with
      | none => rfl
      | some o2 =>
        rw [Option.some_bind]
        cases sliceFrom dst i with
        | none => rfl
        | some d =>
          rw [Option.some_bind]
          apply ih
          · simp only [List.length_set]; exact hlen
          · have hpl : p < input.length := by omega
            rw [List.getElem?_set_self hpl]
            congr 1; omega
          · omega
          · omega
          · omega

/-- C6 (code defect). With a nonce one byte shorter than the block and a
buffer of more than 255 blocks, `EncryptCTR` panics: when the single counter
byte wraps to 0 the carry `p++; input[p]++` indexes `input` out of range.  No
ciphertext is returned, so the round trip does not hold for data of any
length. -/
theorem EncryptCTR_panics_on_carry (bl : Block) (src nonce : List Nat)
    (hn : nonce.length + 1 = bl.BlockSize) (hlen : 255 * bl.BlockSize < src.length) :
    EncryptCTR bl src nonce = none := by
  unfold EncryptCTR
  have hmk : (make bl.BlockSize).length = bl.BlockSize := length_make _
  have hin : copy (make bl.BlockSize) nonce = nonce ++ [0] := by
    unfold copy
    rw [hmk, List.take_of_length_le (by omega)]
    congr 1
    rw [← hn]
    simp [make, List.drop_replicate]
  rw [hin]
  apply EncryptCTR_loop_panics bl src 255
  · simp
  · simp
  · omega
  · omega
  · have : 0 < bl.BlockSize := by omega
    have : 255 ≤ 255 * bl.BlockSize := Nat.le_mul_of_pos_right _ this
    omega

theorem EncryptCTR_panics_on_carry_witness :
    EncryptCTR (xorBlock 16 90) (List.replicate 4096 65) (List.replicate 15 7) = none :=
  EncryptCTR_panics_on_carry (xorBlock 16 90) (List.replicate 4096 65) (List.replicate 15 7)
    (by rw [List.length_replicate]; rfl)
    (by rw [List.length_replicate]; show 255 * 16 < 4096; omega)

/-! ## Profile forgery (`GenerateAdmin`) -/

theorem DecryptECB_mapBlocks (bl : Block) (hwf : bl.WF) (hinv : bl.Invertible) (m : Nat)
    (src : List Nat) (hsrc : IsBytes src) (hlen : src.length = m * bl.BlockSize) :
    DecryptECB (mapBlocks bl.Encrypt bl.BlockSize m src) bl = some src := by
  have hl := mapBlocks_length bl.Encrypt bl.BlockSize hwf.enc_len m src (by omega) hsrc
  have hb := mapBlocks_isBytes bl.Encrypt bl.BlockSize hwf.enc_bytes m src (by omega) hsrc
  rw [DecryptECB_eq bl hwf _ hb (by rw [hl]; exact Nat.mul_mod_left _ _), hl,
    Nat.mul_div_cancel _ hwf.pos, mapBlocks_inverse bl hwf hinv m src (by omega) hsrc, ← hlen,
    List.take_length]

theorem NewProfileOracle_oracle_eq (bl : Block) (hwf : bl.WF) (hbs : bl.BlockSize = 16)
    (email p : List Nat) (m : Nat) (hp : PadPKCS7 (GenerateProfile email) 16 = some p)
    (hpb : IsBytes p) (hlen : p.length = m * 16) :
    NewProfileOracle.oracle bl email = some (mapBlocks bl.Encrypt 16 m p) := by
  unfold NewProfileOracle.oracle
  rw [hbs]
  show (PadPKCS7 (GenerateProfile email) 16).bind (fun p => EncryptECB p bl) = _
  rw [hp, Option.some_bind, EncryptECB_eq bl hwf p hpb (by rw [hbs, hlen]; exact Nat.mul_mod_left _ _),
    hbs, hlen, Nat.mul_div_cancel _ (by decide)]

theorem GenerateAdmin_eq (bl : Block) (hwf : bl.WF) (hbs : bl.BlockSize = 16) :
    GenerateAdmin (NewProfileOracle.oracle bl) 16
      = some (mapBlocks bl.Encrypt 16 3 [101, 109, 97, 105, 108, 61, 65, 65, 65, 65, 38, 114, 111, 108, 101, 61, 97, 100, 109, 105, 110, 38, 114, 111, 108, 101, 61, 117, 115, 101, 114, 38, 117, 105, 100, 61, 49, 48, 10, 10, 10, 10, 10, 10, 10, 10, 10, 10]) := by
  have hE : ∀ x : List Nat, x.length = 16 → IsBytes x → (bl.Encrypt x).length = 16 := by
    intro x hx hxb
    have := hwf.enc_len x (by rw [hbs]; exact hx) hxb
    rw [hbs] at this; exact this
  have h1 := NewProfileOracle_oracle_eq bl hwf hbs [65, 65, 65, 65]
    [101, 109, 97, 105, 108, 61, 65, 65, 65, 65, 38, 114, 111, 108, 101, 61, 117, 115, 101, 114, 38, 117, 105, 100, 61, 49, 48, 5, 5, 5, 5, 5] 2 (by decide) (by decide) (by decide)
  have h2 := NewProfileOracle_oracle_eq bl hwf hbs
    ([65, 65, 65, 65, 65, 65, 65, 65, 65, 65] ++ [97, 100, 109, 105, 110])
    [101, 109, 97, 105, 108, 61, 65, 65, 65, 65, 65, 65, 65, 65, 65, 65, 97, 100, 109, 105, 110, 38, 114, 111, 108, 101, 61, 117, 115, 101, 114, 38, 117, 105, 100, 61, 49, 48, 10, 10, 10, 10, 10, 10, 10, 10, 10, 10] 3 (by decide) (by decide) (by decide)
  have l0 := hE [101, 109, 97, 105, 108, 61, 65, 65, 65, 65, 38, 114, 111, 108, 101, 61] (by decide) (by decide)
  have l1 := hE [117, 115, 101, 114, 38, 117, 105, 100, 61, 49, 48, 5, 5, 5, 5, 5] (by decide) (by decide)
  have l2 := hE [101, 109, 97, 105, 108, 61, 65, 65, 65, 65, 65, 65, 65, 65, 65, 65] (by decide) (by decide)
  have l3 := hE [97, 100, 109, 105, 110, 38, 114, 111, 108, 101, 61, 117, 115, 101, 114, 38] (by decide) (by decide)
  have l4 := hE [117, 105, 100, 61, 49, 48, 10, 10, 10, 10, 10, 10, 10, 10, 10, 10] (by decide) (by decide)
  have l5 := hE [101, 109, 97, 105, 108, 61, 65, 65, 65, 65, 38, 114, 111, 108, 101, 61] (by decide) (by decide)
  simp only [mapBlocks, List.take, List.drop, List.append_nil] at h1 h2 ⊢
  have e1 : sliceTo (bytesRepeat 65 (16 - 6)) ((bytesRepeat 65 (16 - 6)).length - 6)
      = some [65, 65, 65, 65] := by decide
  have e2 : bytesRepeat 65 (16 - 6) = [65, 65, 65, 65, 65, 65, 65, 65, 65, 65] := by decide
  unfold GenerateAdmin
  rw [if_neg (by decide), if_neg (by decide)]
  simp only [e1, Option.some_bind, h1]
  rw [e2, h2]
  simp only [Option.some_bind]
  have s1 : slice (bl.Encrypt [101, 109, 97, 105, 108, 61, 65, 65, 65, 65, 38, 114, 111, 108, 101, 61] ++ bl.Encrypt [117, 115, 101, 114, 38, 117, 105, 100, 61, 49, 48, 5, 5, 5, 5, 5]) 0 16 = some (bl.Encrypt [101, 109, 97, 105, 108, 61, 65, 65, 65, 65, 38, 114, 111, 108, 101, 61]) := by
    unfold slice
    rw [if_pos ⟨by omega, by simp only [List.length_append, l0, l1]; omega⟩]
    simp only [List.drop, Nat.sub_zero]
    rw [List.take_left' l0]
  have s2 : slice (bl.Encrypt [101, 109, 97, 105, 108, 61, 65, 65, 65, 65, 65, 65, 65, 65, 65, 65] ++ (bl.Encrypt [97, 100, 109, 105, 110, 38, 114, 111, 108, 101, 61, 117, 115, 101, 114, 38] ++ bl.Encrypt [117, 105, 100, 61, 49, 48, 10, 10, 10, 10, 10, 10, 10, 10, 10, 10])) 16 (16 * 3)
      = some (bl.Encrypt [97, 100, 109, 105, 110, 38, 114, 111, 108, 101, 61, 117, 115, 101, 114, 38] ++ bl.Encrypt [117, 105, 100, 61, 49, 48, 10, 10, 10, 10, 10, 10, 10, 10, 10, 10]) := by
    unfold slice
    rw [if_pos ⟨by omega, by simp only [List.length_append, l2, l3, l4]; omega⟩]
    rw [List.drop_left' l2]
    rw [List.take_of_length_le (by simp only [List.length_append, l3, l4]; omega)]
  rw [s1, Option.some_bind, s2, Option.some_bind]

/-- C4. Profile forgery: for an invertible block cipher of block size 16 and
the profile oracle `email -> EncryptECB(PadPKCS7("email=<email>&role=user&uid=10"))`,
`GenerateAdmin(oracle, 16)` returns a ciphertext that decrypts under ECB and
unpads to `"email=AAAA&role=admin&role=user&uid=10"`, and `DecryptAdmin` on it
returns true. -/
theorem GenerateAdmin_grants_admin (bl : Block) (hwf : bl.WF) (hinv : bl.Invertible)
    (hbs : bl.BlockSize = 16) :
    ∃ c, GenerateAdmin (NewProfileOracle.oracle bl) 16 = some c
      ∧ (DecryptECB c bl).bind (fun b => UnpadPKCS7 b 16)
          = some (some [101, 109, 97, 105, 108, 61, 65, 65, 65, 65, 38, 114, 111, 108, 101, 61, 97, 100, 109, 105, 110, 38, 114, 111, 108, 101, 61, 117, 115, 101, 114, 38, 117, 105, 100, 61, 49, 48])
      ∧ DecryptAdmin c bl = some true := by
  have hdec : DecryptECB (mapBlocks bl.Encrypt 16 3 [101, 109, 97, 105, 108, 61, 65, 65, 65, 65, 38, 114, 111, 108, 101, 61, 97, 100, 109, 105, 110, 38, 114, 111, 108, 101, 61, 117, 115, 101, 114, 38, 117, 105, 100, 61, 49, 48, 10, 10, 10, 10, 10, 10, 10, 10, 10, 10]) bl = some [101, 109, 97, 105, 108, 61, 65, 65, 65, 65, 38, 114, 111, 108, 101, 61, 97, 100, 109, 105, 110, 38, 114, 111, 108, 101, 61, 117, 115, 101, 114, 38, 117, 105, 100, 61, 49, 48, 10, 10, 10, 10, 10, 10, 10, 10, 10, 10] := by
    have := DecryptECB_mapBlocks bl hwf hinv 3 [101, 109, 97, 105, 108, 61, 65, 65, 65, 65, 38, 114, 111, 108, 101, 61, 97, 100, 109, 105, 110, 38, 114, 111, 108, 101, 61, 117, 115, 101, 114, 38, 117, 105, 100, 61, 49, 48, 10, 10, 10, 10, 10, 10, 10, 10, 10, 10] (by decide) (by rw [hbs]; decide)
    rw [hbs] at this; exact this
  refine ⟨_, GenerateAdmin_eq bl hwf hbs, ?_, ?_⟩
  · rw [hdec, Option.some_bind]; decide
  · unfold DecryptAdmin
    rw [hdec, Option.some_bind, hbs]
    decide

theorem GenerateAdmin_grants_admin_witness :
    (xorBlock 16 90).WF ∧ (xorBlock 16 90).Invertible
    ∧ ∃ c, GenerateAdmin (NewProfileOracle.oracle (xorBlock 16 90)) 16 = some c
      ∧ (DecryptECB c (xorBlock 16 90)).bind (fun b => UnpadPKCS7 b 16)
          = some (some [101, 109, 97, 105, 108, 61, 65, 65, 65, 65, 38, 114, 111, 108, 101, 61, 97, 100, 109, 105, 110, 38, 114, 111, 108, 101, 61, 117, 115, 101, 114, 38, 117, 105, 100, 61, 49, 48])
      ∧ DecryptAdmin c (xorBlock 16 90) = some true :=
  ⟨xorBlock_wf 16 90 (by decide) (by decide), xorBlock_invertible 16 90,
    GenerateAdmin_grants_admin (xorBlock 16 90) (xorBlock_wf 16 90 (by decide) (by decide))
      (xorBlock_invertible 16 90) rfl⟩

/-! ## CBC bit flipping (`SolveCBCBitflipOracle`) -/

theorem cbcEncBlocks_succ (bl : Block) (m : Nat) (src iv : List Nat) :
    cbcEncBlocks bl (m + 1) src iv
      = bl.Encrypt (xorBytes (src.take bl.BlockSize) iv)
          ++ cbcEncBlocks bl m (src.drop bl.BlockSize)
              (bl.Encrypt (xorBytes (src.take bl.BlockSize) iv)) := rfl

theorem cbcDecBlocks_cons (bl : Block) (m : Nat) (c rest iv : List Nat)
    (hc : c.length = bl.BlockSize) :
    cbcDecBlocks bl (m + 1) (c ++ rest) iv
      = xorBytes (bl.Decrypt c) iv ++ cbcDecBlocks bl m rest c := by
  show xorBytes (bl.Decrypt ((c ++ rest).take bl.BlockSize)) iv
      ++ cbcDecBlocks bl m ((c ++ rest).drop bl.BlockSize) ((c ++ rest).take bl.BlockSize) = _
  rw [List.take_left' hc, List.drop_left' hc]

theorem xorAt_append (A B : List Nat) (n j v b : Nat) (hA : A.length = n)
    (hb : B[j]? = some b) : xorAt (A ++ B) (n + j) v = some (A ++ B.set j (b ^^^ v)) := by
  unfold xorAt
  have h1 : (A ++ B)[n + j]? = some b := by
    rw [List.getElem?_append_right (by omega), hA, Nat.add_sub_cancel_left, hb]
  rw [h1, Option.some_bind, List.set_append, if_neg (by omega), hA, Nat.add_sub_cancel_left]

theorem stringsContains_of_isPrefixOf (pat s : List Nat) (h : pat.isPrefixOf s = true) :
    stringsContains pat s = true := by
  cases s with
  | nil => simpa [stringsContains] using h
  | cons c rest => simp [stringsContains, h]

theorem stringsContains_append_left (pat a s : List Nat) (h : stringsContains pat s = true) :
    stringsContains pat (a ++ s) = true := by
  induction a with
  | nil => simpa using h
  | cons c a ih => simp [stringsContains, ih]

theorem xor_flip (a c d : Nat) : (a ^^^ c) ^^^ (c ^^^ d) = a ^^^ d := by
  rw [Nat.xor_assoc, Nat.xor_cancel_left]

theorem length_eq_sixteen (l : List Nat) (h : l.length = 16) :
    ∃ a0 a1 a2 a3 a4 a5 a6 a7 a8 a9 a10 a11 a12 a13 a14 a15 : Nat,
      l = [a0, a1, a2, a3, a4, a5, a6, a7, a8, a9, a10, a11, a12, a13, a14, a15] := by
  match l, h with
  | [a0, a1, a2, a3, a4, a5, a6, a7, a8, a9, a10, a11, a12, a13, a14, a15], _ =>
    exact ⟨a0, a1, a2, a3, a4, a5, a6, a7, a8, a9, a10, a11, a12, a13, a14, a15, rfl⟩

set_option maxRecDepth 8000 in
theorem NewCBCBitflipOracle_oracle_eq (bl : Block) (hwf : bl.WF) (hbs : bl.BlockSize = 16)
    (iv : List Nat) (hiv : iv.length = 16) (hivb : IsBytes iv) :
    NewCBCBitflipOracle.oracle bl iv [88, 97, 100, 109, 105, 110, 88, 116, 114, 117, 101]
      = some (cbcEncBlocks bl 6 [99, 111, 109, 109, 101, 110, 116, 49, 61, 99, 111, 111, 107, 105, 110, 103, 37, 50, 48, 77, 67, 115, 59, 117, 115, 101, 114, 100, 97, 116, 97, 61, 88, 97, 100, 109, 105, 110, 88, 116, 114, 117, 101, 59, 99, 111, 109, 109, 101, 110, 116, 50, 61, 37, 50, 48, 108, 105, 107, 101, 37, 50, 48, 97, 37, 50, 48, 112, 111, 117, 110, 100, 37, 50, 48, 111, 102, 37, 50, 48, 98, 97, 99, 111, 110, 11, 11, 11, 11, 11, 11, 11, 11, 11, 11, 11] iv) := by
  have hp : PadPKCS7 ((NewCBCBitflipOracle.pre
        ++ bytesReplaceAll 61 [37, 51, 68]
            (bytesReplaceAll 59 [37, 51, 66] [88, 97, 100, 109, 105, 110, 88, 116, 114, 117, 101]))
        ++ NewCBCBitflipOracle.end_) 16 = some [99, 111, 109, 109, 101, 110, 116, 49, 61, 99, 111, 111, 107, 105, 110, 103, 37, 50, 48, 77, 67, 115, 59, 117, 115, 101, 114, 100, 97, 116, 97, 61, 88, 97, 100, 109, 105, 110, 88, 116, 114, 117, 101, 59, 99, 111, 109, 109, 101, 110, 116, 50, 61, 37, 50, 48, 108, 105, 107, 101, 37, 50, 48, 97, 37, 50, 48, 112, 111, 117, 110, 100, 37, 50, 48, 111, 102, 37, 50, 48, 98, 97, 99, 111, 110, 11, 11, 11, 11, 11, 11, 11, 11, 11, 11, 11] := by
    decide
  unfold NewCBCBitflipOracle.oracle
  simp only [hbs]
  rw [show (16 : Nat) % 256 = 16 from rfl, hp, Option.some_bind,
    EncryptCBC_eq bl hwf _ iv (by decide) hivb (by rw [hbs]; decide) (by rw [hbs]; exact hiv), hbs]
  rfl

/-- CBC malleability, as used by the bit-flipping attack: when the third
plaintext block is `"XadminXtrue;comm"`, XORing bytes 16 and 22 of the
ciphertext with `'X' ^ ';'` and `'X' ^ '='` makes the third block of the
decryption `";admin=true;comm"`. -/
theorem cbc_bitflip_core (bl : Block) (hwf : bl.WF) (hinv : bl.Invertible)
    (hbs : bl.BlockSize = 16) (iv P0 P1 Rest : List Nat) (m : Nat)
    (hiv : iv.length = 16) (hivb : IsBytes iv)
    (h0 : P0.length = 16) (h0b : IsBytes P0) (h1 : P1.length = 16) (h1b : IsBytes P1)
    (hR : Rest.length = m * 16) (hRb : IsBytes Rest) :
    ∃ o X Y, ((xorAt (cbcEncBlocks bl (m + 3) (P0 ++ (P1 ++ ([88, 97, 100, 109, 105, 110, 88, 116, 114, 117, 101, 59, 99, 111, 109, 109] ++ Rest))) iv) 16 (88 ^^^ 59)).bind
        fun o1 => xorAt o1 22 (88 ^^^ 61)) = some o
      ∧ DecryptCBC bl o iv = some (X ++ ([59, 97, 100, 109, 105, 110, 61, 116, 114, 117, 101, 59, 99, 111, 109, 109] ++ Y)) := by
  have hE : ∀ x : List Nat, x.length = 16 → IsBytes x →
      (bl.Encrypt x).length = 16 ∧ IsBytes (bl.Encrypt x) := by
    intro x hx hxb
    have := hwf.enc_len x (by rw [hbs]; exact hx) hxb
    rw [hbs] at this
    exact ⟨this, hwf.enc_bytes x (by rw [hbs]; exact hx) hxb⟩
  have hD : ∀ x : List Nat, x.length = 16 → IsBytes x → (bl.Decrypt x).length = 16 := by
    intro x hx hxb
    have := hwf.dec_len x (by rw [hbs]; exact hx) hxb
    rw [hbs] at this; exact this
  have hP2 : ([88, 97, 100, 109, 105, 110, 88, 116, 114, 117, 101, 59, 99, 111, 109, 109] : List Nat).length = 16 := rfl
  have hP2b : IsBytes [88, 97, 100, 109, 105, 110, 88, 116, 114, 117, 101, 59, 99, 111, 109, 109] := by decide
  -- the three leading ciphertext blocks
  obtain ⟨l0, b0⟩ := hE (xorBytes P0 iv) (by rw [xorBytes_length _ _ (by omega), h0])
    (xorBytes_isBytes _ _ h0b hivb)
  obtain ⟨l1, b1⟩ := hE (xorBytes P1 (bl.Encrypt (xorBytes P0 iv)))
    (by rw [xorBytes_length _ _ (by omega), h1]) (xorBytes_isBytes _ _ h1b b0)
  have e : cbcEncBlocks bl (m + 3) (P0 ++ (P1 ++ ([88, 97, 100, 109, 105, 110, 88, 116, 114, 117, 101, 59, 99, 111, 109, 109] ++ Rest))) iv
      = bl.Encrypt (xorBytes P0 iv) ++ (bl.Encrypt (xorBytes P1 (bl.Encrypt (xorBytes P0 iv)))
        ++ (bl.Encrypt (xorBytes [88, 97, 100, 109, 105, 110, 88, 116, 114, 117, 101, 59, 99, 111, 109, 109] (bl.Encrypt (xorBytes P1 (bl.Encrypt (xorBytes P0 iv)))))
          ++ cbcEncBlocks bl m Rest
              (bl.Encrypt (xorBytes [88, 97, 100, 109, 105, 110, 88, 116, 114, 117, 101, 59, 99, 111, 109, 109]
                (bl.Encrypt (xorBytes P1 (bl.Encrypt (xorBytes P0 iv)))))))) := by
    rw [cbcEncBlocks_succ, cbcEncBlocks_succ, cbcEncBlocks_succ, hbs]
    rw [List.take_left' h0, List.drop_left' h0, List.take_left' h1, List.drop_left' h1,
      List.take_left' hP2, List.drop_left' hP2]
  rw [e]
  obtain ⟨c0, c1, c2, c3, c4, c5, c6, c7, c8, c9, c10, c11, c12, c13, c14, c15, hC1⟩ :=
    length_eq_sixteen _ l1
  rw [hC1] at b1 ⊢
  obtain ⟨l2, b2⟩ := hE (xorBytes [88, 97, 100, 109, 105, 110, 88, 116, 114, 117, 101, 59, 99, 111, 109, 109]
      [c0, c1, c2, c3, c4, c5, c6, c7, c8, c9, c10, c11, c12, c13, c14, c15])
    (by simp [xorBytes]) (xorBytes_isBytes _ _ hP2b b1)
  generalize hC0 : bl.Encrypt (xorBytes P0 iv) = C0 at l0 b0 ⊢
  obtain ⟨lR, bR⟩ := cbcEncBlocks_length bl hwf m Rest
    (bl.Encrypt (xorBytes [88, 97, 100, 109, 105, 110, 88, 116, 114, 117, 101, 59, 99, 111, 109, 109] [c0, c1, c2, c3, c4, c5, c6, c7, c8, c9, c10, c11, c12, c13, c14, c15]))
    (by rw [hbs, hR]) hRb (by rw [hbs]; exact l2) b2
  rw [hbs] at lR
  have hinv2 : bl.Decrypt (bl.Encrypt (xorBytes [88, 97, 100, 109, 105, 110, 88, 116, 114, 117, 101, 59, 99, 111, 109, 109]
      [c0, c1, c2, c3, c4, c5, c6, c7, c8, c9, c10, c11, c12, c13, c14, c15]))
      = xorBytes [88, 97, 100, 109, 105, 110, 88, 116, 114, 117, 101, 59, 99, 111, 109, 109] [c0, c1, c2, c3, c4, c5, c6, c7, c8, c9, c10, c11, c12, c13, c14, c15] :=
    hinv _ (by rw [hbs]; simp [xorBytes]) (xorBytes_isBytes _ _ hP2b b1)
  generalize hC2 : bl.Encrypt (xorBytes [88, 97, 100, 109, 105, 110, 88, 116, 114, 117, 101, 59, 99, 111, 109, 109]
      [c0, c1, c2, c3, c4, c5, c6, c7, c8, c9, c10, c11, c12, c13, c14, c15]) = C2
    at l2 b2 lR bR hinv2 ⊢
  generalize hRR : cbcEncBlocks bl m Rest C2 = R at lR bR ⊢
  have hc : ∀ c ∈ [c0, c1, c2, c3, c4, c5, c6, c7, c8, c9, c10, c11, c12, c13, c14, c15],
      c < 256 := b1
  simp only [List.mem_cons, List.mem_singleton, forall_eq_or_imp, forall_eq,
    List.not_mem_nil, false_implies, implies_true, and_true] at hc
  -- the two XORs
  have x1 := xorAt_append C0 ([c0, c1, c2, c3, c4, c5, c6, c7, c8, c9, c10, c11, c12, c13, c14, c15]
    ++ (C2 ++ R)) 16 0 (88 ^^^ 59) c0 l0 rfl
  have x2 := xorAt_append C0 ([c0 ^^^ (88 ^^^ 59), c1, c2, c3, c4, c5, c6, c7, c8, c9, c10, c11,
    c12, c13, c14, c15] ++ (C2 ++ R)) 16 6 (88 ^^^ 61) c6 l0 rfl
  simp only [List.cons_append, List.set, Nat.add_zero, List.nil_append, List.append_eq] at x1 x2
  simp only [List.cons_append, List.nil_append]
  rw [x1, Option.some_bind]
  rw [show (22 : Nat) = 16 + 6 from rfl, x2]
  refine ⟨_, xorBytes (bl.Decrypt C0) iv ++ xorBytes (bl.Decrypt [c0 ^^^ (88 ^^^ 59), c1, c2, c3,
    c4, c5, c6 ^^^ (88 ^^^ 61), c7, c8, c9, c10, c11, c12, c13, c14, c15]) C0,
    cbcDecBlocks bl m R C2, rfl, ?_⟩
  have hb1' : IsBytes [c0 ^^^ (88 ^^^ 59), c1, c2, c3, c4, c5, c6 ^^^ (88 ^^^ 61), c7, c8, c9, c10,
      c11, c12, c13, c14, c15] := by
    intro z hz
    simp only [List.mem_cons, List.mem_singleton, List.not_mem_nil, or_false] at hz
    have k0 : c0 ^^^ (88 ^^^ 59) < 256 :=
      Nat.xor_lt_two_pow (n := 8) hc.1 (by decide)
    have k6 : c6 ^^^ (88 ^^^ 61) < 256 :=
      Nat.xor_lt_two_pow (n := 8) hc.2.2.2.2.2.2.1 (by decide)
    rcases hz with h | h | h | h | h | h | h | h | h | h | h | h | h | h | h | h <;>
      subst h <;> first | exact k0 | exact k6 | omega
  have hform : (C0 ++ (c0 ^^^ (88 ^^^ 59)) :: c1 :: c2 :: c3 :: c4 :: c5 :: (c6 ^^^ (88 ^^^ 61))
        :: c7 :: c8 :: c9 :: c10 :: c11 :: c12 :: c13 :: c14 :: c15 :: (C2 ++ R))
      = C0 ++ ([c0 ^^^ (88 ^^^ 59), c1, c2, c3, c4, c5, c6 ^^^ (88 ^^^ 61), c7, c8, c9, c10,
          c11, c12, c13, c14, c15] ++ (C2 ++ R)) := by
    simp only [List.cons_append, List.nil_append]
  rw [hform]
  have hlen : (C0 ++ ([c0 ^^^ (88 ^^^ 59), c1, c2, c3, c4, c5, c6 ^^^ (88 ^^^ 61), c7, c8, c9, c10,
          c11, c12, c13, c14, c15] ++ (C2 ++ R))).length = (m + 3) * 16 := by
    simp only [List.length_append, l0, l2, lR, List.length_cons, List.length_nil]; ring
  rw [DecryptCBC_eq bl hwf _ iv
    (isBytes_append.2 ⟨b0, isBytes_append.2 ⟨hb1', isBytes_append.2 ⟨b2, bR⟩⟩⟩)
    (by rw [hlen, hbs]; exact Nat.mul_mod_left _ _) (by rw [hbs]; exact hiv)]
  rw [hlen, hbs, Nat.mul_div_cancel _ (by decide : 0 < 16)]
  rw [cbcDecBlocks_cons bl (m + 2) C0 _ iv (by rw [hbs]; exact l0),
    cbcDecBlocks_cons bl (m + 1) _ _ C0 (by rw [hbs]; rfl),
    cbcDecBlocks_cons bl m C2 R _ (by rw [hbs]; exact l2), hinv2]
  have hT : xorBytes (xorBytes [88, 97, 100, 109, 105, 110, 88, 116, 114, 117, 101, 59, 99, 111, 109, 109]
        [c0, c1, c2, c3, c4, c5, c6, c7, c8, c9, c10, c11, c12, c13, c14, c15])
      [c0 ^^^ (88 ^^^ 59), c1, c2, c3, c4, c5, c6 ^^^ (88 ^^^ 61), c7, c8, c9, c10,
          c11, c12, c13, c14, c15] = [59, 97, 100, 109, 105, 110, 61, 116, 114, 117, 101, 59, 99, 111, 109, 109] := by
    simp only [xorBytes, List.zipWith_cons_cons, List.zipWith_nil_right, xor_flip,
      Nat.xor_cancel_right]
    rfl
  rw [hT]
  simp only [List.cons_append, List.nil_append, List.append_assoc]

set_option maxRecDepth 8000 in
/-- C3. CBC bit flipping: for an invertible block cipher of block size 16 and
an IV of 16 bytes, with `oracle` and `checkAdmin` as built by
`NewCBCBitflipOracle`, `SolveCBCBitflipOracle(oracle)` returns a ciphertext on
which `checkAdmin` returns true. -/
theorem SolveCBCBitflipOracle_admin (bl : Block) (hwf : bl.WF) (hinv : bl.Invertible)
    (hbs : bl.BlockSize = 16) (iv : List Nat) (hiv : iv.length = 16) (hivb : IsBytes iv) :
    ∃ c, SolveCBCBitflipOracle (NewCBCBitflipOracle.oracle bl iv) = some c
      ∧ NewCBCBitflipOracle.checkAdmin bl iv c = some true := by
  obtain ⟨o, X, Y, ho, hd⟩ := cbc_bitflip_core bl hwf hinv hbs iv
    [99, 111, 109, 109, 101, 110, 116, 49, 61, 99, 111, 111, 107, 105, 110, 103] [37, 50, 48, 77, 67, 115, 59, 117, 115, 101, 114, 100, 97, 116, 97, 61] [101, 110, 116, 50, 61, 37, 50, 48, 108, 105, 107, 101, 37, 50, 48, 97, 37, 50, 48, 112, 111, 117, 110, 100, 37, 50, 48, 111, 102, 37, 50, 48, 98, 97, 99, 111, 110, 11, 11, 11, 11, 11, 11, 11, 11, 11, 11, 11] 3 hiv hivb (by decide) (by decide) (by decide) (by decide) (by decide) (by decide)
  refine ⟨o, ?_, ?_⟩
  · unfold SolveCBCBitflipOracle
    rw [NewCBCBitflipOracle_oracle_eq bl hwf hbs iv hiv hivb, Option.some_bind]
    exact ho
  · unfold NewCBCBitflipOracle.checkAdmin
    rw [hd, Option.some_bind]
    congr 1
    apply stringsContains_append_left
    apply stringsContains_of_isPrefixOf
    simp [List.isPrefixOf]

theorem SolveCBCBitflipOracle_admin_witness :
    (xorBlock 16 90).WF ∧ (xorBlock 16 90).Invertible
    ∧ IsBytes [1, 2, 3, 4, 5, 6, 7, 8, 9, 10, 11, 12, 13, 14, 15, 16]
    ∧ ∃ c, SolveCBCBitflipOracle (NewCBCBitflipOracle.oracle (xorBlock 16 90)
          [1, 2, 3, 4, 5, 6, 7, 8, 9, 10, 11, 12, 13, 14, 15, 16]) = some c
      ∧ NewCBCBitflipOracle.checkAdmin (xorBlock 16 90)
          [1, 2, 3, 4, 5, 6, 7, 8, 9, 10, 11, 12, 13, 14, 15, 16] c = some true :=
  ⟨xorBlock_wf 16 90 (by decide) (by decide), xorBlock_invertible 16 90, by decide,
    SolveCBCBitflipOracle_admin (xorBlock 16 90) (xorBlock_wf 16 90 (by decide) (by decide))
      (xorBlock_invertible 16 90) rfl [1, 2, 3, 4, 5, 6, 7, 8, 9, 10, 11, 12, 13, 14, 15, 16]
      rfl (by decide)⟩

/-! ## CTR mode: the counter after the first carry -/

theorem EncryptCTR_xorLoop_eq (src : List Nat) (bs i : Nat) (hi : i + bs ≤ src.length) :
    ∀ (n j : Nat) (out : List Nat), j + n = bs → out.length = bs →
      EncryptCTR.xorLoop src src.length bs i n j out
        = some (out.take j ++ xorBytes (out.drop j) ((src.drop (i + j)).take n)) := by
  intro n
  induction n with
  | zero =>
    intro j out hj hout
    have : out.drop j = [] := List.drop_of_length_le (by omega)
    simp only [EncryptCTR.xorLoop, this, xorBytes, List.zipWith_nil_left, List.append_nil]
    rw [List.take_of_length_le (by omega)]
  | succ n ih =>
    intro j out hj hout
    have hjo : j < out.length := by omega
    have hjs : i + j < src.length := by omega
    have ho : out[j]? = some out[j] := List.getElem?_eq_getElem hjo
    have hs : src[i + j]? = some src[i + j] := List.getElem?_eq_getElem hjs
    have hd1 : out.drop j = out[j] :: out.drop (j + 1) := List.drop_eq_getElem_cons hjo
    have hd2 : src.drop (i + j) = src[i + j] :: src.drop (i + j + 1) :=
      List.drop_eq_getElem_cons hjs
    simp only [EncryptCTR.xorLoop]
    rw [if_pos ⟨by omega, by omega⟩, ho, hs]
    simp only
    rw [ih (j + 1) _ (by omega) (by rw [List.length_set]; exact hout)]
    rw [hd1, hd2, List.set_eq_take_cons_drop _ hjo]
    have hA : (out.take j ++ [out[j] ^^^ src[i + j]]).length = j + 1 := by
      simp only [List.length_append, List.length_take, List.length_singleton]; omega
    have hsplit : out.take j ++ (out[j] ^^^ src[i + j]) :: out.drop (j + 1)
        = (out.take j ++ [out[j] ^^^ src[i + j]]) ++ out.drop (j + 1) := by simp
    rw [hsplit, List.take_left' hA, List.drop_left' hA]
    have e3 : xorBytes (out[j] :: out.drop (j + 1))
        ((src[i + j] :: src.drop (i + j + 1)).take (n + 1))
        = (out[j] ^^^ src[i + j])
            :: xorBytes (out.drop (j + 1)) ((src.drop (i + j + 1)).take n) := rfl
    rw [e3, List.append_assoc, Nat.add_assoc]
    rfl

theorem EncryptCTR_loop_step (bl : Block) (hwf : bl.WF) (src : List Nat)
    (fuel i : Nat) (dst input output : List Nat) (p a : Nat)
    (hi : i + bl.BlockSize ≤ src.length) (hdst : dst.length = src.length)
    (hin : input.length = bl.BlockSize) (hinb : IsBytes input)
    (hout : output.length = bl.BlockSize) (hp : input[p]? = some a) (ha : a < 255) :
    EncryptCTR.loop bl src (fuel + 1) i dst input output p
      = EncryptCTR.loop bl src fuel (i + bl.BlockSize)
          (dst.take i ++ (xorBytes (bl.Encrypt input) ((src.drop i).take bl.BlockSize)
            ++ dst.drop (i + bl.BlockSize)))
          (input.set p (a + 1))
          (xorBytes (bl.Encrypt input) ((src.drop i).take bl.BlockSize)) p := by
  have hpos := hwf.pos
  have hlt : i < src.length := by omega
  have hEl := hwf.enc_len input hin hinb
  have h1 : bl.encryptInto output input = some (bl.Encrypt input) := by
    have e1 : input.take bl.BlockSize = input := List.take_of_length_le (by omega)
    have e2 : output.drop bl.BlockSize = [] := List.drop_of_length_le (by omega)
    simp only [Block.encryptInto]
    rw [if_neg (by omega), e1, e2, List.append_nil]
  have h2 := EncryptCTR_incr_no_carry input p a hp ha
  have h3 := EncryptCTR_xorLoop_eq src bl.BlockSize i hi bl.BlockSize 0 (bl.Encrypt input)
    (by omega) hEl
  simp only [List.take_zero, List.nil_append, List.drop_zero, Nat.add_zero] at h3
  have h4 : sliceFrom dst i = some (dst.drop i) := by
    simp only [sliceFrom]; rw [if_pos (by omega)]
  have hxl : (xorBytes (bl.Encrypt input) ((src.drop i).take bl.BlockSize)).length
      = bl.BlockSize := by
    rw [xorBytes_length _ _ (by simp only [List.length_take, List.length_drop]; omega), hEl]
  have h5 : copy (dst.drop i) (xorBytes (bl.Encrypt input) ((src.drop i).take bl.BlockSize))
      = xorBytes (bl.Encrypt input) ((src.drop i).take bl.BlockSize)
          ++ dst.drop (i + bl.BlockSize) := by
    unfold copy
    rw [hxl, List.drop_drop, List.take_of_length_le
      (by rw [hxl]; simp only [List.length_drop]; omega)]
  simp only [EncryptCTR.loop, hlt, if_true, h1, h2, h3, h4, h5, Option.some_bind]

theorem isBytes_set (l : List Nat) (p v : Nat) (hl : IsBytes l) (hv : v < 256) :
    IsBytes (l.set p v) := by
  intro z hz
  rcases List.mem_or_eq_of_mem_set hz with h | h
  · exact hl z h
  · rw [h]; exact hv

theorem set_of_getElem? (l : List Nat) :
    ∀ (p a : Nat), l[p]? = some a → l.set p a = l := by
  induction l with
  | nil => intro p a h; simp at h
  | cons x l ih =>
    intro p a h
    cases p with
    | zero =>
      simp only [List.getElem?_cons_zero, Option.some.injEq] at h
      simp [h]
    | succ p =>
      simp only [List.getElem?_cons_succ] at h
      simp [ih p a h]

theorem EncryptCTR_loop_steps (bl : Block) (hwf : bl.WF) (src : List Nat) :
    ∀ (n fuel i : Nat) (dst input output : List Nat) (p a : Nat),
      i + n * bl.BlockSize ≤ src.length → dst.length = src.length →
      input.length = bl.BlockSize → IsBytes input → output.length = bl.BlockSize →
      input[p]? = some a → a + n ≤ 255 →
      ∃ dst1 output1, dst1.length = src.length ∧ output1.length = bl.BlockSize
        ∧ EncryptCTR.loop bl src (fuel + n) i dst input output p
          = EncryptCTR.loop bl src fuel (i + n * bl.BlockSize) dst1 (input.set p (a + n))
              output1 p := by
  intro n
  induction n with
  | zero =>
    intro fuel i dst input output p a _ hdst _ _ hout hp _
    refine ⟨dst, output, hdst, hout, ?_⟩
    have hpl : p < input.length := by
      rcases Nat.lt_or_ge p input.length with h | h
      · exact h
      · rw [List.getElem?_eq_none h] at hp; cases hp
    have e1 : input.set p (a + 0) = input := set_of_getElem? input p a hp
    have e2 : i + 0 * bl.BlockSize = i := by omega
    rw [e1, e2]
    rfl
  | succ n ih =>
    intro fuel i dst input output p a hi hdst hin hinb hout hp ha
    have hexp : (n + 1) * bl.BlockSize = bl.BlockSize + n * bl.BlockSize := by ring
    have hEl := hwf.enc_len input hin hinb
    have hxl : (xorBytes (bl.Encrypt input) ((src.drop i).take bl.BlockSize)).length
        = bl.BlockSize := by
      rw [xorBytes_length _ _ (by simp only [List.length_take, List.length_drop]; omega), hEl]
    have hpl : p < input.length := by
      rcases Nat.lt_or_ge p input.length with h | h
      · exact h
      · rw [List.getElem?_eq_none h] at hp; cases hp
    have step := EncryptCTR_loop_step bl hwf src (fuel + n) i dst input output p a
      (by omega) hdst hin hinb hout hp (by omega)
    obtain ⟨dst1, output1, h1, h2, h3⟩ := ih fuel (i + bl.BlockSize)
      (dst.take i ++ (xorBytes (bl.Encrypt input) ((src.drop i).take bl.BlockSize)
            ++ dst.drop (i + bl.BlockSize)))
      (input.set p (a + 1))
      (xorBytes (bl.Encrypt input) ((src.drop i).take bl.BlockSize)) p (a + 1)
      (by omega)
      (by simp only [List.length_append, List.length_take, List.length_drop, hxl]; omega)
      (by rw [List.length_set]; exact hin) (isBytes_set _ _ _ hinb (by omega)) hxl
      (List.getElem?_set_self hpl) (by omega)
    refine ⟨dst1, output1, h1, h2, ?_⟩
    rw [show fuel + (n + 1) = fuel + n + 1 from rfl, step, h3, List.set_set]
    have e1 : i + bl.BlockSize + n * bl.BlockSize = i + (n + 1) * bl.BlockSize := by omega
    have e2 : a + 1 + n = a + (n + 1) := by omega
    rw [e1, e2]

theorem EncryptCTR_loop_carry (bl : Block) (hwf : bl.WF) (src : List Nat)
    (fuel i : Nat) (dst input output : List Nat) (p b : Nat)
    (hi : i + bl.BlockSize ≤ src.length) (hdst : dst.length = src.length)
    (hin : input.length = bl.BlockSize) (hinb : IsBytes input)
    (hout : output.length = bl.BlockSize) (hp : input[p]? = some 255)
    (hp1 : input[p + 1]? = some b) (hb : b < 255) :
    ∃ dst1 output1, dst1.length = src.length ∧ output1.length = bl.BlockSize
      ∧ EncryptCTR.loop bl src (fuel + 1) i dst input output p
        = EncryptCTR.loop bl src fuel (i + bl.BlockSize) dst1
            ((input.set p 0).set (p + 1) (b + 1)) output1 (p + 1) := by
  have hpos := hwf.pos
  have hlt : i < src.length := by omega
  have hEl := hwf.enc_len input hin hinb
  have h1 : bl.encryptInto output input = some (bl.Encrypt input) := by
    have e1 : input.take bl.BlockSize = input := List.take_of_length_le (by omega)
    have e2 : output.drop bl.BlockSize = [] := List.drop_of_length_le (by omega)
    simp only [Block.encryptInto]
    rw [if_neg (by omega), e1, e2, List.append_nil]
  have h2 : EncryptCTR.incr input p = some ((input.set p 0).set (p + 1) (b + 1), p + 1) := by
    unfold EncryptCTR.incr
    rw [hp, Option.some_bind]
    simp only
    rw [if_pos (by decide), show (255 + 1) % 256 = 0 from rfl,
      List.getElem?_set_ne (by omega), hp1, Option.some_bind, Nat.mod_eq_of_lt (by omega)]
  have h3 := EncryptCTR_xorLoop_eq src bl.BlockSize i hi bl.BlockSize 0 (bl.Encrypt input)
    (by omega) hEl
  simp only [List.take_zero, List.nil_append, List.drop_zero, Nat.add_zero] at h3
  have h4 : sliceFrom dst i = some (dst.drop i) := by
    simp only [sliceFrom]; rw [if_pos (by omega)]
  have hxl : (xorBytes (bl.Encrypt input) ((src.drop i).take bl.BlockSize)).length
      = bl.BlockSize := by
    rw [xorBytes_length _ _ (by simp only [List.length_take, List.length_drop]; omega), hEl]
  refine ⟨dst.take i ++ copy (dst.drop i)
      (xorBytes (bl.Encrypt input) ((src.drop i).take bl.BlockSize)),
    xorBytes (bl.Encrypt input) ((src.drop i).take bl.BlockSize), ?_, hxl, ?_⟩
  · unfold copy
    simp only [List.length_append, List.length_take, List.length_drop, hxl]
    omega
  · simp only [EncryptCTR.loop, hlt, if_true, h1, h2, h3, h4, Option.some_bind]

theorem xorBytes_right_cancel (a b s : List Nat) (ha : a.length = s.length)
    (hb : b.length = s.length) (h : xorBytes a s = xorBytes b s) : a = b := by
  rw [← xorBytes_cancel a s ha, ← xorBytes_cancel b s hb, h]

theorem EncryptCTR_loop_to_block_257 (bl : Block) (hwf : bl.WF) (src : List Nat)
    (f : Nat) (dst input output : List Nat) (p : Nat)
    (hlen : src.length = 258 * bl.BlockSize) (hdst : dst.length = src.length)
    (hin : input.length = bl.BlockSize) (hinb : IsBytes input)
    (hout : output.length = bl.BlockSize) (hp : input[p]? = some 0)
    (hp1 : input[p + 1]? = some 0) :
    ∃ d3 o3, d3.length = src.length ∧ o3.length = bl.BlockSize
      ∧ EncryptCTR.loop bl src (f + 1 + 1 + 1 + 255) 0 dst input output p
        = EncryptCTR.loop bl src (f + 1) (257 * bl.BlockSize) d3
            ((input.set p 0).set (p + 1) 2) o3 (p + 1) := by
  have hpos := hwf.pos
  have hp1l : p + 1 < input.length := by
    rcases Nat.lt_or_ge (p + 1) input.length with h | h
    · exact h
    · rw [List.getElem?_eq_none h] at hp1; cases hp1
  -- blocks 0 to 254: the low counter byte runs from 0 to 255
  obtain ⟨d1, o1, hd1, ho1, e1⟩ := EncryptCTR_loop_steps bl hwf src 255 (f + 1 + 1 + 1) 0
    dst input output p 0 (by omega) hdst hin hinb hout hp (by omega)
  -- block 255: the carry
  obtain ⟨d2, o2, hd2, ho2, e2⟩ := EncryptCTR_loop_carry bl hwf src (f + 1 + 1)
    (0 + 255 * bl.BlockSize) d1 (input.set p (0 + 255)) o1 p 0 (by omega) hd1
    (by rw [List.length_set]; exact hin) (isBytes_set _ _ _ hinb (by omega)) ho1
    (List.getElem?_set_self (by omega))
    (by rw [List.getElem?_set_ne (by omega)]; exact hp1) (by omega)
  have hs2 : ((input.set p (0 + 255)).set p 0).set (p + 1) (0 + 1)
      = (input.set p 0).set (p + 1) 1 := by rw [List.set_set]
  rw [hs2] at e2
  -- block 256: counter bytes 0, 1
  obtain ⟨d3, o3, hd3, ho3, e3⟩ := EncryptCTR_loop_steps bl hwf src 1 (f + 1)
    (0 + 255 * bl.BlockSize + bl.BlockSize) d2 ((input.set p 0).set (p + 1) 1) o2 (p + 1) 1
    (by omega) hd2 (by rw [List.length_set, List.length_set]; exact hin)
    (isBytes_set _ _ _ (isBytes_set _ _ _ hinb (by omega)) (by omega)) ho2
    (List.getElem?_set_self (by rw [List.length_set]; exact hp1l)) (by omega)
  have hs3 : ((input.set p 0).set (p + 1) 1).set (p + 1) (1 + 1)
      = (input.set p 0).set (p + 1) 2 := by rw [List.set_set]
  have hidx : 0 + 255 * bl.BlockSize + bl.BlockSize + 1 * bl.BlockSize = 257 * bl.BlockSize := by
    omega
  rw [hs3, hidx] at e3
  exact ⟨d3, o3, hd3, ho3, by rw [e1, e2, e3]⟩

theorem EncryptCTR_loop_last_block (bl : Block) (hwf : bl.WF) (src : List Nat)
    (f : Nat) (dst input output : List Nat) (p : Nat)
    (hlen : src.length = 258 * bl.BlockSize) (hdst : dst.length = src.length)
    (hin : input.length = bl.BlockSize) (hinb : IsBytes input)
    (hout : output.length = bl.BlockSize) (hp : input[p]? = some 2) :
    EncryptCTR.loop bl src (f + 1 + 1) (257 * bl.BlockSize) dst input output p
      = some (dst.take (257 * bl.BlockSize)
          ++ xorBytes (bl.Encrypt input) (src.drop (257 * bl.BlockSize))) := by
  have hpos := hwf.pos
  rw [EncryptCTR_loop_step bl hwf src (f + 1) (257 * bl.BlockSize) dst input output p 2
    (by omega) hdst hin hinb hout hp (by omega)]
  have htk : (src.drop (257 * bl.BlockSize)).take bl.BlockSize = src.drop (257 * bl.BlockSize) :=
    List.take_of_length_le (by rw [List.length_drop]; omega)
  have hdd : dst.drop (257 * bl.BlockSize + bl.BlockSize) = [] :=
    List.drop_of_length_le (by omega)
  rw [htk, hdd, List.append_nil]
  simp only [EncryptCTR.loop]
  rw [if_neg (by omega)]

theorem EncryptCTR_initial_input (bs : Nat) (nonce : List Nat) (hn : nonce.length + 2 ≤ bs) :
    copy (make bs) nonce = nonce ++ 0 :: 0 :: List.replicate (bs - nonce.length - 2) 0 := by
  unfold copy
  rw [length_make, List.take_of_length_le (by omega)]
  congr 1
  have hk : bs - nonce.length = bs - nonce.length - 2 + 2 := by omega
  simp only [make, List.drop_replicate]
  generalize bs - nonce.length - 2 = k at hk ⊢
  rw [hk]
  rfl

/-- C7 (code defect). `EncryptCTR` on a buffer of 258 blocks, with a nonce that
leaves at least two counter bytes: the keystream block XORed into block 257 is
the encryption of `nonce ++ [0, 2] ++ zeros`, the counter value 512, because the
carry at block 255 leaves the counter position `p` on the second byte.  For an
injective cipher this differs from the encryption of the little-endian counter
257, `nonce ++ [1, 1] ++ zeros`. -/
theorem EncryptCTR_counter_after_carry (bl : Block) (hwf : bl.WF) (src nonce : List Nat)
    (hnb : IsBytes nonce) (hn : nonce.length + 2 ≤ bl.BlockSize)
    (hlen : src.length = 258 * bl.BlockSize) :
    ∃ dst, EncryptCTR bl src nonce = some dst
      ∧ dst.drop (257 * bl.BlockSize)
          = xorBytes (bl.Encrypt (nonce ++ [0, 2]
                ++ List.replicate (bl.BlockSize - nonce.length - 2) 0))
              (src.drop (257 * bl.BlockSize))
      ∧ (bl.Injective → dst.drop (257 * bl.BlockSize)
          ≠ xorBytes (bl.Encrypt (nonce ++ [1, 1]
                ++ List.replicate (bl.BlockSize - nonce.length - 2) 0))
              (src.drop (257 * bl.BlockSize))) := by
  have hpos := hwf.pos
  generalize hZ : List.replicate (bl.BlockSize - nonce.length - 2) 0 = Z
  have hZl : Z.length = bl.BlockSize - nonce.length - 2 := by rw [← hZ, List.length_replicate]
  have hZb : IsBytes Z := by rw [← hZ]; exact isBytes_replicate _ (by decide)
  have hI0 : copy (make bl.BlockSize) nonce = nonce ++ 0 :: 0 :: Z := by
    rw [← hZ]; exact EncryptCTR_initial_input bl.BlockSize nonce hn
  have hcons : ∀ a b : Nat, a < 256 → b < 256 → IsBytes (nonce ++ a :: b :: Z) := by
    intro a b ha hb
    refine isBytes_append.2 ⟨hnb, ?_⟩
    intro z hz
    simp only [List.mem_cons] at hz
    rcases hz with h | h | h
    · omega
    · omega
    · exact hZb z h
  have hconl : ∀ a b : Nat, (nonce ++ a :: b :: Z).length = bl.BlockSize := by
    intro a b
    simp only [List.length_append, List.length_cons, hZl]; omega
  obtain ⟨f, hf⟩ : ∃ f, src.length + 1 = f + 1 + 1 + 1 + 1 + 255 := ⟨src.length - 258, by omega⟩
  obtain ⟨d3, o3, hd3, ho3, e3⟩ := EncryptCTR_loop_to_block_257 bl hwf src (f + 1)
    (make src.length) (nonce ++ 0 :: 0 :: Z) (make bl.BlockSize) nonce.length hlen
    (length_make _) (hconl 0 0) (hcons 0 0 (by omega) (by omega)) (length_make _)
    (by rw [List.getElem?_append_right (Nat.le_refl _), Nat.sub_self]; rfl)
    (by rw [List.getElem?_append_right (by omega), Nat.add_sub_cancel_left]; simp)
  have hin3 : ((nonce ++ 0 :: 0 :: Z).set nonce.length 0).set (nonce.length + 1) 2
      = nonce ++ [0, 2] ++ Z := by
    rw [List.set_append_right _ _ (Nat.le_refl _), Nat.sub_self,
      List.set_append_right _ _ (by omega), Nat.add_sub_cancel_left, List.append_assoc]
    rfl
  rw [hin3] at e3
  have h2b : IsBytes (nonce ++ [0, 2] ++ Z) := by
    rw [List.append_assoc]; exact hcons 0 2 (by omega) (by omega)
  have h2l : (nonce ++ [0, 2] ++ Z).length = bl.BlockSize := by
    rw [List.append_assoc]; exact hconl 0 2
  have e4 := EncryptCTR_loop_last_block bl hwf src f d3 (nonce ++ [0, 2] ++ Z) o3
    (nonce.length + 1) hlen hd3 h2l h2b ho3
    (by rw [List.append_assoc, List.getElem?_append_right (by omega), Nat.add_sub_cancel_left]
        simp)
  have htl : (d3.take (257 * bl.BlockSize)).length = 257 * bl.BlockSize := by
    rw [List.length_take]; omega
  refine ⟨d3.take (257 * bl.BlockSize)
    ++ xorBytes (bl.Encrypt (nonce ++ [0, 2] ++ Z)) (src.drop (257 * bl.BlockSize)), ?_, ?_, ?_⟩
  · unfold EncryptCTR
    rw [hf, hI0, e3, e4]
  · rw [List.drop_left' htl]
  · intro hinj hcontra
    rw [List.drop_left' htl] at hcontra
    have h3b : IsBytes (nonce ++ [1, 1] ++ Z) := by
      rw [List.append_assoc]; exact hcons 1 1 (by omega) (by omega)
    have h3l : (nonce ++ [1, 1] ++ Z).length = bl.BlockSize := by
      rw [List.append_assoc]; exact hconl 1 1
    have hEl := hwf.enc_len _ h2l h2b
    have hEl3 := hwf.enc_len _ h3l h3b
    have hsd : (src.drop (257 * bl.BlockSize)).length = bl.BlockSize := by
      rw [List.length_drop]; omega
    have hE := xorBytes_right_cancel _ _ _ (by omega) (by omega) hcontra
    have := hinj _ _ h2l h3l h2b h3b hE
    rw [List.append_assoc, List.append_assoc] at this
    have := List.append_cancel_left this
    simp at this

theorem EncryptCTR_counter_after_carry_witness :
    (xorBlock 4 90).WF ∧ IsBytes [7, 7]
    ∧ ∃ dst, EncryptCTR (xorBlock 4 90) (List.replicate 1032 65) [7, 7] = some dst
      ∧ dst.drop (257 * 4) = xorBytes ((xorBlock 4 90).Encrypt [7, 7, 0, 2])
          ((List.replicate 1032 65).drop (257 * 4)) := by
  have h := EncryptCTR_counter_after_carry (xorBlock 4 90)
    (xorBlock_wf 4 90 (by decide) (by decide)) (List.replicate 1032 65) [7, 7] (by decide)
    (by decide) (by rw [List.length_replicate]; rfl)
  obtain ⟨dst, h1, h2, _⟩ := h
  exact ⟨xorBlock_wf 4 90 (by decide) (by decide), by decide, dst, h1, h2⟩

/-! ## The CBC padding-oracle attack (`DecryptPaddingOracle`) -/

theorem DecryptPaddingOracle_jLoop_succ (padCheck : List Nat → Option Bool)
    (i prev curr pad n j : Nat) (src out : List Nat) (valid : Bool) :
    DecryptPaddingOracle.jLoop padCheck i prev curr pad (n + 1) j src out valid
      = if j = pad then
          DecryptPaddingOracle.jLoop padCheck i prev curr pad n (j + 1) src out valid
        else if out.length ≤ i then none
        else
          (DecryptPaddingOracle.xorLoop (out.set i j) prev curr pad pad 0 src).bind fun src1 =>
          (sliceTo src1 (curr + 1)).bind fun arg =>
          (padCheck arg).bind fun valid1 =>
          (DecryptPaddingOracle.xorLoop (out.set i j) prev curr pad pad 0 src1).bind fun src2 =>
          if valid1 then some (src2, out.set i j, true)
          else DecryptPaddingOracle.jLoop padCheck i prev curr pad n (j + 1) src2 (out.set i j)
            valid1 := rfl

theorem DecryptPaddingOracle_jLoop_out (padCheck : List Nat → Option Bool)
    (i prev curr pad : Nat) :
    ∀ (n j : Nat) (src out : List Nat) (valid : Bool) (r : List Nat × List Nat × Bool),
      DecryptPaddingOracle.jLoop padCheck i prev curr pad n j src out valid = some r →
      r.2.1.length = out.length ∧ ∀ q, q ≠ i → r.2.1[q]? = out[q]? := by
  intro n
  induction n with
  | zero =>
    intro j src out valid r h
    simp only [DecryptPaddingOracle.jLoop, Option.some.injEq] at h
    subst h
    exact ⟨rfl, fun _ _ => rfl⟩
  | succ n ih =>
    intro j src out valid r h
    rw [DecryptPaddingOracle_jLoop_succ] at h
    by_cases hj : j = pad
    · rw [if_pos hj] at h
      exact ih _ _ _ _ _ h
    · rw [if_neg hj] at h
      by_cases hl : out.length ≤ i
      · rw [if_pos hl] at h; cases h
      · rw [if_neg hl] at h
        simp only [Option.bind_eq_some] at h
        obtain ⟨src1, _, arg, _, v1, _, src2, _, h5⟩ := h
        have hset : (out.set i j).length = out.length
            ∧ ∀ q, q ≠ i → (out.set i j)[q]? = out[q]? :=
          ⟨List.length_set _ _ _, fun q hq => List.getElem?_set_ne (Ne.symm hq)⟩
        cases v1 with
        | true =>
          simp only [if_true, Option.some.injEq] at h5
          subst h5
          exact hset
        | false =>
          simp only [Bool.false_eq_true, if_false] at h5
          obtain ⟨k1, k2⟩ := ih _ _ _ _ _ h5
          exact ⟨by rw [k1, hset.1], fun q hq => by rw [k2 q hq, hset.2 q hq]⟩

theorem DecryptPaddingOracle_iLoop_out (padCheck : List Nat → Option Bool) (blockSize : Nat) :
    ∀ (n : Nat) (src out : List Nat) (r : List Nat × List Nat),
      DecryptPaddingOracle.iLoop padCheck blockSize n src out = some r →
      r.2.length = out.length ∧ ∀ q, 2 * blockSize + n ≤ q → r.2[q]? = out[q]? := by
  intro n
  induction n with
  | zero =>
    intro src out r h
    simp only [DecryptPaddingOracle.iLoop, Option.some.injEq] at h
    subst h
    exact ⟨rfl, fun _ _ => rfl⟩
  | succ n ih =>
    intro src out r h
    simp only [DecryptPaddingOracle.iLoop, Option.bind_eq_some] at h
    obtain ⟨r1, h1, h2⟩ := h
    obtain ⟨j1, j2⟩ := DecryptPaddingOracle_jLoop_out _ _ _ _ _ _ _ _ _ _ _ h1
    obtain ⟨k1, k2⟩ := ih _ _ _ h2
    have hlen : (if r1.2.2 = true then r1.2.1
        else r1.2.1.set (2 * blockSize + n)
          ((blockSize - (2 * blockSize + n) % blockSize) % 256)).length = out.length := by
      split
      · exact j1
      · rw [List.length_set]; exact j1
    refine ⟨by rw [k1, hlen], fun q hq => ?_⟩
    rw [k2 q (by omega)]
    split
    · exact j2 q (by omega)
    · rw [List.getElem?_set_ne (by omega)]; exact j2 q (by omega)

theorem DecryptPaddingOracle_xorLoop_one (out src : List Nat) (prev curr pad s o : Nat)
    (hs : src[prev]? = some s) (ho : out[curr]? = some o) :
    DecryptPaddingOracle.xorLoop out prev curr pad 1 0 src
      = some (src.set prev (s ^^^ (o ^^^ pad))) := by
  simp only [DecryptPaddingOracle.xorLoop, Nat.not_lt_zero, or_self, if_false, Nat.sub_zero,
    hs, ho]

theorem cbcEnc_last_block (bl : Block) (hwf : bl.WF) :
    ∀ (q : Nat) (P iv : List Nat), P.length = (q + 1) * bl.BlockSize → IsBytes P →
      iv.length = bl.BlockSize → IsBytes iv →
      ∃ A B, iv ++ cbcEncBlocks bl (q + 1) P iv
          = A ++ (B ++ bl.Encrypt (xorBytes (P.drop (q * bl.BlockSize)) B))
        ∧ A.length = q * bl.BlockSize ∧ B.length = bl.BlockSize ∧ IsBytes A ∧ IsBytes B := by
  intro q
  induction q with
  | zero =>
    intro P iv hP _ hiv hivb
    refine ⟨[], iv, ?_, by simp, hiv, isBytes_nil, hivb⟩
    have : P.take bl.BlockSize = P := List.take_of_length_le (by omega)
    simp [cbcEncBlocks, this]
  | succ q ih =>
    intro P iv hP hPb hiv hivb
    have hexp : (q + 1 + 1) * bl.BlockSize = bl.BlockSize + (q + 1) * bl.BlockSize := by ring
    have htl : (P.take bl.BlockSize).length = bl.BlockSize := by
      rw [List.length_take]; omega
    have hxl : (xorBytes (P.take bl.BlockSize) iv).length = bl.BlockSize := by
      rw [xorBytes_length _ _ (by omega), htl]
    have hxb := xorBytes_isBytes _ _ (isBytes_take bl.BlockSize hPb) hivb
    obtain ⟨A, B, h1, h2, h3, h4, h5⟩ := ih (P.drop bl.BlockSize)
      (bl.Encrypt (xorBytes (P.take bl.BlockSize) iv))
      (by rw [List.length_drop]; omega) (isBytes_drop _ hPb)
      (hwf.enc_len _ hxl hxb) (hwf.enc_bytes _ hxl hxb)
    refine ⟨iv ++ A, B, ?_, ?_, h3, isBytes_append.2 ⟨hivb, h4⟩, h5⟩
    · rw [cbcEncBlocks_succ, h1, List.drop_drop, List.append_assoc]
      have : bl.BlockSize + q * bl.BlockSize = (q + 1) * bl.BlockSize := by ring
      rw [this]
    · rw [List.length_append, h2, hiv]; ring

theorem cbcDec_last_block (bl : Block) (L B : List Nat) (hB : B.length = bl.BlockSize)
    (hL : L.length = bl.BlockSize) :
    ∀ (q : Nat) (A iv : List Nat), A.length = q * bl.BlockSize →
      ∃ W, cbcDecBlocks bl (q + 2) (A ++ (B ++ L)) iv = W ++ xorBytes (bl.Decrypt L) B := by
  intro q
  induction q with
  | zero =>
    intro A iv hA
    have : A = [] := List.length_eq_zero.1 (by omega)
    subst this
    refine ⟨xorBytes (bl.Decrypt B) iv, ?_⟩
    rw [List.nil_append, cbcDecBlocks_cons bl 1 B L iv hB]
    have := cbcDecBlocks_cons bl 0 L [] B hL
    rw [List.append_nil] at this
    rw [this]
    simp [cbcDecBlocks]
  | succ q ih =>
    intro A iv hA
    have hexp : (q + 1) * bl.BlockSize = bl.BlockSize + q * bl.BlockSize := by ring
    have h1 : (A.take bl.BlockSize).length = bl.BlockSize := by
      rw [List.length_take]; omega
    obtain ⟨W, hW⟩ := ih (A.drop bl.BlockSize) (A.take bl.BlockSize)
      (by rw [List.length_drop]; omega)
    refine ⟨xorBytes (bl.Decrypt (A.take bl.BlockSize)) iv ++ W, ?_⟩
    have hsplit : A ++ (B ++ L) = A.take bl.BlockSize ++ (A.drop bl.BlockSize ++ (B ++ L)) := by
      rw [← List.append_assoc (A.take bl.BlockSize), List.take_append_drop]
    rw [hsplit, cbcDecBlocks_cons bl (q + 2) _ _ iv h1, hW, List.append_assoc]

theorem xorBytes_set (δ : Nat) :
    ∀ (P B : List Nat) (k p b : Nat), P.length = B.length → P[k]? = some p → B[k]? = some b →
      xorBytes (xorBytes P B) (B.set k (b ^^^ δ)) = P.set k (p ^^^ δ) := by
  intro P
  induction P with
  | nil => intro B k p b _ hp _; simp at hp
  | cons x P ih =>
    intro B k p b hlen hp hb
    cases B with
    | nil => simp at hb
    | cons y B =>
      simp only [List.length_cons, Nat.add_right_cancel_iff] at hlen
      cases k with
      | zero =>
        simp only [List.getElem?_cons_zero, Option.some.injEq] at hp hb
        subst hp; subst hb
        have := xorBytes_cancel P B hlen
        simp only [xorBytes] at this
        simp [xorBytes, xor_flip, this]
      | succ k =>
        simp only [List.getElem?_cons_succ] at hp hb
        have := ih B k p b hlen hp hb
        simp only [xorBytes] at this
        simp [xorBytes, Nat.xor_cancel_right, this]

theorem wellFormedPKCS7_tail (W T : List Nat) (v size : Nat) (hs : 2 ≤ size) :
    wellFormedPKCS7 (W ++ (T ++ [2, v])) size = (decide (v = 1) || decide (v = 2)) := by
  have hlast : (W ++ (T ++ [2, v])).getLast? = some v := by
    have : W ++ (T ++ [2, v]) = (W ++ (T ++ [2])) ++ [v] := by simp
    rw [this, List.getLast?_concat]
  have hlen : (W ++ (T ++ [2, v])).length = W.length + T.length + 2 := by
    simp only [List.length_append, List.length_cons, List.length_nil]; omega
  unfold wellFormedPKCS7
  rw [hlast]
  simp only
  by_cases h1 : v = 1
  · subst h1
    have hd : (W ++ (T ++ [2, 1])).drop ((W ++ (T ++ [2, 1])).length - 1) = [1] := by
      have : W ++ (T ++ [2, 1]) = (W ++ (T ++ [2])) ++ [1] := by simp
      rw [this]
      apply List.drop_left'
      simp only [List.length_append, List.length_cons, List.length_nil]; omega
    rw [hd]
    simp; omega
  · by_cases h2 : v = 2
    · subst h2
      have hd : (W ++ (T ++ [2, 2])).drop ((W ++ (T ++ [2, 2])).length - 2) = [2, 2] := by
        have : W ++ (T ++ [2, 2]) = (W ++ T) ++ [2, 2] := by simp
        rw [this]
        apply List.drop_left'
        simp only [List.length_append, List.length_cons, List.length_nil]; omega
      rw [hd]
      simp; omega
    · by_cases h0 : v = 0
      · subst h0; simp
      · have hv : 3 ≤ v := by omega
        by_cases hle : v ≤ (W ++ (T ++ [2, v])).length
        · have hmem : 2 ∈ (W ++ (T ++ [2, v])).drop ((W ++ (T ++ [2, v])).length - v) := by
            have e : W ++ (T ++ [2, v]) = (W ++ T) ++ [2, v] := by simp
            rw [e, List.mem_iff_getElem?]
            refine ⟨v - 2, ?_⟩
            rw [List.getElem?_drop]
            have e2 : ((W ++ T) ++ [2, v]).length - v + (v - 2) = (W ++ T).length + 0 := by
              simp only [List.length_append, List.length_cons, List.length_nil]
              simp only [List.length_append, List.length_cons, List.length_nil] at hle
              omega
            rw [e2, List.getElem?_append_right (by omega), Nat.add_sub_cancel_left]
            rfl
          have : ((W ++ (T ++ [2, v])).drop ((W ++ (T ++ [2, v])).length - v)).all
              (fun b => b == v) = false := by
            rw [Bool.eq_false_iff]
            intro hall
            rw [List.all_eq_true] at hall
            have := hall 2 hmem
            simp at this
            omega
          rw [this]
          simp [h1, h2]
        · have : decide (v ≤ (W ++ (T ++ [2, v])).length) = false := decide_eq_false hle
          rw [this]
          simp [h1, h2]

theorem nested_getElem? (X A B L : List Nat) (k : Nat) (hk : k < B.length) :
    (X ++ (A ++ (B ++ L)))[X.length + (A.length + k)]? = B[k]? := by
  rw [List.getElem?_append_right (by omega), Nat.add_sub_cancel_left,
    List.getElem?_append_right (by omega), Nat.add_sub_cancel_left,
    List.getElem?_append_left hk]

theorem nested_set (X A B L : List Nat) (k v : Nat) (hk : k < B.length) :
    (X ++ (A ++ (B ++ L))).set (X.length + (A.length + k)) v
      = X ++ (A ++ (B.set k v ++ L)) := by
  rw [List.set_append_right _ _ (by omega), Nat.add_sub_cancel_left,
    List.set_append_right _ _ (by omega), Nat.add_sub_cancel_left,
    List.set_append_left _ _ hk]

/-- Answer of the exact padding oracle on `iv0 ++ A ++ B ++ L`: the last block
of the decryption is `Decrypt(L) XOR B`. -/
theorem exactPadCheck_last_block (bl : Block) (hwf : bl.WF) (iv iv0 A B L : List Nat) (q : Nat)
    (hiv : iv.length = bl.BlockSize) (hiv0 : iv0.length = bl.BlockSize)
    (hA : A.length = q * bl.BlockSize) (hAb : IsBytes A)
    (hB : B.length = bl.BlockSize) (hBb : IsBytes B)
    (hL : L.length = bl.BlockSize) (hLb : IsBytes L) :
    ∃ W, exactPadCheck bl iv (iv0 ++ (A ++ (B ++ L)))
      = some (wellFormedPKCS7 (W ++ xorBytes (bl.Decrypt L) B) bl.BlockSize) := by
  obtain ⟨W, hW⟩ := cbcDec_last_block bl L B hB hL q A iv hA
  refine ⟨W, ?_⟩
  have hlen2 : (A ++ (B ++ L)).length = (q + 2) * bl.BlockSize := by
    simp only [List.length_append, hA, hB, hL]; ring
  have h1 : sliceFrom (iv0 ++ (A ++ (B ++ L))) bl.BlockSize = some (A ++ (B ++ L)) := by
    unfold sliceFrom
    rw [if_pos (by rw [List.length_append]; omega), List.drop_left' hiv0]
  unfold exactPadCheck
  rw [h1, Option.some_bind,
    DecryptCBC_eq bl hwf _ iv (isBytes_append.2 ⟨hAb, isBytes_append.2 ⟨hBb, hLb⟩⟩)
      (by rw [hlen2]; exact Nat.mul_mod_left _ _) hiv,
    hlen2, Nat.mul_div_cancel _ hwf.pos, hW, Option.some_bind]

/-- One probe of `DecryptPaddingOracle` at the last byte of the last block
(pad value 1), against the exact padding oracle: the candidate `j` turns the
last plaintext byte `1` into `1 ^ (j ^ 1)`, the oracle answers on that buffer,
and the ciphertext is restored. -/
theorem DecryptPaddingOracle_probe_last (bl : Block) (hwf : bl.WF)
    (hbs2 : 2 ≤ bl.BlockSize) (iv iv0 A B L T0 out1 : List Nat) (q s j prev curr : Nat)
    (hiv : iv.length = bl.BlockSize)
    (hiv0 : iv0.length = bl.BlockSize) (hA : A.length = q * bl.BlockSize) (hAb : IsBytes A)
    (hB : B.length = bl.BlockSize) (hBb : IsBytes B)
    (hL : L.length = bl.BlockSize) (hLb : IsBytes L)
    (hDL : bl.Decrypt L = xorBytes (T0 ++ [2, 1]) B)
    (hT0 : T0.length = bl.BlockSize - 2)
    (hs : B[bl.BlockSize - 1]? = some s) (hj : j < 256)
    (hprev : prev = iv0.length + (A.length + (bl.BlockSize - 1)))
    (hcurr : curr = prev + bl.BlockSize) (ho : out1[curr]? = some j) :
    ∃ W, ∀ G : Bool → List Nat → Option (List Nat × List Nat × Bool),
      ((DecryptPaddingOracle.xorLoop out1 prev curr 1 1 0 (iv0 ++ (A ++ (B ++ L)))).bind
        fun s1 =>
        (sliceTo s1 (curr + 1)).bind fun arg =>
        (exactPadCheck bl iv arg).bind fun v1 =>
        (DecryptPaddingOracle.xorLoop out1 prev curr 1 1 0 s1).bind fun s2 => G v1 s2)
      = G (wellFormedPKCS7 (W ++ (T0 ++ [2, 1 ^^^ (j ^^^ 1)])) bl.BlockSize)
          (iv0 ++ (A ++ (B ++ L))) := by
  have hk : bl.BlockSize - 1 < B.length := by omega
  have hsb : s < 256 := hBb s (List.getElem?_mem hs)
  have hB'l : (B.set (bl.BlockSize - 1) (s ^^^ (j ^^^ 1))).length = bl.BlockSize := by
    rw [List.length_set]; exact hB
  have hB'b : IsBytes (B.set (bl.BlockSize - 1) (s ^^^ (j ^^^ 1))) :=
    isBytes_set _ _ _ hBb (Nat.xor_lt_two_pow (n := 8) hsb
      (Nat.xor_lt_two_pow (n := 8) hj (by decide)))
  -- first XOR loop
  have x1 : DecryptPaddingOracle.xorLoop out1 prev curr 1 1 0 (iv0 ++ (A ++ (B ++ L)))
      = some (iv0 ++ (A ++ (B.set (bl.BlockSize - 1) (s ^^^ (j ^^^ 1)) ++ L))) := by
    rw [DecryptPaddingOracle_xorLoop_one out1 _ prev curr 1 s j
      (by rw [hprev, nested_getElem? _ _ _ _ _ hk]; exact hs) ho, hprev,
      nested_set _ _ _ _ _ _ hk]
  -- second XOR loop
  have x2 : DecryptPaddingOracle.xorLoop out1 prev curr 1 1 0
      (iv0 ++ (A ++ (B.set (bl.BlockSize - 1) (s ^^^ (j ^^^ 1)) ++ L)))
      = some (iv0 ++ (A ++ (B ++ L))) := by
    have hk' : bl.BlockSize - 1 < (B.set (bl.BlockSize - 1) (s ^^^ (j ^^^ 1))).length := by
      rw [List.length_set]; exact hk
    rw [DecryptPaddingOracle_xorLoop_one out1 _ prev curr 1 (s ^^^ (j ^^^ 1)) j
      (by rw [hprev, nested_getElem? _ _ _ _ _ hk']; exact List.getElem?_set_self hk) ho,
      hprev, nested_set _ _ _ _ _ _ hk', List.set_set, Nat.xor_cancel_right,
      set_of_getElem? B _ _ hs]
  -- the oracle's answer
  obtain ⟨W, hW⟩ := exactPadCheck_last_block bl hwf iv iv0 A
    (B.set (bl.BlockSize - 1) (s ^^^ (j ^^^ 1))) L q hiv hiv0 hA hAb hB'l hB'b hL hLb
  have hP1 : (T0 ++ [2, 1])[bl.BlockSize - 1]? = some 1 := by
    have : bl.BlockSize - 1 = T0.length + 1 := by omega
    rw [this, List.getElem?_append_right (by omega), Nat.add_sub_cancel_left]; rfl
  have hT : (T0 ++ [2, 1]).set (bl.BlockSize - 1) (1 ^^^ (j ^^^ 1))
      = T0 ++ [2, 1 ^^^ (j ^^^ 1)] := by
    have : bl.BlockSize - 1 = T0.length + 1 := by omega
    rw [this, List.set_append_right _ _ (by omega), Nat.add_sub_cancel_left]; rfl
  have hPl : (T0 ++ [2, 1]).length = B.length := by
    simp only [List.length_append, List.length_cons, List.length_nil, hT0]; omega
  rw [hDL, xorBytes_set (j ^^^ 1) (T0 ++ [2, 1]) B (bl.BlockSize - 1) 1 s hPl hP1 hs, hT] at hW
  have hsl : sliceTo (iv0 ++ (A ++ (B.set (bl.BlockSize - 1) (s ^^^ (j ^^^ 1)) ++ L))) (curr + 1)
      = some (iv0 ++ (A ++ (B.set (bl.BlockSize - 1) (s ^^^ (j ^^^ 1)) ++ L))) := by
    have hlen : (iv0 ++ (A ++ (B.set (bl.BlockSize - 1) (s ^^^ (j ^^^ 1)) ++ L))).length
        = curr + 1 := by
      simp only [List.length_append, hB'l, hL]; omega
    unfold sliceTo
    rw [if_pos (by omega), ← hlen, List.take_length]
  refine ⟨W, fun G => ?_⟩
  rw [x1, Option.some_bind, hsl, Option.some_bind, hW, Option.some_bind, x2, Option.some_bind]

/-- The candidate loop of `DecryptPaddingOracle` at the last byte of a
ciphertext whose last plaintext block ends in `2, 1`: candidate 0 is rejected,
candidate 1 is skipped (it is the pad value), candidate 2 is accepted, because
it turns the end of the plaintext into the well-formed padding `2, 2`. -/
theorem DecryptPaddingOracle_jLoop_last (bl : Block) (hwf : bl.WF)
    (hbs2 : 2 ≤ bl.BlockSize) (iv iv0 A B L T0 out : List Nat) (q s prev curr : Nat)
    (hiv : iv.length = bl.BlockSize)
    (hiv0 : iv0.length = bl.BlockSize) (hA : A.length = q * bl.BlockSize) (hAb : IsBytes A)
    (hB : B.length = bl.BlockSize) (hBb : IsBytes B)
    (hL : L.length = bl.BlockSize) (hLb : IsBytes L)
    (hDL : bl.Decrypt L = xorBytes (T0 ++ [2, 1]) B)
    (hT0 : T0.length = bl.BlockSize - 2)
    (hs : B[bl.BlockSize - 1]? = some s)
    (hprev : prev = iv0.length + (A.length + (bl.BlockSize - 1)))
    (hcurr : curr = prev + bl.BlockSize) (hout : out.length = curr + 1) :
    DecryptPaddingOracle.jLoop (exactPadCheck bl iv) curr prev curr 1 256 0
        (iv0 ++ (A ++ (B ++ L))) out false
      = some (iv0 ++ (A ++ (B ++ L)), (out.set curr 0).set curr 2, true) := by
  have hlt : ¬ out.length ≤ curr := by omega
  have hlt0 : ¬ (out.set curr 0).length ≤ curr := by rw [List.length_set]; exact hlt
  obtain ⟨W0, h0⟩ := DecryptPaddingOracle_probe_last bl hwf hbs2 iv iv0 A B L T0
    (out.set curr 0) q s 0 prev curr hiv hiv0 hA hAb hB hBb hL hLb hDL hT0 hs (by decide)
    hprev hcurr (List.getElem?_set_self (by omega))
  obtain ⟨W2, h2⟩ := DecryptPaddingOracle_probe_last bl hwf hbs2 iv iv0 A B L T0
    ((out.set curr 0).set curr (0 + 1 + 1)) q s 2 prev curr hiv hiv0 hA hAb hB hBb hL hLb hDL
    hT0 hs (by decide) hprev hcurr
    (List.getElem?_set_self (by rw [List.length_set]; omega))
  have w0 : wellFormedPKCS7 (W0 ++ (T0 ++ [2, 1 ^^^ (0 ^^^ 1)])) bl.BlockSize = false := by
    rw [show 1 ^^^ (0 ^^^ 1) = 0 from rfl, wellFormedPKCS7_tail W0 T0 0 _ hbs2]; rfl
  have w2 : wellFormedPKCS7 (W2 ++ (T0 ++ [2, 1 ^^^ (2 ^^^ 1)])) bl.BlockSize = true := by
    rw [show 1 ^^^ (2 ^^^ 1) = 2 from rfl, wellFormedPKCS7_tail W2 T0 2 _ hbs2]; rfl
  rw [show (256 : Nat) = 253 + 1 + 1 + 1 from rfl, DecryptPaddingOracle_jLoop_succ,
    if_neg (by decide), if_neg hlt, h0, w0]
  simp only [Bool.false_eq_true, if_false]
  rw [DecryptPaddingOracle_jLoop_succ, if_pos rfl, DecryptPaddingOracle_jLoop_succ,
    if_neg (by decide), if_neg hlt0, h2, w2]
  simp only [if_true, List.set_set]

theorem DecryptPaddingOracle_iLoop_succ (padCheck : List Nat → Option Bool)
    (blockSize n i prev curr pad : Nat) (src out : List Nat)
    (hi : 2 * blockSize + n = i) (hprev : i / blockSize * blockSize - 1 = prev)
    (hcurr : prev + blockSize = curr) (hpad : (blockSize - i % blockSize) % 256 = pad) :
    DecryptPaddingOracle.iLoop padCheck blockSize (n + 1) src out
      = (DecryptPaddingOracle.jLoop padCheck i prev curr pad 256 0 src out false).bind
        fun r =>
          DecryptPaddingOracle.iLoop padCheck blockSize n r.1
            (if r.2.2 then r.2.1 else r.2.1.set i pad) := by
  subst hi; subst hprev; subst hcurr; subst hpad
  rfl

theorem last_position_arith (bs q : Nat) (hbs2 : 2 ≤ bs) :
    2 * bs + (q * bs + (bs - 1)) = bs + (q * bs + (bs - 1)) + bs
    ∧ (bs + (q * bs + (bs - 1)) + bs) / bs * bs - 1 = bs + (q * bs + (bs - 1))
    ∧ (bs - (bs + (q * bs + (bs - 1)) + bs) % bs) % 256 = 1
    ∧ (q + 1) * bs = q * bs + (bs - 1) + 1
    ∧ (q + 3) * bs = bs + (q * bs + (bs - 1)) + bs + 1 := by
  have hpos : 0 < bs := by omega
  have hi : bs + (q * bs + (bs - 1)) + bs = (bs - 1) + (q + 2) * bs := by
    have : (q + 2) * bs = q * bs + bs + bs := by ring
    omega
  have hdiv : (bs + (q * bs + (bs - 1)) + bs) / bs = q + 2 := by
    rw [hi, Nat.add_mul_div_right _ _ hpos, Nat.div_eq_of_lt (by omega), Nat.zero_add]
  have hmod : (bs + (q * bs + (bs - 1)) + bs) % bs = bs - 1 := by
    rw [hi, Nat.add_mul_mod_self_right, Nat.mod_eq_of_lt (by omega)]
  have h2 : (q + 2) * bs = q * bs + bs + bs := by ring
  have h1 : (q + 1) * bs = q * bs + bs := by ring
  have h3 : (q + 3) * bs = q * bs + bs + bs + bs := by ring
  refine ⟨by omega, ?_, ?_, by omega, by omega⟩
  · rw [hdiv, h2]; omega
  · rw [hmod]
    have : bs - (bs - 1) = 1 := by omega
    rw [this]

/-- After the position loop of `DecryptPaddingOracle` on a ciphertext whose
last plaintext block ends in `2, 1`, the recovered buffer ends in the byte 2:
the false positive of the first position is never revised. -/
theorem DecryptPaddingOracle_iLoop_last (bl : Block) (hwf : bl.WF)
    (hbs2 : 2 ≤ bl.BlockSize) (iv iv0 A B L T0 out : List Nat) (q s : Nat)
    (hiv : iv.length = bl.BlockSize)
    (hiv0 : iv0.length = bl.BlockSize) (hA : A.length = q * bl.BlockSize) (hAb : IsBytes A)
    (hB : B.length = bl.BlockSize) (hBb : IsBytes B)
    (hL : L.length = bl.BlockSize) (hLb : IsBytes L)
    (hDL : bl.Decrypt L = xorBytes (T0 ++ [2, 1]) B)
    (hT0 : T0.length = bl.BlockSize - 2)
    (hs : B[bl.BlockSize - 1]? = some s)
    (hout : out.length = (q + 3) * bl.BlockSize)
    (r : List Nat × List Nat)
    (hr : DecryptPaddingOracle.iLoop (exactPadCheck bl iv) bl.BlockSize
      ((q + 1) * bl.BlockSize) (iv0 ++ (A ++ (B ++ L))) out = some r) :
    r.2.length = (q + 3) * bl.BlockSize ∧ r.2.getLast? = some 2 := by
  obtain ⟨a1, a2, a3, a4, a5⟩ := last_position_arith bl.BlockSize q hbs2
  have a2' : (iv0.length + (A.length + (bl.BlockSize - 1)) + bl.BlockSize) / bl.BlockSize
      * bl.BlockSize - 1 = iv0.length + (A.length + (bl.BlockSize - 1)) := by
    rw [hiv0, hA]; exact a2
  have a3' : (bl.BlockSize - (iv0.length + (A.length + (bl.BlockSize - 1)) + bl.BlockSize)
      % bl.BlockSize) % 256 = 1 := by
    rw [hiv0, hA]; exact a3
  have a1' : 2 * bl.BlockSize + (q * bl.BlockSize + (bl.BlockSize - 1))
      = iv0.length + (A.length + (bl.BlockSize - 1)) + bl.BlockSize := by
    rw [hiv0, hA]; exact a1
  have a5' : (q + 3) * bl.BlockSize
      = iv0.length + (A.length + (bl.BlockSize - 1)) + bl.BlockSize + 1 := by
    rw [hiv0, hA]; exact a5
  have hout' : out.length
      = iv0.length + (A.length + (bl.BlockSize - 1)) + bl.BlockSize + 1 := hout.trans a5'
  have hstep := DecryptPaddingOracle_iLoop_succ (exactPadCheck bl iv) bl.BlockSize
    (q * bl.BlockSize + (bl.BlockSize - 1)) _ _ _ _ (iv0 ++ (A ++ (B ++ L))) out a1' a2' rfl a3'
  rw [DecryptPaddingOracle_jLoop_last bl hwf hbs2 iv iv0 A B L T0 out q s _ _ hiv hiv0 hA hAb hB
      hBb hL hLb hDL hT0 hs rfl rfl hout',
    Option.some_bind] at hstep
  simp only [if_true] at hstep
  rw [a4, hstep] at hr
  obtain ⟨k1, k2⟩ := DecryptPaddingOracle_iLoop_out _ _ _ _ _ _ hr
  have hlen : r.2.length
      = iv0.length + (A.length + (bl.BlockSize - 1)) + bl.BlockSize + 1 := by
    rw [k1, List.length_set, List.length_set, hout']
  refine ⟨hlen.trans a5'.symm, ?_⟩
  rw [List.getLast?_eq_getElem?, hlen, Nat.add_sub_cancel, k2 _ (Nat.le_of_eq a1')]
  exact List.getElem?_set_self (by rw [List.length_set, hout']; exact Nat.lt_succ_self _)

theorem PadPKCS7_one_short (bs : Nat) (pt : List Nat) (hbs2 : 2 ≤ bs) (hbs : bs < 256)
    (hlen : pt.length % bs = bs - 1) : PadPKCS7 pt (bs % 256) = some (pt ++ [1]) := by
  unfold PadPKCS7
  rw [Nat.mod_eq_of_lt hbs, if_neg (by omega), hlen]
  have : bs - (bs - 1) = 1 := by omega
  simp only [this]
  rfl

theorem DecryptPaddingOracle_result_length (bs q n : Nat) (r2 pt : List Nat) (hbs2 : 2 ≤ bs)
    (hbs : bs < 256) (hr : r2.length = (q + 3) * bs) (hlast : r2.getLast? = some 2)
    (hpt : pt.length = n) (hn : n + 1 = (q + 1) * bs) :
    ((UnpadPKCS7 r2 (bs % 256)).bind fun u =>
      match u with
      | none => none
      | some out1 => sliceFrom out1 (2 * bs)) ≠ some pt := by
  have h3 : (q + 3) * bs = (q + 1) * bs + 2 * bs := by ring
  have hbig : 2 ≤ r2.length := by omega
  rw [Nat.mod_eq_of_lt hbs, UnpadPKCS7_eq r2 bs 2 (by omega)
    (by rw [hr]; exact Nat.mul_mod_left _ _) hlast hbig]
  have htl : (r2.take (r2.length - 2)).length = r2.length - 2 := by
    rw [List.length_take]; omega
  split
  · rw [Option.some_bind]
    simp only
    unfold sliceFrom
    split
    · intro h
      injection h with h
      have := congrArg List.length h
      rw [List.length_drop, htl] at this
      omega
    · intro h; cases h
  · rw [Option.some_bind]
    simp only
    intro h; cases h

/-- C1 (code defect). For every invertible block cipher of block size from 2
to 255, every IV, and every plaintext whose length is one short of a multiple
of the block size and whose last byte is 2 (so that the padded plaintext ends
in `2, 1`): against an exact padding oracle, `DecryptPaddingOracle` does not
return the plaintext.  At the last position the candidate 2 is tried before the
true byte and produces the well-formed padding `2, 2`, so the attack records 2
as the last byte of the padded plaintext. -/
theorem DecryptPaddingOracle_false_positive (bl : Block) (hwf : bl.WF) (hinv : bl.Invertible)
    (hbs2 : 2 ≤ bl.BlockSize) (hbs : bl.BlockSize < 256) (iv pt : List Nat)
    (hiv : iv.length = bl.BlockSize) (hivb : IsBytes iv) (hptb : IsBytes pt)
    (hlen : pt.length % bl.BlockSize = bl.BlockSize - 1) (hlast : pt.getLast? = some 2) :
    ∃ src, NewCBCPaddingOracle.res bl iv pt = some src
      ∧ DecryptPaddingOracle src bl.BlockSize (exactPadCheck bl iv) ≠ some pt := by
  have hpos := hwf.pos
  obtain ⟨pt1, hpt1⟩ := List.getLast?_eq_some_iff.1 hlast
  -- sizes
  obtain ⟨q, hq⟩ : ∃ q, pt.length + 1 = (q + 1) * bl.BlockSize := by
    refine ⟨pt.length / bl.BlockSize, ?_⟩
    have := Nat.div_add_mod pt.length bl.BlockSize
    rw [hlen, Nat.mul_comm] at this
    have h1 : (pt.length / bl.BlockSize + 1) * bl.BlockSize
        = pt.length / bl.BlockSize * bl.BlockSize + bl.BlockSize := by ring
    omega
  have hPl : (pt ++ [1]).length = (q + 1) * bl.BlockSize := by
    rw [List.length_append, List.length_singleton]; exact hq
  have hPb : IsBytes (pt ++ [1]) := isBytes_append.2 ⟨hptb, by decide⟩
  have hpt1l : pt1.length = q * bl.BlockSize + (bl.BlockSize - 2) := by
    have h1 : (q + 1) * bl.BlockSize = q * bl.BlockSize + bl.BlockSize := by ring
    have h2 : pt.length = pt1.length + 1 := by rw [hpt1]; simp
    omega
  have hT0 : (pt1.drop (q * bl.BlockSize)).length = bl.BlockSize - 2 := by
    rw [List.length_drop, hpt1l]; omega
  have hPd : (pt ++ [1]).drop (q * bl.BlockSize) = pt1.drop (q * bl.BlockSize) ++ [2, 1] := by
    rw [hpt1, List.append_assoc, List.drop_append_of_le_length (by omega)]
    rfl
  -- the ciphertext
  obtain ⟨A, B, hsplit, hA, hB, hAb, hBb⟩ := cbcEnc_last_block bl hwf q (pt ++ [1]) iv hPl hPb
    hiv hivb
  rw [hPd] at hsplit
  have hTl : (pt1.drop (q * bl.BlockSize) ++ [2, 1]).length = bl.BlockSize := by
    rw [List.length_append, hT0]
    show bl.BlockSize - 2 + 2 = bl.BlockSize
    omega
  have hxl : (xorBytes (pt1.drop (q * bl.BlockSize) ++ [2, 1]) B).length = bl.BlockSize := by
    rw [xorBytes_length _ _ (hTl.trans hB.symm), hTl]
  have hxb : IsBytes (xorBytes (pt1.drop (q * bl.BlockSize) ++ [2, 1]) B) :=
    xorBytes_isBytes _ _ (by rw [← hPd]; exact isBytes_drop _ hPb) hBb
  have hres : NewCBCPaddingOracle.res bl iv pt
      = some (iv ++ cbcEncBlocks bl (q + 1) (pt ++ [1]) iv) := by
    unfold NewCBCPaddingOracle.res
    rw [PadPKCS7_one_short bl.BlockSize pt hbs2 hbs hlen, Option.some_bind,
      EncryptCBC_eq bl hwf _ iv hPb hivb (by rw [hPl]; exact Nat.mul_mod_left _ _) hiv,
      Option.some_bind, hPl, Nat.mul_div_cancel _ hpos]
  have hhead : sliceTo (iv ++ cbcEncBlocks bl (q + 1) (pt ++ [1]) iv) bl.BlockSize = some iv := by
    unfold sliceTo
    rw [if_pos (by rw [List.length_append]; omega), List.take_left' hiv]
  obtain ⟨s, hs⟩ : ∃ s, B[bl.BlockSize - 1]? = some s := by
    have hlt : bl.BlockSize - 1 < B.length := by omega
    exact ⟨B[bl.BlockSize - 1], List.getElem?_eq_getElem hlt⟩
  refine ⟨_, hres, ?_⟩
  unfold DecryptPaddingOracle
  rw [if_neg (by omega), hhead, Option.some_bind]
  simp only
  rw [hsplit]
  have hl1 : (iv ++ (A ++ (B ++ bl.Encrypt (xorBytes (pt1.drop (q * bl.BlockSize) ++ [2, 1]) B)))).length
      = (q + 3) * bl.BlockSize := by
    simp only [List.length_append, hiv, hA, hB, hwf.enc_len _ hxl hxb]; ring
  have hn0 : (q + 3) * bl.BlockSize - 2 * bl.BlockSize = (q + 1) * bl.BlockSize := by
    have : (q + 3) * bl.BlockSize = (q + 1) * bl.BlockSize + 2 * bl.BlockSize := by ring
    omega
  rw [hl1, hn0]
  cases hr : DecryptPaddingOracle.iLoop (exactPadCheck bl iv) bl.BlockSize
      ((q + 1) * bl.BlockSize)
      (iv ++ (A ++ (B ++ bl.Encrypt (xorBytes (pt1.drop (q * bl.BlockSize) ++ [2, 1]) B))))
      (make ((q + 3) * bl.BlockSize)) with
  | none => intro h; cases h
  | some r =>
    obtain ⟨k1, k2⟩ := DecryptPaddingOracle_iLoop_last bl hwf hbs2 iv iv A B _
      (pt1.drop (q * bl.BlockSize)) (make ((q + 3) * bl.BlockSize)) q s hiv hiv hA hAb hB hBb
      (hwf.enc_len _ hxl hxb) (hwf.enc_bytes _ hxl hxb) (hinv _ hxl hxb) hT0 hs (length_make _)
      r hr
    rw [Option.some_bind]
    exact DecryptPaddingOracle_result_length bl.BlockSize q pt.length r.2 pt hbs2 hbs k1 k2 rfl hq

theorem DecryptPaddingOracle_false_positive_witness :
    (xorBlock 16 90).WF ∧ (xorBlock 16 90).Invertible
    ∧ IsBytes [1, 2, 3, 4, 5, 6, 7, 8, 9, 10, 11, 12, 13, 14, 15, 16]
    ∧ IsBytes [104, 101, 108, 108, 111, 32, 119, 111, 114, 108, 100, 44, 32, 116, 2]
    ∧ ∃ src, NewCBCPaddingOracle.res (xorBlock 16 90)
          [1, 2, 3, 4, 5, 6, 7, 8, 9, 10, 11, 12, 13, 14, 15, 16]
          [104, 101, 108, 108, 111, 32, 119, 111, 114, 108, 100, 44, 32, 116, 2] = some src
      ∧ DecryptPaddingOracle src 16 (exactPadCheck (xorBlock 16 90)
          [1, 2, 3, 4, 5, 6, 7, 8, 9, 10, 11, 12, 13, 14, 15, 16])
        ≠ some [104, 101, 108, 108, 111, 32, 119, 111, 114, 108, 100, 44, 32, 116, 2] :=
  ⟨xorBlock_wf 16 90 (by decide) (by decide), xorBlock_invertible 16 90, by decide, by decide,
    DecryptPaddingOracle_false_positive (xorBlock 16 90)
      (xorBlock_wf 16 90 (by decide) (by decide)) (xorBlock_invertible 16 90) (by decide)
      (by decide) [1, 2, 3, 4, 5, 6, 7, 8, 9, 10, 11, 12, 13, 14, 15, 16]
      [104, 101, 108, 108, 111, 32, 119, 111, 114, 108, 100, 44, 32, 116, 2]
      rfl (by decide) (by decide) (by decide) (by decide)⟩

/-! ## The ECB append oracle and `DecryptAppendOracle` -/

theorem mod_eq_emod (x y : Int) (hy : 0 < y) : mod x y = x % y := by
  unfold mod
  have h1 : -y < x.tmod y := by
    rcases Int.lt_or_le x 0 with hx | hx
    · have := Int.tmod_lt_of_pos (-x) hy
      have h2 : (-x).tmod y = -(x.tmod y) := by
        rw [Int.tmod_def, Int.tmod_def, Int.neg_tdiv]; simp [Int.mul_neg]; omega
      omega
    · have := Int.tmod_nonneg y hx
      omega
  have h2 := Int.tmod_lt_of_pos x hy
  rw [Int.tmod_eq_emod (by omega) (by omega), Int.add_emod_self, Int.tmod_def,
    Int.sub_eq_add_neg, ← Int.mul_neg, Int.add_mul_emod_self_left]

theorem mod_filler (bs i : Nat) (hbs : 0 < bs) :
    (mod ((bs : Int) - (i : Int) - 1) (bs : Int)).toNat = bs - 1 - i % bs := by
  rw [mod_eq_emod _ _ (by omega)]
  have hdm := Nat.div_add_mod i bs
  have hlt := Nat.mod_lt i hbs
  have hx : (bs : Int) - (i : Int) - 1
      = ((bs - 1 - i % bs : Nat) : Int) + (bs : Int) * (-((i / bs : Nat) : Int)) := by
    have h1 : ((bs * (i / bs) : Nat) : Int) = (bs : Int) * ((i / bs : Nat) : Int) := by
      push_cast; rfl
    rw [Int.mul_neg, ← h1]
    omega
  rw [hx, Int.add_mul_emod_self_left, Int.emod_eq_of_lt (by omega) (by omega)]
  rfl

theorem findBlockSize_loop_range (oracle : List Nat → Option (List Nat)) :
    ∀ (n b k : Nat), findBlockSize.loop oracle n b = some k → k = 0 ∨ (b ≤ k ∧ k < b + n) := by
  intro n
  induction n with
  | zero =>
    intro b k h
    simp only [findBlockSize.loop, Option.some.injEq] at h
    exact Or.inl h.symm
  | succ n ih =>
    intro b k h
    simp only [findBlockSize.loop, Option.bind_eq_some] at h
    obtain ⟨c, _, e, _, h3⟩ := h
    cases e with
    | true =>
      simp only [if_true, Option.some.injEq] at h3
      exact Or.inr ⟨by omega, by omega⟩
    | false =>
      simp only [Bool.false_eq_true, if_false] at h3
      rcases ih _ _ h3 with h | ⟨h1, h2⟩
      · exact Or.inl h
      · exact Or.inr ⟨by omega, by omega⟩

theorem mapBlocks_block (f : List Nat → List Nat) (bs : Nat)
    (hf : ∀ x, x.length = bs → IsBytes x → (f x).length = bs) :
    ∀ (m k : Nat) (src : List Nat), k < m → m * bs ≤ src.length → IsBytes src →
      ((mapBlocks f bs m src).drop (k * bs)).take bs = f ((src.drop (k * bs)).take bs) := by
  intro m
  induction m with
  | zero => intro k src hk _ _; omega
  | succ m ih =>
    intro k src hk hlen hb
    have hexp : (m + 1) * bs = bs + m * bs := by ring
    have h1 : (src.take bs).length = bs := by rw [List.length_take]; omega
    have hfl := hf _ h1 (isBytes_take bs hb)
    cases k with
    | zero =>
      simp only [Nat.zero_mul, List.drop_zero, mapBlocks]
      rw [List.take_left' hfl]
    | succ k =>
      have hk2 : (k + 1) * bs = bs + k * bs := by ring
      simp only [mapBlocks]
      rw [hk2, ← List.drop_drop, List.drop_left' hfl, ← List.drop_drop,
        ih k (src.drop bs) (by omega) (by rw [List.length_drop]; omega) (isBytes_drop _ hb)]

theorem appendPlain_length (bs : Nat) (secret x : List Nat) (hbs : 0 < bs) :
    (appendPlain bs secret x).length = ((x ++ secret).length / bs + 1) * bs := by
  unfold appendPlain bytesRepeat
  rw [List.length_append, List.length_replicate]
  have h1 := Nat.div_add_mod (x ++ secret).length bs
  have h2 := Nat.mod_lt (x ++ secret).length hbs
  have h3 : ((x ++ secret).length / bs + 1) * bs
      = bs * ((x ++ secret).length / bs) + bs := by ring
  omega

theorem appendPlain_isBytes (bs : Nat) (secret x : List Nat) (hs : IsBytes secret)
    (hx : IsBytes x) : IsBytes (appendPlain bs secret x) := by
  unfold appendPlain bytesRepeat
  exact isBytes_append.2 ⟨isBytes_append.2 ⟨hx, hs⟩,
    isBytes_replicate _ (Nat.mod_lt _ (by decide))⟩

theorem NewAppendECBOracle_eq (bl : Block) (hwf : bl.WF) (hbs : bl.BlockSize < 256)
    (secret x : List Nat) (hs : IsBytes secret) (hx : IsBytes x) :
    NewAppendECBOracle bl secret x
      = some (mapBlocks bl.Encrypt bl.BlockSize ((x ++ secret).length / bl.BlockSize + 1)
          (appendPlain bl.BlockSize secret x)) := by
  have hpos := hwf.pos
  have hp : PadPKCS7 (x ++ secret) (bl.BlockSize % 256)
      = some (appendPlain bl.BlockSize secret x) := by
    unfold PadPKCS7
    rw [Nat.mod_eq_of_lt hbs, if_neg (by omega)]
    rfl
  have hl := appendPlain_length bl.BlockSize secret x hpos
  unfold NewAppendECBOracle
  rw [hp, Option.some_bind,
    EncryptECB_eq bl hwf _ (appendPlain_isBytes _ _ _ hs hx)
      (by rw [hl]; exact Nat.mul_mod_left _ _), hl, Nat.mul_div_cancel _ hpos]

theorem lookup_of_mem_unique (l : List (List Nat × Nat)) (k : List Nat) (v : Nat)
    (hmem : (k, v) ∈ l) (huniq : ∀ p ∈ l, p.1 = k → p.2 = v) : l.lookup k = some v := by
  induction l with
  | nil => cases hmem
  | cons p l ih =>
    obtain ⟨pk, pv⟩ := p
    by_cases hk : k = pk
    · subst hk
      have := huniq (k, pv) (List.mem_cons_self _ _) rfl
      simp only at this
      subst this
      simp [List.lookup]
    · have hne : (k == pk) = false := by simpa using hk
      rw [List.lookup_cons, hne]
      apply ih
      · rcases List.mem_cons.1 hmem with h | h
        · exact absurd (congrArg Prod.fst h) hk
        · exact h
      · exact fun p hp => huniq p (List.mem_cons_of_mem _ hp)

theorem lookup_mem (l : List (List Nat × Nat)) (k : List Nat) (v : Nat)
    (h : l.lookup k = some v) : (k, v) ∈ l := by
  induction l with
  | nil => cases h
  | cons p l ih =>
    obtain ⟨pk, pv⟩ := p
    rw [List.lookup_cons] at h
    by_cases hk : (k == pk) = true
    · rw [hk] at h
      simp only [Option.some.injEq] at h
      have : k = pk := by simpa using hk
      subst this; subst h
      exact List.mem_cons_self _ _
    · have hne : (k == pk) = false := by simpa using hk
      rw [hne] at h
      exact List.mem_cons_of_mem _ (ih h)

theorem constructFirstMap_spec (oracle : List Nat → Option (List Nat)) (bs : Nat)
    (src : List Nat) (key : Nat → List Nat) :
    ∀ (n c0 : Nat) (acc : List (List Nat × Nat)),
      (∀ c, c0 ≤ c → c < c0 + n →
        ∃ q, oracle (src ++ [c % 256]) = some q ∧ sliceTo q bs = some (key c)) →
      ∃ M, DecryptAppendOracle.constructFirstMap oracle bs src n c0 acc = some M
        ∧ ∀ p, p ∈ M ↔ (p ∈ acc ∨ ∃ c, c0 ≤ c ∧ c < c0 + n ∧ p = (key c, c % 256)) := by
  intro n
  induction n with
  | zero =>
    intro c0 acc _
    refine ⟨acc, rfl, fun p => ⟨Or.inl, ?_⟩⟩
    rintro (h | ⟨c, h1, h2, _⟩)
    · exact h
    · omega
  | succ n ih =>
    intro c0 acc hq
    obtain ⟨q, hq1, hq2⟩ := hq c0 (Nat.le_refl _) (by omega)
    obtain ⟨M, hM, hmem⟩ := ih (c0 + 1) ((key c0, c0 % 256) :: acc)
      (fun c h1 h2 => hq c (by omega) (by omega))
    refine ⟨M, ?_, fun p => ?_⟩
    · simp only [DecryptAppendOracle.constructFirstMap, hq1, hq2, Option.some_bind]
      exact hM
    · rw [hmem p, List.mem_cons]
      constructor
      · rintro ((h | h) | ⟨c, h1, h2, h3⟩)
        · exact Or.inr ⟨c0, Nat.le_refl _, by omega, h⟩
        · exact Or.inl h
        · exact Or.inr ⟨c, by omega, by omega, h3⟩
      · rintro (h | ⟨c, h1, h2, h3⟩)
        · exact Or.inl (Or.inr h)
        · rcases Nat.eq_or_lt_of_le h1 with h | h
          · subst h; exact Or.inl (Or.inl h3)
          · exact Or.inr ⟨c, by omega, by omega, h3⟩

theorem findNext_total (oracle : List Nat → Option (List Nat)) (bs : Nat)
    (first pattern : List Nat) (current : Nat) :
    ∀ (n c0 : Nat),
      (∀ c, c0 ≤ c → c < c0 + n →
        ∃ q a b, oracle ((first ++ [c % 256]) ++ pattern) = some q ∧ sliceTo q bs = some a
          ∧ slice q (current * bs + bs) (current * bs + bs + bs) = some b) →
      ∃ v, DecryptAppendOracle.findNext oracle bs first pattern current n c0 = some v
        ∧ v < 256 := by
  intro n
  induction n with
  | zero => intro c0 _; exact ⟨0, rfl, by decide⟩
  | succ n ih =>
    intro c0 hq
    obtain ⟨q, a, b, h1, h2, h3⟩ := hq c0 (Nat.le_refl _) (by omega)
    simp only [DecryptAppendOracle.findNext, h1, h2, h3, Option.some_bind]
    by_cases hab : a = b
    · rw [if_pos hab]
      exact ⟨c0 % 256, rfl, Nat.mod_lt _ (by decide)⟩
    · rw [if_neg hab]
      exact ih (c0 + 1) (fun c h1 h2 => hq c (by omega) (by omega))

theorem findNext_correct (oracle : List Nat → Option (List Nat)) (bs : Nat)
    (first pattern : List Nat) (current : Nat) (a : Nat → List Nat) (t : List Nat) (cs : Nat) :
    ∀ (n c0 : Nat),
      (∀ c, c0 ≤ c → c < c0 + n →
        ∃ q, oracle ((first ++ [c % 256]) ++ pattern) = some q ∧ sliceTo q bs = some (a c)
          ∧ slice q (current * bs + bs) (current * bs + bs + bs) = some t) →
      (∀ c, c0 ≤ c → c < c0 + n → (a c = t ↔ c = cs)) →
      c0 ≤ cs → cs < c0 + n →
      DecryptAppendOracle.findNext oracle bs first pattern current n c0 = some (cs % 256) := by
  intro n
  induction n with
  | zero => intro c0 _ _ h1 h2; omega
  | succ n ih =>
    intro c0 hq hiff hc1 hc2
    obtain ⟨q, h1, h2, h3⟩ := hq c0 (Nat.le_refl _) (by omega)
    simp only [DecryptAppendOracle.findNext, h1, h2, h3, Option.some_bind]
    by_cases hab : a c0 = t
    · rw [if_pos hab]
      rw [(hiff c0 (Nat.le_refl _) (by omega)).1 hab]
    · rw [if_neg hab]
      have hne : c0 ≠ cs := fun h => hab ((hiff c0 (Nat.le_refl _) (by omega)).2 h)
      exact ih (c0 + 1) (fun c h1 h2 => hq c (by omega) (by omega))
        (fun c h1 h2 => hiff c (by omega) (by omega)) (by omega) (by omega)

theorem appendPlain_eq (bs : Nat) (secret x : List Nat) :
    appendPlain bs secret x
      = x ++ (secret ++ bytesRepeat ((bs - (x ++ secret).length % bs) % 256)
          (bs - (x ++ secret).length % bs)) := by
  unfold appendPlain
  rw [List.append_assoc]

theorem appendPlain_take_of_le (bs : Nat) (secret x : List Nat) (hx : bs ≤ x.length) :
    (appendPlain bs secret x).take bs = x.take bs := by
  rw [appendPlain_eq, List.take_append_of_le_length hx]

theorem appendPlain_take_short (bs t : Nat) (secret r : List Nat) (hr : r.length + t = bs)
    (ht : t ≤ secret.length) :
    (appendPlain bs secret r).take bs = r ++ secret.take t := by
  rw [appendPlain_eq, ← hr, List.take_append, List.take_append_of_le_length ht]

theorem appendPlain_block (bs k d : Nat) (secret y r : List Nat) (hy : y.length = bs)
    (hr : r.length + d = k * bs) (hd : d + bs ≤ secret.length) :
    ((appendPlain bs secret (y ++ r)).drop (k * bs + bs)).take bs = (secret.drop d).take bs := by
  rw [appendPlain_eq, List.append_assoc, Nat.add_comm (k * bs) bs, ← List.drop_drop,
    List.drop_left' hy, ← hr, List.drop_append, List.drop_append_of_le_length (by omega),
    List.take_append_of_le_length (by rw [List.length_drop]; omega)]

/-- Every query to the append oracle succeeds, and block `k` of the answer is
the encryption of block `k` of the padded plaintext. -/
theorem NewAppendECBOracle_query (bl : Block) (hwf : bl.WF) (hbs : bl.BlockSize < 256)
    (secret x : List Nat) (hs : IsBytes secret) (hx : IsBytes x) :
    ∃ q, NewAppendECBOracle bl secret x = some q
      ∧ q.length = ((x ++ secret).length / bl.BlockSize + 1) * bl.BlockSize
      ∧ sliceTo q bl.BlockSize
          = some (bl.Encrypt ((appendPlain bl.BlockSize secret x).take bl.BlockSize))
      ∧ ∀ k, k ≤ (x ++ secret).length / bl.BlockSize →
          slice q (k * bl.BlockSize) (k * bl.BlockSize + bl.BlockSize)
            = some (bl.Encrypt
                (((appendPlain bl.BlockSize secret x).drop (k * bl.BlockSize)).take bl.BlockSize)) := by
  have hpos := hwf.pos
  have hPl := appendPlain_length bl.BlockSize secret x hpos
  have hPb := appendPlain_isBytes bl.BlockSize secret x hs hx
  have hql := mapBlocks_length bl.Encrypt bl.BlockSize hwf.enc_len
    ((x ++ secret).length / bl.BlockSize + 1) (appendPlain bl.BlockSize secret x)
    (by rw [hPl]) hPb
  have hblk := mapBlocks_block bl.Encrypt bl.BlockSize hwf.enc_len
    ((x ++ secret).length / bl.BlockSize + 1)
  refine ⟨_, NewAppendECBOracle_eq bl hwf hbs secret x hs hx, hql, ?_, ?_⟩
  · have h0 := hblk 0 (appendPlain bl.BlockSize secret x) (Nat.succ_pos _) (by rw [hPl]) hPb
    rw [Nat.zero_mul, List.drop_zero, List.drop_zero] at h0
    unfold sliceTo
    rw [if_pos (by rw [hql]; exact Nat.le_mul_of_pos_left _ (Nat.succ_pos _)), h0]
  · intro k hk
    have h1 := hblk k (appendPlain bl.BlockSize secret x) (Nat.lt_succ_of_le hk)
      (by rw [hPl]) hPb
    have hle : (k + 1) * bl.BlockSize
        ≤ ((x ++ secret).length / bl.BlockSize + 1) * bl.BlockSize :=
      Nat.mul_le_mul_right _ (Nat.succ_le_succ hk)
    have hk1 : (k + 1) * bl.BlockSize = k * bl.BlockSize + bl.BlockSize := by ring
    unfold slice
    rw [if_pos ⟨by omega, by rw [hql]; omega⟩, Nat.add_sub_cancel_left, h1]

theorem DecryptAppendOracle_loop_succ (oracle : List Nat → Option (List Nat)) (bs n i : Nat)
    (res : List Nat) :
    DecryptAppendOracle.loop oracle bs (n + 1) i res
      = if i / bs = 0 then
          (sliceTo res i).bind fun known =>
          (DecryptAppendOracle.constructFirstMap oracle bs
            (bytesRepeat 65 (mod ((bs : Int) - (i : Int) - 1) (bs : Int)).toNat ++ known)
            128 0 []).bind fun m =>
          (oracle (bytesRepeat 65 (mod ((bs : Int) - (i : Int) - 1) (bs : Int)).toNat)).bind
          fun c =>
          (sliceTo c bs).bind fun key =>
          match m.lookup key with
          | some b => DecryptAppendOracle.loop oracle bs n (i + 1) (res.set i b)
          | none => DecryptAppendOracle.loop oracle bs n (i + 1) res
        else
          (slice res (i - bs + 1) i).bind fun first =>
          (DecryptAppendOracle.findNext oracle bs first
            (bytesRepeat 65 (mod ((bs : Int) - (i : Int) - 1) (bs : Int)).toNat)
            (i / bs) 128 0).bind fun b =>
          DecryptAppendOracle.loop oracle bs n (i + 1) (res.set i b) := rfl

theorem take_set_self (l : List Nat) (n a : Nat) : (l.set n a).take n = l.take n := by
  rcases Nat.lt_or_ge n l.length with h | h
  · rw [List.set_eq_take_cons_drop _ h, List.take_left' (by rw [List.length_take]; omega)]
  · rw [List.set_eq_of_length_le h]

/-- Queries of `constructFirstMap`: a full first block `src ++ [c]` comes back
encrypted as the first block of the answer. -/
theorem NewAppendECBOracle_first_full (bl : Block) (hwf : bl.WF) (hbs : bl.BlockSize < 256)
    (secret y : List Nat) (hs : IsBytes secret) (hy : IsBytes y)
    (hyl : y.length = bl.BlockSize) :
    ∃ q, NewAppendECBOracle bl secret y = some q
      ∧ sliceTo q bl.BlockSize = some (bl.Encrypt y) := by
  obtain ⟨q, h1, _, h3, _⟩ := NewAppendECBOracle_query bl hwf hbs secret y hs hy
  rw [appendPlain_take_of_le _ _ _ (by omega), List.take_of_length_le (by omega)] at h3
  exact ⟨q, h1, h3⟩

/-- The reference query of the first block: with `bs - 1 - i` filler bytes and
`i < len(secret)`, the first block of the answer encrypts
`filler ++ secret[:i] ++ [secret[i]]`. -/
theorem NewAppendECBOracle_first_short (bl : Block) (hwf : bl.WF) (hbs : bl.BlockSize < 256)
    (secret r : List Nat) (i si : Nat) (hs : IsBytes secret) (hr : IsBytes r)
    (hrl : r.length + (i + 1) = bl.BlockSize) (hsi : secret[i]? = some si) :
    ∃ q, NewAppendECBOracle bl secret r = some q
      ∧ sliceTo q bl.BlockSize = some (bl.Encrypt ((r ++ secret.take i) ++ [si])) := by
  have hil : i < secret.length := by
    rcases Nat.lt_or_ge i secret.length with h | h
    · exact h
    · rw [List.getElem?_eq_none h] at hsi; cases hsi
  obtain ⟨q, h1, _, h3, _⟩ := NewAppendECBOracle_query bl hwf hbs secret r hs hr
  rw [appendPlain_take_short _ (i + 1) _ _ hrl (by omega), List.take_succ, hsi] at h3
  refine ⟨q, h1, ?_⟩
  rw [h3, List.append_assoc]
  rfl

theorem constructFirstMap_lookup (bl : Block) (hinj : bl.Injective)
    (M : List (List Nat × Nat)) (src : List Nat) (si : Nat)
    (hsrc : src.length + 1 = bl.BlockSize) (hsrcb : IsBytes src) (hsi : si < 128)
    (hmem : ∀ p, p ∈ M ↔ (p ∈ ([] : List (List Nat × Nat))
      ∨ ∃ c, 0 ≤ c ∧ c < 0 + 128 ∧ p = (bl.Encrypt (src ++ [c % 256]), c % 256))) :
    M.lookup (bl.Encrypt (src ++ [si])) = some si := by
  apply lookup_of_mem_unique
  · rw [hmem]
    refine Or.inr ⟨si, Nat.zero_le _, by omega, ?_⟩
    rw [Nat.mod_eq_of_lt (by omega)]
  · intro p hp hk
    rw [hmem] at hp
    rcases hp with hp | ⟨c, _, hc, hp⟩
    · cases hp
    · subst hp
      have hcb : c % 256 < 256 := Nat.mod_lt _ (by decide)
      have hb1 : IsBytes (src ++ [c % 256]) := by
        refine isBytes_append.2 ⟨hsrcb, ?_⟩
        intro z hz
        rw [List.mem_singleton] at hz
        rw [hz]; exact hcb
      have hb2 : IsBytes (src ++ [si]) := by
        refine isBytes_append.2 ⟨hsrcb, ?_⟩
        intro z hz
        rw [List.mem_singleton] at hz
        rw [hz]; omega
      have := hinj _ _ (by rw [List.length_append, List.length_singleton]; exact hsrc)
        (by rw [List.length_append, List.length_singleton]; exact hsrc) hb1 hb2 hk
      have := List.append_cancel_left this
      simpa using this

/-- One iteration of the main loop of `DecryptAppendOracle` in the first block
(`i < bs`): it succeeds, changes at most `res[i]`, and sets it to `secret[i]`
when the bytes before it are already those of the secret. -/
theorem DecryptAppendOracle_step_first (bl : Block) (hwf : bl.WF) (hinj : bl.Injective)
    (hbs : bl.BlockSize < 256) (secret : List Nat) (hs128 : ∀ b ∈ secret, b < 128)
    (n i : Nat) (res : List Nat) (hi : i < bl.BlockSize) (hil : i < res.length)
    (hresb : IsBytes res) :
    ∃ res1, DecryptAppendOracle.loop (NewAppendECBOracle bl secret) bl.BlockSize (n + 1) i res
        = DecryptAppendOracle.loop (NewAppendECBOracle bl secret) bl.BlockSize n (i + 1) res1
      ∧ res1.length = res.length ∧ IsBytes res1 ∧ res1.take i = res.take i
      ∧ ∀ si, secret[i]? = some si → res.take i = secret.take i → res1[i]? = some si := by
  have hpos := hwf.pos
  have hs : IsBytes secret := fun b hb => Nat.lt_trans (hs128 b hb) (by decide)
  have hr : IsBytes (bytesRepeat 65 (bl.BlockSize - 1 - i)) := isBytes_replicate _ (by decide)
  have hrl : (bytesRepeat 65 (bl.BlockSize - 1 - i)).length = bl.BlockSize - 1 - i :=
    List.length_replicate _ _
  have hsrcb : IsBytes (bytesRepeat 65 (bl.BlockSize - 1 - i) ++ res.take i) :=
    isBytes_append.2 ⟨hr, isBytes_take _ hresb⟩
  have hsrcl : (bytesRepeat 65 (bl.BlockSize - 1 - i) ++ res.take i).length + 1
      = bl.BlockSize := by
    rw [List.length_append, hrl, List.length_take, Nat.min_eq_left (Nat.le_of_lt hil)]; omega
  -- the map of candidate blocks
  obtain ⟨M, hM, hmem⟩ := constructFirstMap_spec (NewAppendECBOracle bl secret) bl.BlockSize
    (bytesRepeat 65 (bl.BlockSize - 1 - i) ++ res.take i)
    (fun c => bl.Encrypt ((bytesRepeat 65 (bl.BlockSize - 1 - i) ++ res.take i) ++ [c % 256]))
    128 0 []
    (fun c _ _ => NewAppendECBOracle_first_full bl hwf hbs secret _ hs
      (isBytes_append.2 ⟨hsrcb, by
        intro z hz
        rw [List.mem_singleton] at hz
        rw [hz]; exact Nat.mod_lt _ (by decide)⟩)
      (by rw [List.length_append, List.length_singleton]; exact hsrcl))
  -- the reference block
  obtain ⟨q0, hq0, _, hk0, _⟩ := NewAppendECBOracle_query bl hwf hbs secret
    (bytesRepeat 65 (bl.BlockSize - 1 - i)) hs hr
  have hkey : ∀ si, secret[i]? = some si → res.take i = secret.take i →
      M.lookup (bl.Encrypt ((appendPlain bl.BlockSize secret
        (bytesRepeat 65 (bl.BlockSize - 1 - i))).take bl.BlockSize)) = some si := by
    intro si hsi hpre
    obtain ⟨q1, hq1, hk1⟩ := NewAppendECBOracle_first_short bl hwf hbs secret
      (bytesRepeat 65 (bl.BlockSize - 1 - i)) i si hs hr (by rw [hrl]; omega) hsi
    rw [hq0] at hq1
    injection hq1 with hq1
    subst hq1
    rw [hk0] at hk1
    injection hk1 with hk1
    rw [hk1, ← hpre]
    exact constructFirstMap_lookup bl hinj M _ si hsrcl hsrcb
      (hs128 si (List.getElem?_mem hsi)) hmem
  have hsl : sliceTo res i = some (res.take i) := by
    unfold sliceTo; rw [if_pos (Nat.le_of_lt hil)]
  rw [DecryptAppendOracle_loop_succ, if_pos (Nat.div_eq_of_lt hi), mod_filler _ _ hpos,
    Nat.mod_eq_of_lt hi, hsl, Option.some_bind, hM, Option.some_bind, hq0, Option.some_bind,
    hk0, Option.some_bind]
  cases hlk : M.lookup (bl.Encrypt ((appendPlain bl.BlockSize secret
        (bytesRepeat 65 (bl.BlockSize - 1 - i))).take bl.BlockSize)) with
  | none =>
    refine ⟨res, rfl, rfl, hresb, rfl, ?_⟩
    intro si hsi hpre
    rw [hkey si hsi hpre] at hlk
    cases hlk
  | some b =>
    have hb : b < 256 := by
      have := (hmem _).1 (lookup_mem _ _ _ hlk)
      rcases this with h | ⟨c, _, _, h⟩
      · cases h
      · injection h with _ h2
        rw [h2]; exact Nat.mod_lt _ (by decide)
    refine ⟨res.set i b, rfl, List.length_set _ _ _, isBytes_set _ _ _ hresb hb,
      take_set_self _ _ _, ?_⟩
    intro si hsi hpre
    rw [hkey si hsi hpre] at hlk
    injection hlk with hlk
    rw [← hlk]
    exact List.getElem?_set_self hil

/-- Queries of `findNext`: the first block of the answer encrypts the full
block `y`, and block `k + 1` exists. -/
theorem NewAppendECBOracle_next (bl : Block) (hwf : bl.WF) (hbs : bl.BlockSize < 256)
    (secret y r : List Nat) (k : Nat) (hs : IsBytes secret) (hy : IsBytes y) (hr : IsBytes r)
    (hyl : y.length = bl.BlockSize) (hk : k * bl.BlockSize ≤ r.length + secret.length) :
    ∃ q, NewAppendECBOracle bl secret (y ++ r) = some q
      ∧ sliceTo q bl.BlockSize = some (bl.Encrypt y)
      ∧ slice q (k * bl.BlockSize + bl.BlockSize) (k * bl.BlockSize + bl.BlockSize + bl.BlockSize)
          = some (bl.Encrypt (((appendPlain bl.BlockSize secret (y ++ r)).drop
              (k * bl.BlockSize + bl.BlockSize)).take bl.BlockSize)) := by
  have hpos := hwf.pos
  obtain ⟨q, h1, _, h3, h4⟩ := NewAppendECBOracle_query bl hwf hbs secret (y ++ r) hs
    (isBytes_append.2 ⟨hy, hr⟩)
  have hk1 : (k + 1) * bl.BlockSize = k * bl.BlockSize + bl.BlockSize := by ring
  have hle : k + 1 ≤ ((y ++ r) ++ secret).length / bl.BlockSize := by
    rw [Nat.le_div_iff_mul_le hpos, hk1, List.length_append, List.length_append, hyl]
    omega
  have h5 := h4 (k + 1) hle
  rw [hk1] at h5
  rw [appendPlain_take_of_le _ _ _ (by rw [List.length_append]; omega),
    List.take_left' hyl] at h3
  exact ⟨q, h1, h3, h5⟩

theorem secret_window (secret res : List Nat) (bs i si : Nat) (hbs : 0 < bs) (hi : bs ≤ i)
    (hsi : secret[i]? = some si) (hpre : res.take i = secret.take i) :
    (secret.drop (i - bs + 1)).take bs = (res.drop (i - bs + 1)).take (bs - 1) ++ [si] := by
  obtain ⟨m, rfl⟩ : ∃ m, bs = m + 1 := ⟨bs - 1, by omega⟩
  have e2 : i - (i - (m + 1) + 1) = m := by omega
  have e3 : i - (m + 1) + 1 + m = i := by omega
  have h1 : ∀ l : List Nat, (l.drop (i - (m + 1) + 1)).take m
      = (l.take i).drop (i - (m + 1) + 1) := by
    intro l
    rw [List.drop_take, e2]
  rw [Nat.add_sub_cancel, List.take_succ, List.getElem?_drop, e3, hsi, h1 secret, h1 res, hpre]
  rfl

/-- One iteration of the main loop of `DecryptAppendOracle` after the first
block (`i >= bs`): it succeeds, changes only `res[i]`, and sets it to
`secret[i]` when the bytes before it are already those of the secret. -/
theorem DecryptAppendOracle_step_next (bl : Block) (hwf : bl.WF) (hinj : bl.Injective)
    (hbs : bl.BlockSize < 256) (secret : List Nat) (hs128 : ∀ b ∈ secret, b < 128)
    (n i : Nat) (res : List Nat) (hi : bl.BlockSize ≤ i) (hil : i < res.length)
    (hcur : i / bl.BlockSize * bl.BlockSize ≤ secret.length) (hresb : IsBytes res) :
    ∃ res1, DecryptAppendOracle.loop (NewAppendECBOracle bl secret) bl.BlockSize (n + 1) i res
        = DecryptAppendOracle.loop (NewAppendECBOracle bl secret) bl.BlockSize n (i + 1) res1
      ∧ res1.length = res.length ∧ IsBytes res1 ∧ res1.take i = res.take i
      ∧ ∀ si, secret[i]? = some si → res.take i = secret.take i → res1[i]? = some si := by
  have hpos := hwf.pos
  have hs : IsBytes secret := fun b hb => Nat.lt_trans (hs128 b hb) (by decide)
  have hr : IsBytes (bytesRepeat 65 (bl.BlockSize - 1 - i % bl.BlockSize)) :=
    isBytes_replicate _ (by decide)
  have hrl : (bytesRepeat 65 (bl.BlockSize - 1 - i % bl.BlockSize)).length
      = bl.BlockSize - 1 - i % bl.BlockSize := List.length_replicate _ _
  have hdm := Nat.div_add_mod i bl.BlockSize
  have hml := Nat.mod_lt i hpos
  have hfl : ((res.drop (i - bl.BlockSize + 1)).take (bl.BlockSize - 1)).length
      = bl.BlockSize - 1 := by
    rw [List.length_take, List.length_drop]; omega
  have hfb : IsBytes ((res.drop (i - bl.BlockSize + 1)).take (bl.BlockSize - 1)) :=
    isBytes_take _ (isBytes_drop _ hresb)
  have hyb : ∀ c : Nat, c < 256 →
      IsBytes ((res.drop (i - bl.BlockSize + 1)).take (bl.BlockSize - 1) ++ [c]) := by
    intro c hc
    refine isBytes_append.2 ⟨hfb, ?_⟩
    intro z hz
    rw [List.mem_singleton] at hz
    rw [hz]; exact hc
  have hyl : ∀ c : Nat,
      ((res.drop (i - bl.BlockSize + 1)).take (bl.BlockSize - 1) ++ [c]).length
        = bl.BlockSize := by
    intro c
    rw [List.length_append, hfl, List.length_singleton]; omega
  have hmul : bl.BlockSize * (i / bl.BlockSize) = i / bl.BlockSize * bl.BlockSize :=
    Nat.mul_comm _ _
  have hkr : i / bl.BlockSize * bl.BlockSize
      ≤ (bytesRepeat 65 (bl.BlockSize - 1 - i % bl.BlockSize)).length + secret.length := by
    omega
  have hne : ¬ i / bl.BlockSize = 0 := by
    intro h0
    rw [h0, Nat.mul_zero, Nat.zero_add] at hdm
    omega
  have hsl : slice res (i - bl.BlockSize + 1) i
      = some ((res.drop (i - bl.BlockSize + 1)).take (bl.BlockSize - 1)) := by
    unfold slice
    rw [if_pos ⟨by omega, by omega⟩]
    have : i - (i - bl.BlockSize + 1) = bl.BlockSize - 1 := by omega
    rw [this]
  rw [DecryptAppendOracle_loop_succ, if_neg hne, mod_filler _ _ hpos, hsl, Option.some_bind]
  by_cases hP : ∃ si, secret[i]? = some si ∧ res.take i = secret.take i
  · obtain ⟨si, hsi, hpre⟩ := hP
    have hsil : i < secret.length := by
      rcases Nat.lt_or_ge i secret.length with h | h
      · exact h
      · rw [List.getElem?_eq_none h] at hsi; cases hsi
    have hsi128 := hs128 si (List.getElem?_mem hsi)
    have hwin := secret_window secret res bl.BlockSize i si hpos hi hsi hpre
    have hfind := findNext_correct (NewAppendECBOracle bl secret) bl.BlockSize
      ((res.drop (i - bl.BlockSize + 1)).take (bl.BlockSize - 1))
      (bytesRepeat 65 (bl.BlockSize - 1 - i % bl.BlockSize)) (i / bl.BlockSize)
      (fun c => bl.Encrypt ((res.drop (i - bl.BlockSize + 1)).take (bl.BlockSize - 1)
        ++ [c % 256]))
      (bl.Encrypt ((res.drop (i - bl.BlockSize + 1)).take (bl.BlockSize - 1) ++ [si]))
      si 128 0
      (by
        intro c _ _
        obtain ⟨q, h1, h2, h3⟩ := NewAppendECBOracle_next bl hwf hbs secret _
          (bytesRepeat 65 (bl.BlockSize - 1 - i % bl.BlockSize)) (i / bl.BlockSize) hs
          (hyb (c % 256) (Nat.mod_lt _ (by decide))) hr (hyl _) hkr
        rw [appendPlain_block bl.BlockSize (i / bl.BlockSize) (i - bl.BlockSize + 1) secret _ _
          (hyl _) (by rw [hrl]; omega) (by omega), hwin] at h3
        exact ⟨q, h1, h2, h3⟩)
      (by
        intro c _ hc
        constructor
        · intro h
          have := hinj _ _ (hyl _) (hyl _) (hyb _ (Nat.mod_lt _ (by decide)))
            (hyb si (by omega)) h
          have := List.append_cancel_left this
          simp only [List.cons.injEq, and_true] at this
          rw [Nat.mod_eq_of_lt (by omega)] at this
          exact this
        · intro h
          subst h
          show bl.Encrypt (_ ++ [c % 256]) = bl.Encrypt (_ ++ [c])
          rw [Nat.mod_eq_of_lt (by omega)])
      (Nat.zero_le _) (by omega)
    rw [Nat.mod_eq_of_lt (by omega : si < 256)] at hfind
    rw [hfind, Option.some_bind]
    exact ⟨res.set i si, rfl, List.length_set _ _ _, isBytes_set _ _ _ hresb (by omega),
      take_set_self _ _ _,
      fun s2 hs2 _ => by rw [hsi] at hs2; rw [← hs2]; exact List.getElem?_set_self hil⟩
  · obtain ⟨v, hv, hv256⟩ := findNext_total (NewAppendECBOracle bl secret) bl.BlockSize
      ((res.drop (i - bl.BlockSize + 1)).take (bl.BlockSize - 1))
      (bytesRepeat 65 (bl.BlockSize - 1 - i % bl.BlockSize)) (i / bl.BlockSize) 128 0
      (by
        intro c _ _
        obtain ⟨q, h1, h2, h3⟩ := NewAppendECBOracle_next bl hwf hbs secret _
          (bytesRepeat 65 (bl.BlockSize - 1 - i % bl.BlockSize)) (i / bl.BlockSize) hs
          (hyb (c % 256) (Nat.mod_lt _ (by decide))) hr (hyl _) hkr
        exact ⟨q, _, _, h1, h2, h3⟩)
    rw [hv, Option.some_bind]
    exact ⟨res.set i v, rfl, List.length_set _ _ _, isBytes_set _ _ _ hresb hv256,
      take_set_self _ _ _, fun si hsi hpre => absurd ⟨si, hsi, hpre⟩ hP⟩

/-- The invariant of the main loop of `DecryptAppendOracle` is kept by an
iteration that changes only `res[i]` and sets it to `secret[i]`. -/
theorem recovered_prefix_step (secret res res1 : List Nat) (i : Nat)
    (h1 : res1.take i = res.take i)
    (h2 : ∀ si, secret[i]? = some si → res.take i = secret.take i → res1[i]? = some si)
    (hinv : res.take (min i secret.length) = secret.take (min i secret.length)) :
    res1.take (min (i + 1) secret.length) = secret.take (min (i + 1) secret.length) := by
  rcases Nat.lt_or_ge i secret.length with hlt | hge
  · have e1 : min i secret.length = i := Nat.min_eq_left (Nat.le_of_lt hlt)
    have e2 : min (i + 1) secret.length = i + 1 := Nat.min_eq_left hlt
    rw [e1] at hinv
    rw [e2, List.take_succ, List.take_succ, h1, hinv,
      h2 secret[i] (List.getElem?_eq_getElem hlt) hinv, List.getElem?_eq_getElem hlt]
  · have e1 : min i secret.length = secret.length := Nat.min_eq_right hge
    have e2 : min (i + 1) secret.length = secret.length :=
      Nat.min_eq_right (Nat.le_succ_of_le hge)
    rw [e1] at hinv
    have e3 : ∀ l : List Nat, l.take secret.length = (l.take i).take secret.length := by
      intro l
      rw [List.take_take, Nat.min_eq_left hge]
    rw [e2, e3 res1, h1, ← e3 res, hinv]

theorem block_index_bound (bs i L : Nat) (hbs : 0 < bs) (hi : i < (L / bs + 1) * bs) :
    i / bs * bs ≤ L := by
  have h1 : i / bs < L / bs + 1 := (Nat.div_lt_iff_lt_mul hbs).2 hi
  exact Nat.le_trans (Nat.mul_le_mul_right bs (Nat.le_of_lt_succ h1)) (Nat.div_mul_le_self L bs)

/-- The main loop of `DecryptAppendOracle`, run from index `i` to the length
of the oracle's answer, returns a buffer of that length whose first
`len(secret)` bytes are the secret. -/
theorem DecryptAppendOracle_loop_recovers (bl : Block) (hwf : bl.WF) (hinj : bl.Injective)
    (hbs : bl.BlockSize < 256) (secret : List Nat) (hs128 : ∀ b ∈ secret, b < 128) :
    ∀ (n i : Nat) (res : List Nat),
      i + n = (secret.length / bl.BlockSize + 1) * bl.BlockSize →
      res.length = (secret.length / bl.BlockSize + 1) * bl.BlockSize →
      IsBytes res →
      res.take (min i secret.length) = secret.take (min i secret.length) →
      ∃ out, DecryptAppendOracle.loop (NewAppendECBOracle bl secret) bl.BlockSize n i res
          = some out
        ∧ out.length = (secret.length / bl.BlockSize + 1) * bl.BlockSize
        ∧ out.take secret.length = secret := by
  have hpos := hwf.pos
  have hLN : secret.length < (secret.length / bl.BlockSize + 1) * bl.BlockSize :=
    (Nat.div_lt_iff_lt_mul hpos).1 (Nat.lt_succ_self _)
  intro n
  induction n with
  | zero =>
    intro i res hin hlen _ hinv
    have hi : i = (secret.length / bl.BlockSize + 1) * bl.BlockSize := hin
    have e1 : min i secret.length = secret.length :=
      Nat.min_eq_right (by rw [hi]; exact Nat.le_of_lt hLN)
    rw [e1, List.take_length] at hinv
    exact ⟨res, rfl, hlen, hinv⟩
  | succ n ih =>
    intro i res hin hlen hresb hinv
    have hiN : i < (secret.length / bl.BlockSize + 1) * bl.BlockSize := by
      rw [← hin]; exact Nat.lt_add_of_pos_right (Nat.succ_pos n)
    have hil : i < res.length := by rw [hlen]; exact hiN
    have hin1 : i + 1 + n = (secret.length / bl.BlockSize + 1) * bl.BlockSize := by
      rw [← hin]; exact Nat.add_right_comm i 1 n
    rcases Nat.lt_or_ge i bl.BlockSize with hlt | hge
    · obtain ⟨res1, e, hl1, hb1, ht1, hv1⟩ :=
        DecryptAppendOracle_step_first bl hwf hinj hbs secret hs128 n i res hlt hil hresb
      rw [e]
      exact ih (i + 1) res1 hin1 (hl1.trans hlen) hb1
        (recovered_prefix_step secret res res1 i ht1 hv1 hinv)
    · obtain ⟨res1, e, hl1, hb1, ht1, hv1⟩ :=
        DecryptAppendOracle_step_next bl hwf hinj hbs secret hs128 n i res hge hil
          (block_index_bound _ _ _ hpos hiN) hresb
      rw [e]
      exact ih (i + 1) res1 hin1 (hl1.trans hlen) hb1
        (recovered_prefix_step secret res res1 i ht1 hv1 hinv)

theorem injective_of_invertible (bl : Block) (h : bl.Invertible) : bl.Injective := by
  intro x y hx hy hxb hyb e
  rw [← h x hx hxb, ← h y hy hyb, e]

/-- C2. For the oracle `x -> EncryptECB(PadPKCS7(x ++ secret, bs))` built on
an injective block function of size `bs`, such that `findBlockSize` of the
oracle is `bs` and every byte of the secret is below 128:
`DecryptAppendOracle` returns a buffer whose length is that of the oracle's
answer to the empty input and whose first `len(secret)` bytes are the secret. -/
theorem DecryptAppendOracle_recovers (bl : Block) (hwf : bl.WF) (hinj : bl.Injective)
    (secret : List Nat) (hs128 : ∀ b ∈ secret, b < 128)
    (hfind : findBlockSize (NewAppendECBOracle bl secret) = some bl.BlockSize) :
    ∃ res c0, NewAppendECBOracle bl secret [] = some c0
      ∧ DecryptAppendOracle (NewAppendECBOracle bl secret) = some res
      ∧ res.length = c0.length
      ∧ res.take secret.length = secret := by
  have hpos := hwf.pos
  have hbs : bl.BlockSize < 256 := by
    rcases findBlockSize_loop_range _ 61 3 _ hfind with h | h
    · rw [h] at hpos; cases hpos
    · exact Nat.lt_trans h.2 (by decide)
  have hs : IsBytes secret := fun b hb => Nat.lt_trans (hs128 b hb) (by decide)
  obtain ⟨c0, hc0, hc0len, _, _⟩ :=
    NewAppendECBOracle_query bl hwf hbs secret [] hs isBytes_nil
  rw [List.nil_append] at hc0len
  obtain ⟨out, ho, hol, hot⟩ := DecryptAppendOracle_loop_recovers bl hwf hinj hbs secret hs128
    c0.length 0 (make c0.length) (by rw [Nat.zero_add, hc0len])
    (by rw [length_make, hc0len]) (isBytes_replicate _ (by decide))
    (by rw [Nat.zero_min, List.take_zero, List.take_zero])
  refine ⟨out, c0, hc0, ?_, by rw [hol, hc0len], hot⟩
  unfold DecryptAppendOracle
  rw [hfind, Option.some_bind, if_neg (Nat.pos_iff_ne_zero.1 hpos), hc0, Option.some_bind]
  exact ho

theorem DecryptAppendOracle_recovers_witness :
    (xorBlock 3 90).WF ∧ (xorBlock 3 90).Injective
    ∧ (∀ b ∈ [104, 105], b < 128)
    ∧ findBlockSize (NewAppendECBOracle (xorBlock 3 90) [104, 105]) = some 3
    ∧ ∃ res c0, NewAppendECBOracle (xorBlock 3 90) [104, 105] [] = some c0
      ∧ DecryptAppendOracle (NewAppendECBOracle (xorBlock 3 90) [104, 105]) = some res
      ∧ res.length = c0.length
      ∧ res.take [104, 105].length = [104, 105] :=
  ⟨xorBlock_wf 3 90 (by decide) (by decide),
    injective_of_invertible _ (xorBlock_invertible 3 90), by decide, by decide,
    DecryptAppendOracle_recovers (xorBlock 3 90) (xorBlock_wf 3 90 (by decide) (by decide))
      (injective_of_invertible _ (xorBlock_invertible 3 90)) [104, 105] (by decide)
      (by decide)⟩

/-! ## PKCS#7 padding (`PadPKCS7`) and the pad/unpad round trip -/

theorem PadPKCS7_eq (src : List Nat) (size : Nat) (hs : 1 ≤ size) (h256 : size < 256) :
    PadPKCS7 src size
      = some (src ++ List.replicate (size - src.length % size) (size - src.length % size)) := by
  have hm := Nat.mod_lt src.length hs
  unfold PadPKCS7 bytesRepeat
  rw [if_neg (by omega)]
  simp only
  rw [Nat.mod_eq_of_lt (show size - src.length % size < 256 by omega)]

theorem padded_length_aligned (n size : Nat) (hs : 1 ≤ size) :
    (n + (size - n % size)) % size = 0 := by
  have hm := Nat.mod_lt n hs
  have hd := Nat.div_add_mod n size
  have e : n + (size - n % size) = size * (n / size + 1) := by
    rw [Nat.mul_add, Nat.mul_one]; omega
  rw [e, Nat.mul_mod_right]

/-- C12. For every `src` and every `size` from 1 to 255 (a `uint8`):
`PadPKCS7(src, size)` is `src` followed by `p` bytes of value `p`, where
`p = size - len(src) mod size`; `1 <= p <= size`, and the length of the result
is a multiple of `size`. -/
theorem PadPKCS7_appends_pad (src : List Nat) (size : Nat) (hs : 1 ≤ size) (h256 : size < 256) :
    PadPKCS7 src size
        = some (src ++ List.replicate (size - src.length % size) (size - src.length % size))
      ∧ 1 ≤ size - src.length % size
      ∧ size - src.length % size ≤ size
      ∧ (src ++ List.replicate (size - src.length % size) (size - src.length % size)).length
          % size = 0 := by
  have hm := Nat.mod_lt src.length hs
  refine ⟨PadPKCS7_eq src size hs h256, by omega, Nat.sub_le _ _, ?_⟩
  rw [List.length_append, List.length_replicate]
  exact padded_length_aligned _ _ hs

theorem PadPKCS7_appends_pad_witness :
    (1 ≤ 20 ∧ 20 < 256
      ∧ PadPKCS7 [89, 69, 76, 76, 79, 87, 32, 83, 85, 66, 77, 65, 82, 73, 78, 69] 20
        = some ([89, 69, 76, 76, 79, 87, 32, 83, 85, 66, 77, 65, 82, 73, 78, 69] ++ [4, 4, 4, 4]))
    ∧ (1 ≤ 16 ∧ 16 < 256
      ∧ PadPKCS7 [89, 69, 76, 76, 79, 87, 32, 83, 85, 66, 77, 65, 82, 73, 78, 69] 16
        = some ([89, 69, 76, 76, 79, 87, 32, 83, 85, 66, 77, 65, 82, 73, 78, 69]
            ++ List.replicate 16 16)) :=
  ⟨⟨by decide, by decide,
      (PadPKCS7_appends_pad [89, 69, 76, 76, 79, 87, 32, 83, 85, 66, 77, 65, 82, 73, 78, 69] 20
        (by decide) (by decide)).1⟩,
    ⟨by decide, by decide,
      (PadPKCS7_appends_pad [89, 69, 76, 76, 79, 87, 32, 83, 85, 66, 77, 65, 82, 73, 78, 69] 16
        (by decide) (by decide)).1⟩⟩

/-- C11. Padding then unpadding returns the buffer: for every buffer `b`
(the empty one included) and every block size from 1 to 255, in particular
8, 16 and 32, `UnpadPKCS7(PadPKCS7(b, size), size)` returns `b`. -/
theorem UnpadPKCS7_PadPKCS7 (b : List Nat) (size : Nat) (hs : 1 ≤ size) (h256 : size < 256) :
    (PadPKCS7 b size).bind (fun p => UnpadPKCS7 p size) = some (some b) := by
  have hm := Nat.mod_lt b.length hs
  have hp : 1 ≤ size - b.length % size := by omega
  rw [PadPKCS7_eq b size hs h256, Option.some_bind]
  have hlast : (b ++ List.replicate (size - b.length % size) (size - b.length % size)).getLast?
      = some (size - b.length % size) := by
    obtain ⟨p, hp1⟩ : ∃ p, size - b.length % size = p + 1 := ⟨size - b.length % size - 1, by omega⟩
    rw [hp1, List.replicate_succ', ← List.append_assoc, List.getLast?_append]
    rfl
  have hlen : (b ++ List.replicate (size - b.length % size) (size - b.length % size)).length
      = b.length + (size - b.length % size) := by
    rw [List.length_append, List.length_replicate]
  rw [UnpadPKCS7_eq _ size _ hs (by rw [hlen]; exact padded_length_aligned _ _ hs) hlast
    (by rw [hlen]; exact Nat.le_add_left _ _)]
  rw [hlen, Nat.add_sub_cancel, List.drop_left, List.take_left, if_pos]
  intro x hx
  exact List.eq_of_mem_replicate hx

theorem UnpadPKCS7_PadPKCS7_witness :
    (1 ≤ 8 ∧ 8 < 256 ∧ (PadPKCS7 [] 8).bind (fun p => UnpadPKCS7 p 8) = some (some []))
    ∧ (1 ≤ 16 ∧ 16 < 256
      ∧ (PadPKCS7 [89, 69, 76, 76, 79, 87, 32, 83, 85, 66, 77, 65, 82, 73, 78, 69] 16).bind
          (fun p => UnpadPKCS7 p 16)
        = some (some [89, 69, 76, 76, 79, 87, 32, 83, 85, 66, 77, 65, 82, 73, 78, 69]))
    ∧ (1 ≤ 32 ∧ 32 < 256
      ∧ (PadPKCS7 [1, 2, 3] 32).bind (fun p => UnpadPKCS7 p 32) = some (some [1, 2, 3])) :=
  ⟨⟨by decide, by decide, UnpadPKCS7_PadPKCS7 [] 8 (by decide) (by decide)⟩,
    ⟨by decide, by decide,
      UnpadPKCS7_PadPKCS7 [89, 69, 76, 76, 79, 87, 32, 83, 85, 66, 77, 65, 82, 73, 78, 69] 16
        (by decide) (by decide)⟩,
    ⟨by decide, by decide, UnpadPKCS7_PadPKCS7 [1, 2, 3] 32 (by decide) (by decide)⟩⟩

/-! ## ECB detection (`DetectECB`) -/

theorem slice_window (src : List Nat) (blockSize i : Nat) (hbs : 1 ≤ blockSize)
    (hi : i < src.length / blockSize) :
    slice src (i * blockSize) ((i + 1) * blockSize) = some (window src blockSize i) := by
  have h1 : (i + 1) * blockSize ≤ src.length :=
    (Nat.le_div_iff_mul_le hbs).1 hi
  have h2 : (i + 1) * blockSize = i * blockSize + blockSize := by ring
  unfold slice window
  rw [if_pos ⟨by omega, h1⟩, h2, Nat.add_sub_cancel_left]

/-- The loop of `DetectECB` from block `i` on, when the map holds exactly the
blocks before `i` and these are pairwise different: it returns, and the answer
is `true` exactly when two of the `i + n` blocks are equal. -/
theorem DetectECB_loop_iff (src : List Nat) (blockSize : Nat) (hbs : 1 ≤ blockSize) :
    ∀ (n i : Nat) (m : List (List Nat)),
      i + n = src.length / blockSize →
      (∀ w, w ∈ m ↔ ∃ k, k < i ∧ window src blockSize k = w) →
      (∀ a b, a < b → b < i → window src blockSize a ≠ window src blockSize b) →
      ∃ r, DetectECB.loop src blockSize n i m = some r
        ∧ (r = true ↔ ∃ a b, a < b ∧ b < src.length / blockSize
            ∧ window src blockSize a = window src blockSize b) := by
  intro n
  induction n with
  | zero =>
    intro i m hin _ hdist
    refine ⟨false, rfl, ?_⟩
    constructor
    · intro h; cases h
    · rintro ⟨a, b, hab, hb, e⟩
      exact absurd e (hdist a b hab (by omega))
  | succ n ih =>
    intro i m hin hm hdist
    have hi : i < src.length / blockSize := by omega
    unfold DetectECB.loop
    rw [slice_window src blockSize i hbs hi, Option.some_bind]
    by_cases hmem : window src blockSize i ∈ m
    · rw [if_pos hmem]
      obtain ⟨k, hk, e⟩ := (hm _).1 hmem
      exact ⟨true, rfl, ⟨fun _ => ⟨k, i, hk, hi, e⟩, fun _ => rfl⟩⟩
    · rw [if_neg hmem]
      refine ih (i + 1) (window src blockSize i :: m) (by omega) ?_ ?_
      · intro w
        rw [List.mem_cons, hm w]
        constructor
        · rintro (h | ⟨k, hk, e⟩)
          · exact ⟨i, Nat.lt_succ_self i, h.symm⟩
          · exact ⟨k, Nat.lt_succ_of_lt hk, e⟩
        · rintro ⟨k, hk, e⟩
          rcases Nat.lt_succ_iff_lt_or_eq.1 hk with h | h
          · exact Or.inr ⟨k, h, e⟩
          · rw [h] at e; exact Or.inl e.symm
      · intro a b hab hb e
        rcases Nat.lt_succ_iff_lt_or_eq.1 hb with h | h
        · exact hdist a b hab h e
        · rw [h] at hab e
          exact hmem ((hm _).2 ⟨a, hab, e⟩)

/-- C13. For every `src` and every `blockSize >= 1`, `DetectECB` returns, and
it returns `true` if and only if there are two indices
`i < j < floor(len(src)/blockSize)` whose block-aligned windows
`src[i*blockSize:(i+1)*blockSize]` and `src[j*blockSize:(j+1)*blockSize]` are
equal; a trailing partial block is not looked at. -/
theorem DetectECB_iff_duplicate (src : List Nat) (blockSize : Nat) (hbs : 1 ≤ blockSize) :
    ∃ r, DetectECB src blockSize = some r
      ∧ (r = true ↔ ∃ i j, i < j ∧ j < src.length / blockSize
          ∧ window src blockSize i = window src blockSize j) := by
  unfold DetectECB
  rw [if_neg (by omega)]
  refine DetectECB_loop_iff src blockSize hbs _ 0 [] (Nat.zero_add _) ?_ ?_
  · intro w
    constructor
    · intro h; cases h
    · rintro ⟨k, hk, _⟩; cases hk
  · intro a b _ hb; cases hb

theorem DetectECB_iff_duplicate_witness :
    1 ≤ 2
    ∧ ∃ r, DetectECB [1, 2, 3, 4, 1, 2, 5] 2 = some r
      ∧ (r = true ↔ ∃ i j, i < j ∧ j < [1, 2, 3, 4, 1, 2, 5].length / 2
          ∧ window [1, 2, 3, 4, 1, 2, 5] 2 i = window [1, 2, 3, 4, 1, 2, 5] 2 j) :=
  ⟨by decide, DetectECB_iff_duplicate [1, 2, 3, 4, 1, 2, 5] 2 (by decide)⟩

/-! ## Hamming distance (`ComputeHamming`) -/

theorem ComputeHamming_loop_eq (r : List Nat) :
    ∀ count : Nat, ComputeHamming.loop r count = count + (r.map OnesCount8).sum := by
  induction r with
  | nil => intro count; rfl
  | cons b rest ih =>
    intro count
    rw [ComputeHamming.loop, ih, List.map_cons, List.sum_cons, Nat.add_assoc]

theorem ComputeHamming_eq (x y : List Nat) (h : x.length = y.length) :
    ComputeHamming x y = some (((xorBytes x y).map OnesCount8).sum) := by
  unfold ComputeHamming
  rw [XorSlice_eq x y h, Option.some_bind, ComputeHamming_loop_eq, Nat.zero_add]

theorem OnesCount8_xor (a b : Nat) : OnesCount8 (a ^^^ b) = bitDifferences a b := by
  unfold OnesCount8 bitDifferences
  congr 1
  funext k
  exact Nat.testBit_xor a b k

theorem popcount_xorBytes (x y : List Nat) :
    ((xorBytes x y).map OnesCount8).sum = differingBits x y := by
  unfold xorBytes differingBits
  induction x generalizing y with
  | nil => rfl
  | cons a x ih =>
    cases y with
    | nil => rfl
    | cons b y =>
      rw [List.zipWith_cons_cons, List.zipWith_cons_cons, List.map_cons, List.sum_cons,
        List.sum_cons, ih, OnesCount8_xor]

/-- C19. For byte sequences `x` and `y` of equal length, `ComputeHamming(x, y)`
is the sum over `i` of the number of one bits of `x[i] XOR y[i]`, and this is
the number of bit positions in which `x` and `y` differ. -/
theorem ComputeHamming_counts_differing_bits (x y : List Nat) (h : x.length = y.length) :
    ComputeHamming x y = some (((xorBytes x y).map OnesCount8).sum)
      ∧ ((xorBytes x y).map OnesCount8).sum = differingBits x y :=
  ⟨ComputeHamming_eq x y h, popcount_xorBytes x y⟩

theorem ComputeHamming_counts_differing_bits_witness :
    [116, 104, 105, 115, 32, 105, 115, 32, 97, 32, 116, 101, 115, 116].length
        = [119, 111, 107, 107, 97, 32, 119, 111, 107, 107, 97, 33, 33, 33].length
      ∧ ComputeHamming [116, 104, 105, 115, 32, 105, 115, 32, 97, 32, 116, 101, 115, 116]
          [119, 111, 107, 107, 97, 32, 119, 111, 107, 107, 97, 33, 33, 33] = some 37
      ∧ differingBits [116, 104, 105, 115, 32, 105, 115, 32, 97, 32, 116, 101, 115, 116]
          [119, 111, 107, 107, 97, 32, 119, 111, 107, 107, 97, 33, 33, 33] = 37 :=
  ⟨rfl,
    (ComputeHamming_counts_differing_bits
      [116, 104, 105, 115, 32, 105, 115, 32, 97, 32, 116, 101, 115, 116]
      [119, 111, 107, 107, 97, 32, 119, 111, 107, 107, 97, 33, 33, 33] rfl).1.trans (by decide),
    by decide⟩

theorem xor_key_cancel (a b k : Nat) : (a ^^^ k) ^^^ (b ^^^ k) = a ^^^ b := by
  rw [Nat.xor_assoc, Nat.xor_comm b k, Nat.xor_cancel_left]

theorem xorBytes_XorSlice_loop (key : List Nat) :
    ∀ (x y : List Nat) (i : Nat), x.length = y.length →
      xorBytes (XorSlice.loop key i x) (XorSlice.loop key i y) = xorBytes x y := by
  intro x
  induction x with
  | nil => intro y i _; rfl
  | cons a x ih =>
    intro y i h
    cases y with
    | nil => cases h
    | cons b y =>
      have h1 : x.length = y.length := Nat.succ.inj h
      show List.zipWith _ (_ :: _) (_ :: _) = List.zipWith _ (_ :: _) (_ :: _)
      rw [List.zipWith_cons_cons, List.zipWith_cons_cons, xor_key_cancel]
      exact congrArg _ (ih y (i + 1) h1)

/-- C18. For byte sequences `x` and `y` of equal length and a non-empty key:
`XorSlice(x, key)` and `XorSlice(y, key)` return, and their Hamming distance is
the Hamming distance of `x` and `y`. -/
theorem ComputeHamming_xor_invariant (x y key : List Nat) (h : x.length = y.length)
    (hk : key ≠ []) :
    ∃ a b d, XorSlice x key = some a ∧ XorSlice y key = some b
      ∧ ComputeHamming x y = some d ∧ ComputeHamming a b = some d := by
  have hkl : ¬ (key.length = 0 ∧ x.length ≠ 0) := fun hc => hk (List.length_eq_zero.1 hc.1)
  have hkl2 : ¬ (key.length = 0 ∧ y.length ≠ 0) := fun hc => hk (List.length_eq_zero.1 hc.1)
  refine ⟨XorSlice.loop key 0 x, XorSlice.loop key 0 y, _, ?_, ?_, ComputeHamming_eq x y h, ?_⟩
  · unfold XorSlice; rw [if_neg hkl]
  · unfold XorSlice; rw [if_neg hkl2]
  · rw [ComputeHamming_eq _ _ (by rw [XorSlice_loop_length, XorSlice_loop_length, h]),
      xorBytes_XorSlice_loop key x y 0 h]

theorem ComputeHamming_xor_invariant_witness :
    [1, 3, 3, 7].length = [10, 14, 14, 15].length ∧ [240, 13] ≠ []
      ∧ ∃ a b d, XorSlice [1, 3, 3, 7] [240, 13] = some a
        ∧ XorSlice [10, 14, 14, 15] [240, 13] = some b
        ∧ ComputeHamming [1, 3, 3, 7] [10, 14, 14, 15] = some d ∧ ComputeHamming a b = some d :=
  ⟨rfl, by decide, ComputeHamming_xor_invariant [1, 3, 3, 7] [10, 14, 14, 15] [240, 13] rfl
    (by decide)⟩

/-! ## `DecryptAppendOracle` when no block size is found -/

/-- C20 (amended). When `findBlockSize` returns 0 for the oracle (no candidate
size from 3 to 63 shows two equal blocks), `DecryptAppendOracle` panics
(`not using ECB mode`): it returns no buffer. -/
theorem DecryptAppendOracle_panics_without_ecb (oracle : List Nat → Option (List Nat))
    (h : findBlockSize oracle = some 0) : DecryptAppendOracle oracle = none := by
  unfold DecryptAppendOracle
  rw [h, Option.some_bind, if_pos rfl]

theorem DecryptAppendOracle_panics_without_ecb_witness :
    findBlockSize (fun _ => some [0, 1, 2, 3, 4, 5, 6, 7]) = some 0
    ∧ DecryptAppendOracle (fun _ => some [0, 1, 2, 3, 4, 5, 6, 7]) = none :=
  ⟨by decide,
    DecryptAppendOracle_panics_without_ecb (fun _ => some [0, 1, 2, 3, 4, 5, 6, 7]) (by decide)⟩

/-- C20, as stated, fails: the oracle that answers every query with the
16 bytes `0, 1, ..., 15` shows no two equal blocks for any candidate size, so
`findBlockSize` returns 0, and `DecryptAppendOracle` panics instead of returning
a buffer. -/
theorem DecryptAppendOracle_no_best_effort :
    findBlockSize (fun _ => some [0, 1, 2, 3, 4, 5, 6, 7, 8, 9, 10, 11, 12, 13, 14, 15]) = some 0
    ∧ ¬ ∃ res, DecryptAppendOracle
        (fun _ => some [0, 1, 2, 3, 4, 5, 6, 7, 8, 9, 10, 11, 12, 13, 14, 15]) = some res := by
  refine ⟨by decide, ?_⟩
  rintro ⟨res, h⟩
  have : DecryptAppendOracle
      (fun _ => some [0, 1, 2, 3, 4, 5, 6, 7, 8, 9, 10, 11, 12, 13, 14, 15]) = none := by
    unfold DecryptAppendOracle
    rw [show findBlockSize
        (fun _ => some [0, 1, 2, 3, 4, 5, 6, 7, 8, 9, 10, 11, 12, 13, 14, 15]) = some 0
      by decide]
    rfl
  rw [this] at h
  cases h

/-! ## Single-byte XOR (`GuessKey`) -/

/-- The loop of `GuessKey` keeps: every candidate before `i` scores at most
`high`, every candidate before `key` scores less than `high`, and `high` is the
score of `key` as soon as one candidate has been tried. -/
theorem GuessKey_loop_invariant (src : List Nat) :
    ∀ (n i : Nat) (kh : Nat × Nat), i + n = 256 →
      (∀ b, b < i → ScoreString (SingleXor src b) ≤ kh.2) →
      (∀ b, b < kh.1 → ScoreString (SingleXor src b) < kh.2) →
      ((i = 0 ∧ kh = (0, 0)) ∨ (kh.1 < i ∧ kh.2 = ScoreString (SingleXor src kh.1))) →
      (∀ b, b < 256 → ScoreString (SingleXor src b) ≤ (GuessKey.loop src n i kh).2)
      ∧ (∀ b, b < (GuessKey.loop src n i kh).1 →
          ScoreString (SingleXor src b) < (GuessKey.loop src n i kh).2)
      ∧ ((i + n = 0 ∧ GuessKey.loop src n i kh = (0, 0))
        ∨ ((GuessKey.loop src n i kh).1 < i + n
          ∧ (GuessKey.loop src n i kh).2
            = ScoreString (SingleXor src (GuessKey.loop src n i kh).1))) := by
  intro n
  induction n with
  | zero =>
    intro i kh hin ha hb hc
    rw [Nat.add_zero] at hin
    refine ⟨fun b hb256 => ha b (by rw [hin]; exact hb256), hb, ?_⟩
    rcases hc with ⟨h0, hk⟩ | hc
    · exact Or.inl ⟨h0, hk⟩
    · exact Or.inr hc
  | succ n ih =>
    intro i kh hin ha hb hc
    have hi : i < 256 := by omega
    have hmod : i % 256 = i := Nat.mod_eq_of_lt hi
    have hin1 : i + 1 + n = 256 := by omega
    have e : i + (n + 1) = i + 1 + n := by omega
    rw [e]
    unfold GuessKey.loop
    rw [hmod]
    by_cases hgt : ScoreString (SingleXor src i) > kh.2
    · rw [if_pos hgt]
      refine ih (i + 1) (i, ScoreString (SingleXor src i)) hin1 ?_ ?_ ?_
      · intro b hbi
        rcases Nat.lt_succ_iff_lt_or_eq.1 hbi with h | h
        · exact Nat.le_trans (ha b h) (Nat.le_of_lt hgt)
        · rw [h]
      · intro b hbi
        exact Nat.lt_of_le_of_lt (ha b hbi) hgt
      · exact Or.inr ⟨Nat.lt_succ_self i, rfl⟩
    · rw [if_neg hgt]
      have hle : ScoreString (SingleXor src i) ≤ kh.2 := Nat.le_of_not_lt hgt
      refine ih (i + 1) kh hin1 ?_ hb ?_
      · intro b hbi
        rcases Nat.lt_succ_iff_lt_or_eq.1 hbi with h | h
        · exact ha b h
        · rw [h]; exact hle
      · rcases hc with ⟨h0, hk⟩ | ⟨h1, h2⟩
        · subst h0
          subst hk
          exact Or.inr ⟨Nat.zero_lt_one, (Nat.le_zero.1 hle).symm⟩
        · exact Or.inr ⟨Nat.lt_succ_of_lt h1, h2⟩

theorem GuessKey_spec (src : List Nat) :
    (GuessKey src).1 < 256
    ∧ (GuessKey src).2 = ScoreString (SingleXor src (GuessKey src).1)
    ∧ (∀ b, b < 256 → ScoreString (SingleXor src b) ≤ (GuessKey src).2)
    ∧ (∀ b, b < (GuessKey src).1 → ScoreString (SingleXor src b) < (GuessKey src).2) := by
  obtain ⟨h1, h2, h3⟩ := GuessKey_loop_invariant src 256 0 (0, 0) rfl
    (fun b hb => absurd hb (Nat.not_lt_zero b)) (fun b hb => absurd hb (Nat.not_lt_zero b))
    (Or.inl ⟨rfl, rfl⟩)
  rcases h3 with ⟨h, _⟩ | ⟨h4, h5⟩
  · cases h
  · exact ⟨h4, h5, h1, h2⟩

/-- C14. For every `src`, `GuessKey(src)` returns `(key, high)` where `key` is
a byte, `high` is the score `ScoreString(SingleXor(src, key))`, no byte `b` in
`0..255` scores more than `high`, and every `b < key` scores less than `high`
(the first byte reaching the maximum wins); when every candidate scores 0 the
result is key 0 with score 0. -/
theorem GuessKey_first_maximum (src : List Nat) :
    (GuessKey src).1 < 256
    ∧ (GuessKey src).2 = ScoreString (SingleXor src (GuessKey src).1)
    ∧ (∀ b, b < 256 → ScoreString (SingleXor src b) ≤ (GuessKey src).2)
    ∧ (∀ b, b < (GuessKey src).1 → ScoreString (SingleXor src b) < (GuessKey src).2)
    ∧ ((∀ b, b < 256 → ScoreString (SingleXor src b) = 0) → GuessKey src = (0, 0)) := by
  obtain ⟨h1, h2, h3, h4⟩ := GuessKey_spec src
  refine ⟨h1, h2, h3, h4, ?_⟩
  intro hall
  have hhigh : (GuessKey src).2 = 0 := by rw [h2]; exact hall _ h1
  have hkey : (GuessKey src).1 = 0 := by
    rcases Nat.eq_zero_or_pos (GuessKey src).1 with h | h
    · exact h
    · have := h4 0 h
      rw [hhigh] at this
      exact absurd this (Nat.not_lt_zero _)
  exact Prod.ext hkey hhigh

theorem GuessKey_first_maximum_witness :
    (GuessKey [1, 2, 3]).1 < 256
    ∧ (GuessKey [1, 2, 3]).2 = ScoreString (SingleXor [1, 2, 3] (GuessKey [1, 2, 3]).1)
    ∧ (∀ b, b < 256 → ScoreString (SingleXor [1, 2, 3] b) ≤ (GuessKey [1, 2, 3]).2)
    ∧ (∀ b, b < (GuessKey [1, 2, 3]).1 →
        ScoreString (SingleXor [1, 2, 3] b) < (GuessKey [1, 2, 3]).2)
    ∧ ((∀ b, b < 256 → ScoreString (SingleXor [1, 2, 3] b) = 0) → GuessKey [1, 2, 3] = (0, 0)) :=
  GuessKey_first_maximum [1, 2, 3]

set_option maxRecDepth 100000 in
/-- C15. On the ciphertext of `TestChallenge3`, which is the sentence
`Cooking MC's like a pound of bacon` XORed with the byte 0x58, `GuessKey`
returns the key 0x58, and `SingleXor` of the ciphertext with the returned key is
that sentence. -/
theorem GuessKey_challenge3 :
    SingleXor challenge3Plaintext 0x58 = challenge3Ciphertext
    ∧ (GuessKey challenge3Ciphertext).1 = 0x58
    ∧ SingleXor challenge3Ciphertext (GuessKey challenge3Ciphertext).1 = challenge3Plaintext := by
  have h : GuessKey challenge3Ciphertext = (88, 20544600043492163584) := by decide!
  rw [h]
  exact ⟨by decide, rfl, by decide⟩

/-! ## Transposition (`TransposeBytes`, `FindTransposedXorKey`) -/

/-- The loop of `TransposeBytes` from position `p` on appends to every column
of `res` the bytes of the rest of `src` that belong to it. -/
theorem TransposeBytes_loop_eq (size : Nat) (hs : 1 ≤ size) :
    ∀ (rest : List Nat) (p : Nat) (res : List (List Nat)), res.length = size →
      ∃ out, TransposeBytes.loop size rest p res = some out ∧ out.length = size
        ∧ ∀ i, i < size → out[i]? = some (res.getD i [] ++ columnFrom size i p rest) := by
  intro rest
  induction rest with
  | nil =>
    intro p res hlen
    refine ⟨res, rfl, hlen, ?_⟩
    intro i hi
    have hi2 : i < res.length := by rw [hlen]; exact hi
    rw [List.getD_eq_getElem?_getD, List.getElem?_eq_getElem hi2]
    simp [columnFrom]
  | cons b rest ih =>
    intro p res hlen
    have hm : p % size < res.length := by rw [hlen]; exact Nat.mod_lt _ hs
    unfold TransposeBytes.loop
    rw [if_neg (by omega), List.getElem?_eq_getElem hm, Option.some_bind]
    obtain ⟨out, ho, hol, hoi⟩ := ih (p + 1) (res.set (p % size) (res[p % size] ++ [b]))
      (by rw [List.length_set]; exact hlen)
    refine ⟨out, ho, hol, ?_⟩
    intro i hi
    have hi2 : i < res.length := by rw [hlen]; exact hi
    rw [hoi i hi, List.getD_eq_getElem?_getD, List.getD_eq_getElem?_getD,
      List.getElem?_eq_getElem hi2]
    by_cases hpi : p % size = i
    · subst hpi
      rw [List.getElem?_set_self hm]
      simp [columnFrom]
    · rw [List.getElem?_set_ne hpi, List.getElem?_eq_getElem hi2]
      simp [columnFrom, hpi]

theorem TransposeBytes_eq (src : List Nat) (size : Nat) (hs : 1 ≤ size) :
    ∃ cols, TransposeBytes src size = some cols ∧ cols.length = size
      ∧ ∀ i, i < size → cols[i]? = some (column src size i) := by
  obtain ⟨out, ho, hol, hoi⟩ := TransposeBytes_loop_eq size hs src 0 (List.replicate size [])
    (List.length_replicate _ _)
  refine ⟨out, ho, hol, ?_⟩
  intro i hi
  rw [hoi i hi, List.getD_eq_getElem?_getD, List.getElem?_replicate, if_pos hi]
  rfl

/-- The loop of `FindTransposedXorKey` from block `i` on sets `key[j]` to the
key guessed for block `j`, and leaves the bytes before `i` as they are. -/
theorem FindTransposedXorKey_loop_eq :
    ∀ (blocks : List (List Nat)) (i : Nat) (key : List Nat), i + blocks.length = key.length →
      ∃ out, FindTransposedXorKey.loop blocks i key = some out ∧ out.length = key.length
        ∧ (∀ j, j < i → out[j]? = key[j]?)
        ∧ ∀ j, j < blocks.length → out[i + j]? = (blocks[j]?).map fun bl => (GuessKey bl).1 := by
  intro blocks
  induction blocks with
  | nil =>
    intro i key _
    exact ⟨key, rfl, rfl, fun _ _ => rfl, fun j hj => absurd hj (Nat.not_lt_zero j)⟩
  | cons block rest ih =>
    intro i key hlen
    rw [List.length_cons] at hlen
    have hi : i < key.length := by omega
    unfold FindTransposedXorKey.loop
    rw [if_pos hi]
    obtain ⟨out, ho, hol, hpre, hpost⟩ := ih (i + 1) (key.set i (GuessKey block).1)
      (by rw [List.length_set]; omega)
    rw [List.length_set] at hol
    refine ⟨out, ho, hol, ?_, ?_⟩
    · intro j hj
      rw [hpre j (Nat.lt_succ_of_lt hj), List.getElem?_set_ne (Nat.ne_of_gt hj)]
    · intro j hj
      cases j with
      | zero =>
        rw [Nat.add_zero, hpre i (Nat.lt_succ_self i), List.getElem?_set_self hi,
          List.getElem?_cons_zero]
        rfl
      | succ j =>
        have := hpost j (Nat.lt_of_succ_lt_succ hj)
        rw [show i + (j + 1) = i + 1 + j by omega, this, List.getElem?_cons_succ]

/-- C17. For every `src` and every `size >= 1`: `TransposeBytes(src, size)`
has exactly `size` columns, column `i` being the bytes of `src` at the positions
congruent to `i` modulo `size`, in increasing position order; and
`FindTransposedXorKey(src, size)` returns exactly `size` bytes, the `i`-th being
the key that `GuessKey` returns on column `i`. -/
theorem FindTransposedXorKey_columns (src : List Nat) (size : Nat) (hs : 1 ≤ size) :
    ∃ cols key, TransposeBytes src size = some cols ∧ cols.length = size
      ∧ (∀ i, i < size → cols[i]? = some (column src size i))
      ∧ FindTransposedXorKey src size = some key ∧ key.length = size
      ∧ ∀ i, i < size → key[i]? = some (GuessKey (column src size i)).1 := by
  obtain ⟨cols, hc, hcl, hci⟩ := TransposeBytes_eq src size hs
  obtain ⟨key, hk, hkl, _, hki⟩ := FindTransposedXorKey_loop_eq cols 0 (make size)
    (by rw [Nat.zero_add, hcl, length_make])
  rw [length_make] at hkl
  refine ⟨cols, key, hc, hcl, hci, ?_, hkl, ?_⟩
  · unfold FindTransposedXorKey
    rw [hc, Option.some_bind]
    exact hk
  · intro i hi
    have := hki i (by rw [hcl]; exact hi)
    rw [Nat.zero_add, hci i hi] at this
    exact this

theorem FindTransposedXorKey_columns_witness :
    1 ≤ 3
    ∧ column [1, 2, 3, 4, 5, 6, 7] 3 0 = [1, 4, 7]
    ∧ column [1, 2, 3, 4, 5, 6, 7] 3 1 = [2, 5]
    ∧ column [1, 2, 3, 4, 5, 6, 7] 3 2 = [3, 6]
    ∧ ∃ cols key, TransposeBytes [1, 2, 3, 4, 5, 6, 7] 3 = some cols ∧ cols.length = 3
      ∧ (∀ i, i < 3 → cols[i]? = some (column [1, 2, 3, 4, 5, 6, 7] 3 i))
      ∧ FindTransposedXorKey [1, 2, 3, 4, 5, 6, 7] 3 = some key ∧ key.length = 3
      ∧ ∀ i, i < 3 → key[i]? = some (GuessKey (column [1, 2, 3, 4, 5, 6, 7] 3 i)).1 :=
  ⟨by decide, by decide, by decide, by decide,
    FindTransposedXorKey_columns [1, 2, 3, 4, 5, 6, 7] 3 (by decide)⟩

/-! ## Failure conditions of `EncryptCBC`, `DecryptCBC` and `EncryptECB` -/

theorem cbcDecBlocks_length (bl : Block) (hwf : bl.WF) :
    ∀ (m : Nat) (src iv : List Nat), m * bl.BlockSize ≤ src.length → IsBytes src →
      iv.length = bl.BlockSize →
      (cbcDecBlocks bl m src iv).length = m * bl.BlockSize := by
  intro m
  induction m with
  | zero => intro src iv _ _ _; simp [cbcDecBlocks]
  | succ m ih =>
    intro src iv hlen hb hiv
    have hexp : (m + 1) * bl.BlockSize = bl.BlockSize + m * bl.BlockSize := by ring
    have h1 : bl.BlockSize ≤ src.length := by omega
    have htl : (src.take bl.BlockSize).length = bl.BlockSize := by
      rw [List.length_take]; omega
    have hDl := hwf.dec_len _ htl (isBytes_take _ hb)
    have h2 : m * bl.BlockSize ≤ (src.drop bl.BlockSize).length := by
      rw [List.length_drop]; omega
    have r := ih (src.drop bl.BlockSize) (src.take bl.BlockSize) h2 (isBytes_drop _ hb) htl
    simp only [cbcDecBlocks, List.length_append]
    rw [r, xorBytes_length _ _ (hDl.trans hiv.symm), hDl, hexp]

/-- C21. For a block cipher of block size `bs`: `EncryptCBC` and `DecryptCBC`
panic exactly when `len(src)` is not a multiple of `bs` or `len(iv) != bs`,
`EncryptECB` panics exactly when `len(src)` is not a multiple of `bs`, and each
of them, when it returns, returns a buffer as long as `src`. -/
theorem cbc_ecb_panic_iff (bl : Block) (hwf : bl.WF) (src iv : List Nat) (hsrc : IsBytes src)
    (hivb : IsBytes iv) :
    (EncryptCBC bl src iv = none ↔ (src.length % bl.BlockSize ≠ 0 ∨ iv.length ≠ bl.BlockSize))
    ∧ (∀ out, EncryptCBC bl src iv = some out → out.length = src.length)
    ∧ (DecryptCBC bl src iv = none ↔ (src.length % bl.BlockSize ≠ 0 ∨ iv.length ≠ bl.BlockSize))
    ∧ (∀ out, DecryptCBC bl src iv = some out → out.length = src.length)
    ∧ (EncryptECB src bl = none ↔ src.length % bl.BlockSize ≠ 0)
    ∧ (∀ out, EncryptECB src bl = some out → out.length = src.length) := by
  have hpos := hwf.pos
  have hne : ¬ bl.BlockSize = 0 := Nat.pos_iff_ne_zero.1 hpos
  by_cases hal : src.length % bl.BlockSize = 0
  · have hdiv : src.length / bl.BlockSize * bl.BlockSize = src.length :=
      Nat.div_mul_cancel (Nat.dvd_of_mod_eq_zero hal)
    have hecb := EncryptECB_eq bl hwf src hsrc hal
    have hecbl := mapBlocks_length bl.Encrypt bl.BlockSize hwf.enc_len
      (src.length / bl.BlockSize) src (Nat.le_of_eq hdiv) hsrc
    have hE : (EncryptECB src bl = none ↔ src.length % bl.BlockSize ≠ 0)
        ∧ (∀ out, EncryptECB src bl = some out → out.length = src.length) := by
      rw [hecb]
      refine ⟨⟨fun h => Option.noConfusion h, fun h => absurd hal h⟩, ?_⟩
      intro out ho
      rw [← Option.some.inj ho, hecbl, hdiv]
    by_cases hiv : iv.length = bl.BlockSize
    · have henc := EncryptCBC_eq bl hwf src iv hsrc hivb hal hiv
      have hdec := DecryptCBC_eq bl hwf src iv hsrc hal hiv
      have hencl := (cbcEncBlocks_length bl hwf (src.length / bl.BlockSize) src iv
        (Nat.le_of_eq hdiv) hsrc hiv hivb).1
      have hdecl := cbcDecBlocks_length bl hwf (src.length / bl.BlockSize) src iv
        (Nat.le_of_eq hdiv) hsrc hiv
      have hno : ¬ (src.length % bl.BlockSize ≠ 0 ∨ iv.length ≠ bl.BlockSize) := by
        rintro (h | h)
        · exact h hal
        · exact h hiv
      rw [henc, hdec]
      refine ⟨⟨fun h => Option.noConfusion h, fun h => absurd h hno⟩, ?_,
        ⟨fun h => Option.noConfusion h, fun h => absurd h hno⟩, ?_, hE⟩
      · intro out ho
        rw [← Option.some.inj ho, hencl, hdiv]
      · intro out ho
        rw [← Option.some.inj ho, hdecl, hdiv]
    · have henc : EncryptCBC bl src iv = none := by
        unfold EncryptCBC
        rw [if_neg hne, if_neg (by simp [hal]), if_pos hiv]
      have hdec : DecryptCBC bl src iv = none := by
        unfold DecryptCBC
        rw [if_neg hne, if_neg (by simp [hal]), if_pos hiv]
      rw [henc, hdec]
      exact ⟨⟨fun _ => Or.inr hiv, fun _ => rfl⟩, fun _ ho => Option.noConfusion ho,
        ⟨fun _ => Or.inr hiv, fun _ => rfl⟩, fun _ ho => Option.noConfusion ho, hE⟩
  · have henc : EncryptCBC bl src iv = none := by
      unfold EncryptCBC
      rw [if_neg hne, if_pos hal]
    have hdec : DecryptCBC bl src iv = none := by
      unfold DecryptCBC
      rw [if_neg hne, if_pos hal]
    have hecb : EncryptECB src bl = none := by
      unfold EncryptECB
      rw [if_neg hne, if_pos hal]
    rw [henc, hdec, hecb]
    exact ⟨⟨fun _ => Or.inl hal, fun _ => rfl⟩, fun _ ho => Option.noConfusion ho,
      ⟨fun _ => Or.inl hal, fun _ => rfl⟩, fun _ ho => Option.noConfusion ho,
      ⟨fun _ => hal, fun _ => rfl⟩, fun _ ho => Option.noConfusion ho⟩

theorem cbc_ecb_panic_iff_witness :
    (xorBlock 4 90).WF ∧ IsBytes [1, 2, 3, 4, 5, 6, 7, 8] ∧ IsBytes [9, 9, 9, 9]
    ∧ EncryptCBC (xorBlock 4 90) [1, 2, 3, 4, 5, 6, 7, 8] [9, 9, 9, 9]
        = some [82, 81, 80, 87, 13, 13, 13, 5]
    ∧ EncryptCBC (xorBlock 4 90) [1, 2, 3, 4, 5, 6, 7] [9, 9, 9, 9] = none
    ∧ DecryptCBC (xorBlock 4 90) [1, 2, 3, 4, 5, 6, 7, 8] [9, 9, 9] = none
    ∧ EncryptECB [1, 2, 3, 4, 5, 6, 7] (xorBlock 4 90) = none
    ∧ (EncryptCBC (xorBlock 4 90) [1, 2, 3, 4, 5, 6, 7, 8] [9, 9, 9, 9] = none
        ↔ ([1, 2, 3, 4, 5, 6, 7, 8].length % (xorBlock 4 90).BlockSize ≠ 0
          ∨ [9, 9, 9, 9].length ≠ (xorBlock 4 90).BlockSize)) :=
  ⟨xorBlock_wf 4 90 (by decide) (by decide), by decide, by decide, by decide, by decide,
    by decide, by decide,
    (cbc_ecb_panic_iff (xorBlock 4 90) (xorBlock_wf 4 90 (by decide) (by decide))
      [1, 2, 3, 4, 5, 6, 7, 8] [9, 9, 9, 9] (by decide) (by decide)).1⟩

/-! ## The prefix oracle and `DecryptPrependOracle` -/

theorem NewPrependECBOracle_nil (bl : Block) (secret x : List Nat) :
    NewPrependECBOracle bl [] secret x = NewAppendECBOracle bl secret x := rfl

/-- With an empty prefix the answer to `3 * bs` bytes `'A'` starts with two
equal blocks, so the first loop of `DecryptPrependOracle` ends with `pos = 0`. -/
theorem DecryptPrependOracle_findPos_zero (bl : Block) (hwf : bl.WF) (hbs : bl.BlockSize < 256)
    (secret : List Nat) (hs : IsBytes secret) :
    ∃ c, NewPrependECBOracle bl [] secret (bytesRepeat 65 (bl.BlockSize * 3)) = some c
      ∧ DecryptPrependOracle.findPos c bl.BlockSize (c.length + 1) 0 [] = some 0 := by
  have hpos := hwf.pos
  have hA : IsBytes (bytesRepeat 65 (bl.BlockSize * 3)) := isBytes_replicate _ (by decide)
  have hAl : (bytesRepeat 65 (bl.BlockSize * 3)).length = bl.BlockSize * 3 :=
    List.length_replicate _ _
  obtain ⟨c, hc, hcl, _, hblk⟩ := NewAppendECBOracle_query bl hwf hbs secret
    (bytesRepeat 65 (bl.BlockSize * 3)) hs hA
  have hdiv : 3 ≤ (bytesRepeat 65 (bl.BlockSize * 3) ++ secret).length / bl.BlockSize := by
    rw [Nat.le_div_iff_mul_le hpos, List.length_append, hAl]
    omega
  have hclen : 4 * bl.BlockSize ≤ c.length := by
    rw [hcl]
    exact Nat.mul_le_mul_right _ (by omega)
  have hb0 := hblk 0 (by omega)
  have hb1 := hblk 1 (by omega)
  rw [Nat.zero_mul, List.drop_zero] at hb0
  rw [Nat.one_mul] at hb1
  have e0 : (appendPlain bl.BlockSize secret (bytesRepeat 65 (bl.BlockSize * 3))).take
      bl.BlockSize = bytesRepeat 65 bl.BlockSize := by
    rw [appendPlain_eq, List.take_append_of_le_length (by rw [hAl]; omega)]
    unfold bytesRepeat
    rw [List.take_replicate, Nat.min_eq_left (by omega)]
  have e1 : ((appendPlain bl.BlockSize secret (bytesRepeat 65 (bl.BlockSize * 3))).drop
      bl.BlockSize).take bl.BlockSize = bytesRepeat 65 bl.BlockSize := by
    rw [appendPlain_eq, List.drop_append_of_le_length (by rw [hAl]; omega),
      List.take_append_of_le_length (by rw [List.length_drop, hAl]; omega)]
    unfold bytesRepeat
    rw [List.drop_replicate, List.take_replicate, Nat.min_eq_left (by omega)]
  rw [e0] at hb0
  rw [e1] at hb1
  refine ⟨c, hc, ?_⟩
  have hstep2 : DecryptPrependOracle.findPos c bl.BlockSize c.length (0 + bl.BlockSize)
      [(bl.Encrypt (bytesRepeat 65 bl.BlockSize), 0)] = some 0 := by
    obtain ⟨f, hf⟩ : ∃ f, c.length = f + 1 := ⟨c.length - 1, by omega⟩
    rw [hf]
    unfold DecryptPrependOracle.findPos
    rw [if_pos (by omega), Nat.zero_add, hb1, Option.some_bind]
    simp [List.lookup]
  unfold DecryptPrependOracle.findPos
  rw [if_pos (by omega), hb0, Option.some_bind]
  simp only [List.lookup]
  exact hstep2

/-- C24 (code defect). With the empty prefix, which `NewPrependECBOracle` can
draw, `DecryptPrependOracle` does not complete: the first loop ends with
`pos = 0`, the block `ciphertext[pos-bs : pos]` before the first controlled
block does not exist, and the slice expression `[pos-bs : pos]` of the second
loop is out of bounds. -/
theorem DecryptPrependOracle_panics_on_empty_prefix (bl : Block) (hwf : bl.WF)
    (secret : List Nat) (hs : IsBytes secret)
    (hfind : findBlockSize (NewPrependECBOracle bl [] secret) = some bl.BlockSize) :
    ∃ c, NewPrependECBOracle bl [] secret (bytesRepeat 65 (bl.BlockSize * 3)) = some c
      ∧ DecryptPrependOracle.findPos c bl.BlockSize (c.length + 1) 0 [] = some 0
      ∧ DecryptPrependOracle.findNeeded (NewPrependECBOracle bl [] secret) c bl.BlockSize 0
          bl.BlockSize 0 = none
      ∧ DecryptPrependOracle (NewPrependECBOracle bl [] secret) = none := by
  have hpos := hwf.pos
  have hbs : bl.BlockSize < 256 := by
    rcases findBlockSize_loop_range _ 61 3 _ hfind with h | h
    · rw [h] at hpos; cases hpos
    · exact Nat.lt_trans h.2 (by decide)
  obtain ⟨c, hc, hp⟩ := DecryptPrependOracle_findPos_zero bl hwf hbs secret hs
  obtain ⟨q, hq, _⟩ := NewAppendECBOracle_query bl hwf hbs secret (bytesRepeat 65 0) hs
    (isBytes_replicate _ (by decide))
  have hneed : DecryptPrependOracle.findNeeded (NewPrependECBOracle bl [] secret) c
      bl.BlockSize 0 bl.BlockSize 0 = none := by
    obtain ⟨n, hn⟩ : ∃ n, bl.BlockSize = n + 1 := ⟨bl.BlockSize - 1, by omega⟩
    rw [hn]
    unfold DecryptPrependOracle.findNeeded
    rw [NewPrependECBOracle_nil, ← hn, hq, Option.some_bind, if_pos hpos]
  refine ⟨c, hc, hp, hneed, ?_⟩
  unfold DecryptPrependOracle
  rw [hfind, Option.some_bind, if_neg (Nat.pos_iff_ne_zero.1 hpos), hc, Option.some_bind, hp,
    Option.some_bind, hneed]
  rfl

theorem DecryptPrependOracle_panics_on_empty_prefix_witness :
    (xorBlock 3 90).WF ∧ IsBytes [104, 105]
    ∧ findBlockSize (NewPrependECBOracle (xorBlock 3 90) [] [104, 105]) = some 3
    ∧ ∃ c, NewPrependECBOracle (xorBlock 3 90) [] [104, 105]
          (bytesRepeat 65 ((xorBlock 3 90).BlockSize * 3)) = some c
      ∧ DecryptPrependOracle.findPos c (xorBlock 3 90).BlockSize (c.length + 1) 0 [] = some 0
      ∧ DecryptPrependOracle.findNeeded (NewPrependECBOracle (xorBlock 3 90) [] [104, 105]) c
          (xorBlock 3 90).BlockSize 0 (xorBlock 3 90).BlockSize 0 = none
      ∧ DecryptPrependOracle (NewPrependECBOracle (xorBlock 3 90) [] [104, 105]) = none :=
  ⟨xorBlock_wf 3 90 (by decide) (by decide), by decide, by decide,
    DecryptPrependOracle_panics_on_empty_prefix (xorBlock 3 90)
      (xorBlock_wf 3 90 (by decide) (by decide)) [104, 105] (by decide) (by decide)⟩

/-! ## `DecryptAppendOracle` at an index where no candidate matches -/

/-- Later iterations of the main loop of `DecryptAppendOracle` leave the bytes
before their index as they are. -/
theorem DecryptAppendOracle_loop_frame (oracle : List Nat → Option (List Nat)) (bs : Nat) :
    ∀ (n i : Nat) (res out : List Nat),
      DecryptAppendOracle.loop oracle bs n i res = some out →
      ∀ j, j < i → out[j]? = res[j]? := by
  intro n
  induction n with
  | zero =>
    intro i res out h j _
    have : res = out := Option.some.inj h
    rw [this]
  | succ n ih =>
    intro i res out h j hj
    have hset : ∀ b : Nat, (res.set i b)[j]? = res[j]? := fun b =>
      List.getElem?_set_ne (Nat.ne_of_gt hj)
    rw [DecryptAppendOracle_loop_succ] at h
    by_cases hc : i / bs = 0
    · rw [if_pos hc] at h
      simp only [Option.bind_eq_some] at h
      obtain ⟨known, _, m, _, c, _, key, _, h⟩ := h
      cases hl : m.lookup key with
      | none =>
        rw [hl] at h
        exact ih (i + 1) res out h j (Nat.lt_succ_of_lt hj)
      | some b =>
        rw [hl] at h
        rw [ih (i + 1) (res.set i b) out h j (Nat.lt_succ_of_lt hj), hset]
    · rw [if_neg hc] at h
      simp only [Option.bind_eq_some] at h
      obtain ⟨first, _, b, _, h⟩ := h
      rw [ih (i + 1) (res.set i b) out h j (Nat.lt_succ_of_lt hj), hset]

/-- Every entry of the map built by `constructFirstMap` is an entry of the
initial map or the first cipher block of a candidate query. -/
theorem constructFirstMap_mem (oracle : List Nat → Option (List Nat)) (bs : Nat)
    (src : List Nat) :
    ∀ (n c0 : Nat) (acc M : List (List Nat × Nat)),
      DecryptAppendOracle.constructFirstMap oracle bs src n c0 acc = some M →
      ∀ p, p ∈ M → p ∈ acc ∨ ∃ c q, c0 ≤ c ∧ c < c0 + n
        ∧ oracle (src ++ [c % 256]) = some q ∧ sliceTo q bs = some p.1 := by
  intro n
  induction n with
  | zero =>
    intro c0 acc M h p hp
    have : acc = M := Option.some.inj h
    rw [this]
    exact Or.inl hp
  | succ n ih =>
    intro c0 acc M h p hp
    unfold DecryptAppendOracle.constructFirstMap at h
    simp only [Option.bind_eq_some] at h
    obtain ⟨q, hq, key, hkey, h⟩ := h
    rcases ih (c0 + 1) _ M h p hp with hmem | ⟨c, q1, h1, h2, h3, h4⟩
    · rcases List.mem_cons.1 hmem with he | hmem
      · refine Or.inr ⟨c0, q, Nat.le_refl _, by omega, hq, ?_⟩
        rw [he]
        exact hkey
      · exact Or.inl hmem
    · exact Or.inr ⟨c, q1, by omega, by omega, h3, h4⟩

/-- The map of `constructFirstMap` is built whenever every candidate query
succeeds. -/
theorem constructFirstMap_some (oracle : List Nat → Option (List Nat)) (bs : Nat)
    (src : List Nat) :
    ∀ (n c0 : Nat) (acc : List (List Nat × Nat)),
      (∀ c, c0 ≤ c → c < c0 + n →
        ∃ q a, oracle (src ++ [c % 256]) = some q ∧ sliceTo q bs = some a) →
      ∃ M, DecryptAppendOracle.constructFirstMap oracle bs src n c0 acc = some M := by
  intro n
  induction n with
  | zero => intro c0 acc _; exact ⟨acc, rfl⟩
  | succ n ih =>
    intro c0 acc h
    obtain ⟨q, a, hq, ha⟩ := h c0 (Nat.le_refl _) (by omega)
    unfold DecryptAppendOracle.constructFirstMap
    rw [hq, Option.some_bind, ha, Option.some_bind]
    exact ih (c0 + 1) _ (fun c h1 h2 => h c (by omega) (by omega))

/-- When no candidate passes the comparison of `findNext`, it returns 0. -/
theorem findNext_no_match (oracle : List Nat → Option (List Nat)) (bs : Nat)
    (first pattern : List Nat) (current : Nat) :
    ∀ (n c0 : Nat),
      (∀ c, c0 ≤ c → c < c0 + n →
        ∃ q a t, oracle ((first ++ [c % 256]) ++ pattern) = some q ∧ sliceTo q bs = some a
          ∧ slice q (current * bs + bs) (current * bs + bs + bs) = some t ∧ a ≠ t) →
      DecryptAppendOracle.findNext oracle bs first pattern current n c0 = some 0 := by
  intro n
  induction n with
  | zero => intro c0 _; rfl
  | succ n ih =>
    intro c0 h
    obtain ⟨q, a, t, hq, ha, ht, hne⟩ := h c0 (Nat.le_refl _) (by omega)
    unfold DecryptAppendOracle.findNext
    rw [hq, Option.some_bind]
    simp only [ha, ht, Option.some_bind]
    rw [if_neg hne]
    exact ih (c0 + 1) (fun c h1 h2 => h c (by omega) (by omega))

/-- C22 (amended). At a byte index `i` at which no candidate in `0..127` matches
the reference cipher block, the iteration of the main loop of
`DecryptAppendOracle` leaves the byte 0 at index `i`: in the first block the
byte keeps the 0 of the initial buffer, in a later block it is set to the 0 that
`findNext` returns; it is not set to the filler length.  Later iterations do
not change it. -/
theorem DecryptAppendOracle_no_match_zero (oracle : List Nat → Option (List Nat))
    (bs n i : Nat) (res : List Nat) (h0 : res[i]? = some 0)
    (hno : ∀ c, c < 128 → candidateMatches oracle bs i res c = some false) :
    ∃ res1, DecryptAppendOracle.loop oracle bs (n + 1) i res
        = DecryptAppendOracle.loop oracle bs n (i + 1) res1
      ∧ res1.length = res.length ∧ res1[i]? = some 0
      ∧ ∀ out, DecryptAppendOracle.loop oracle bs n (i + 1) res1 = some out →
          out[i]? = some 0 := by
  have hil : i < res.length := by
    rcases Nat.lt_or_ge i res.length with h | h
    · exact h
    · rw [List.getElem?_eq_none h] at h0; cases h0
  have hframe : ∀ res1 : List Nat, res1[i]? = some 0 →
      ∀ out, DecryptAppendOracle.loop oracle bs n (i + 1) res1 = some out → out[i]? = some 0 := by
    intro res1 h1 out ho
    rw [DecryptAppendOracle_loop_frame oracle bs n (i + 1) res1 out ho i (Nat.lt_succ_self i)]
    exact h1
  rw [DecryptAppendOracle_loop_succ]
  by_cases hc : i / bs = 0
  · rw [if_pos hc]
    have hno1 : ∀ c, c < 128 → ∃ known q a ref key, sliceTo res i = some known
        ∧ oracle ((bytesRepeat 65 (mod ((bs : Int) - (i : Int) - 1) (bs : Int)).toNat ++ known)
            ++ [c % 256]) = some q
        ∧ sliceTo q bs = some a
        ∧ oracle (bytesRepeat 65 (mod ((bs : Int) - (i : Int) - 1) (bs : Int)).toNat) = some ref
        ∧ sliceTo ref bs = some key ∧ a ≠ key := by
      intro c hc128
      have h := hno c hc128
      unfold candidateMatches at h
      rw [if_pos hc] at h
      simp only [Option.bind_eq_some, Option.some.injEq, decide_eq_false_iff_not] at h
      obtain ⟨known, h1, q, h2, a, h3, ref, h4, key, h5, h6⟩ := h
      exact ⟨known, q, a, ref, key, h1, h2, h3, h4, h5, h6⟩
    obtain ⟨known, _, _, ref, key, hk, _, _, href, hkey, _⟩ := hno1 0 (by decide)
    obtain ⟨M, hM⟩ := constructFirstMap_some oracle bs
      (bytesRepeat 65 (mod ((bs : Int) - (i : Int) - 1) (bs : Int)).toNat ++ known) 128 0 []
      (by
        intro c _ hc128
        obtain ⟨known1, q, a, _, _, h1, h2, h3, _⟩ := hno1 c (by omega)
        rw [hk] at h1
        rw [← Option.some.inj h1] at h2
        exact ⟨q, a, h2, h3⟩)
    have hlook : M.lookup key = none := by
      cases hl : M.lookup key with
      | none => rfl
      | some b =>
        exfalso
        rcases constructFirstMap_mem oracle bs _ 128 0 [] M hM (key, b) (lookup_mem M key b hl)
          with hmem | ⟨c, q, _, hc128, hq, hqk⟩
        · cases hmem
        · obtain ⟨known1, q1, a1, ref1, key1, h1, h2, h3, h4, h5, h6⟩ := hno1 c (by omega)
          rw [hk] at h1
          rw [← Option.some.inj h1, hq] at h2
          rw [← Option.some.inj h2, hqk] at h3
          rw [href] at h4
          rw [← Option.some.inj h4, hkey] at h5
          exact h6 ((Option.some.inj h3).symm.trans (Option.some.inj h5))
    rw [hk, Option.some_bind, hM, Option.some_bind, href, Option.some_bind, hkey,
      Option.some_bind]
    simp only [hlook]
    exact ⟨res, rfl, rfl, h0, hframe res h0⟩
  · rw [if_neg hc]
    have hno1 : ∀ c, c < 128 → ∃ first q a t, slice res (i - bs + 1) i = some first
        ∧ oracle ((first ++ [c % 256])
            ++ bytesRepeat 65 (mod ((bs : Int) - (i : Int) - 1) (bs : Int)).toNat) = some q
        ∧ sliceTo q bs = some a
        ∧ slice q (i / bs * bs + bs) (i / bs * bs + bs + bs) = some t ∧ a ≠ t := by
      intro c hc128
      have h := hno c hc128
      unfold candidateMatches at h
      rw [if_neg hc] at h
      simp only [Option.bind_eq_some, Option.some.injEq, decide_eq_false_iff_not] at h
      obtain ⟨first, h1, q, h2, a, h3, t, h4, h5⟩ := h
      exact ⟨first, q, a, t, h1, h2, h3, h4, h5⟩
    obtain ⟨first, _, _, _, hf, _⟩ := hno1 0 (by decide)
    have hfn := findNext_no_match oracle bs first
      (bytesRepeat 65 (mod ((bs : Int) - (i : Int) - 1) (bs : Int)).toNat) (i / bs) 128 0
      (by
        intro c _ hc128
        obtain ⟨first1, q, a, t, h1, h2, h3, h4, h5⟩ := hno1 c (by omega)
        rw [hf] at h1
        rw [← Option.some.inj h1] at h2
        exact ⟨q, a, t, h2, h3, h4, h5⟩)
    rw [hf, Option.some_bind, hfn, Option.some_bind]
    have hs : (res.set i 0)[i]? = some 0 := List.getElem?_set_self hil
    exact ⟨res.set i 0, rfl, List.length_set _ _ _, hs, hframe _ hs⟩

set_option maxRecDepth 100000 in
theorem DecryptAppendOracle_no_match_zero_witness :
    (make 3)[0]? = some 0
    ∧ (∀ c, c < 128 →
        candidateMatches (NewAppendECBOracle (xorBlock 3 90) [200, 105]) 3 0 (make 3) c
          = some false)
    ∧ ∃ res1, DecryptAppendOracle.loop (NewAppendECBOracle (xorBlock 3 90) [200, 105]) 3 (2 + 1) 0
          (make 3)
        = DecryptAppendOracle.loop (NewAppendECBOracle (xorBlock 3 90) [200, 105]) 3 2 (0 + 1) res1
      ∧ res1.length = (make 3).length ∧ res1[0]? = some 0
      ∧ ∀ out, DecryptAppendOracle.loop (NewAppendECBOracle (xorBlock 3 90) [200, 105]) 3 2
          (0 + 1) res1 = some out → out[0]? = some 0 :=
  ⟨rfl, by decide,
    DecryptAppendOracle_no_match_zero (NewAppendECBOracle (xorBlock 3 90) [200, 105]) 3 2 0
      (make 3) rfl (by decide)⟩

set_option maxRecDepth 100000 in
/-- C22, as stated, fails: for the append oracle on the byte-wise XOR cipher of
block size 3 and the secret `200, 105`, no candidate in `0..127` matches at
index 0, the filler length `(3 - 0 - 1) mod 3` is 2, and the byte recovered at
index 0 is 0. -/
theorem DecryptAppendOracle_no_match_not_filler :
    (∀ c, c < 128 →
        candidateMatches (NewAppendECBOracle (xorBlock 3 90) [200, 105]) 3 0 (make 3) c
          = some false)
    ∧ (mod ((3 : Int) - (0 : Int) - 1) (3 : Int)).toNat = 2
    ∧ ∃ out, DecryptAppendOracle (NewAppendECBOracle (xorBlock 3 90) [200, 105]) = some out
      ∧ out[0]? = some 0 ∧ out[0]? ≠ some 2 :=
  ⟨by decide, by decide, [0, 0, 0], by decide, by decide, by decide⟩

/-! ## Key size (`averageChunks`, `FindXorKeySize`) -/

theorem excessBits_le : ∀ (fuel q U : Nat), q / 2 ^ U < 2 ^ 53 → excessBits fuel q ≤ U := by
  intro fuel
  induction fuel with
  | zero => intro q U _; exact Nat.zero_le _
  | succ fuel ih =>
    intro q U h
    unfold excessBits
    by_cases hq : q < 2 ^ 53
    · rw [if_pos hq]; exact Nat.zero_le _
    · rw [if_neg hq]
      cases U with
      | zero =>
        rw [Nat.pow_zero, Nat.div_one] at h
        exact absurd h hq
      | succ U =>
        have h1 : q / 2 / 2 ^ U < 2 ^ 53 := by
          rw [Nat.div_div_eq_div_mul, ← Nat.pow_succ']
          exact h
        exact Nat.succ_le_succ (ih (q / 2) U h1)

theorem two_pow_excessBits_le : ∀ (fuel q : Nat), 2 ^ excessBits fuel q ≤ max q 1 := by
  intro fuel
  induction fuel with
  | zero =>
    intro q
    unfold excessBits
    exact le_max_right _ _
  | succ fuel ih =>
    intro q
    unfold excessBits
    by_cases hq : q < 2 ^ 53
    · rw [if_pos hq]
      exact le_max_right _ _
    · rw [if_neg hq, Nat.pow_succ]
      have h1 := ih (q / 2)
      have h2 : 2 ^ 53 ≤ q := Nat.le_of_not_lt hq
      have h3 : 1 ≤ q / 2 := by omega
      rw [max_eq_left h3] at h1
      have h4 : 2 ^ excessBits fuel (q / 2) * 2 ≤ q := by omega
      exact h4.trans (le_max_left _ _)

/-- An integer below `2^53`, in any unit `2^-U`, is a `float64`: rounding leaves
it as it is. -/
theorem roundFloat64_exact (s U : Nat) (hs : s < 2 ^ 53) :
    roundFloat64 (s * 2 ^ U) 1 = s * 2 ^ U := by
  have he : excessBits (s * 2 ^ U / 1) (s * 2 ^ U / 1) ≤ U :=
    excessBits_le _ _ U (by rw [Nat.div_one, Nat.mul_div_cancel _ (Nat.two_pow_pos U)]; exact hs)
  unfold roundFloat64
  dsimp only
  generalize excessBits (s * 2 ^ U / 1) (s * 2 ^ U / 1) = e at he ⊢
  have hdvd : 2 ^ e ∣ s * 2 ^ U := Dvd.dvd.mul_left (Nat.pow_dvd_pow 2 he) s
  rw [Nat.one_mul, Nat.mod_eq_zero_of_dvd hdvd, if_pos (by simp), Nat.div_mul_cancel hdvd]

/-- Rounding at most doubles a quotient, up to one unit. -/
theorem roundFloat64_le (num den : Nat) : roundFloat64 num den ≤ 2 * (num / den) + 1 := by
  have h2 := two_pow_excessBits_le (num / den) (num / den)
  unfold roundFloat64
  dsimp only
  generalize excessBits (num / den) (num / den) = e at h2 ⊢
  have hm : num / (den * 2 ^ e) * 2 ^ e ≤ num / den := by
    rw [← Nat.div_div_eq_div_mul]
    exact Nat.div_mul_le_self _ _
  have hmax : max (num / den) 1 ≤ num / den + 1 :=
    max_le (Nat.le_succ _) (Nat.le_add_left _ _)
  have h3 : (num / (den * 2 ^ e) + 1) * 2 ^ e ≤ 2 * (num / den) + 1 := by
    rw [Nat.add_mul, Nat.one_mul]
    omega
  split
  · omega
  · split
    · omega
    · exact h3

theorem float64OfInt_exact (n : Nat) (hn : n < 2 ^ 53) : float64OfInt n = n * 2 ^ 128 :=
  roundFloat64_exact n 128 hn

theorem addFloat64_exact (a b : Nat) (h : a + b < 2 ^ 53) :
    addFloat64 (a * 2 ^ 128) (b * 2 ^ 128) = (a + b) * 2 ^ 128 := by
  unfold addFloat64
  rw [← Nat.add_mul]
  exact roundFloat64_exact _ 128 h

theorem float64OfInt_le (n : Nat) : float64OfInt n ≤ 2 * (n * 2 ^ 128) + 1 := by
  have h := roundFloat64_le (n * 2 ^ 128) 1
  rw [Nat.div_one] at h
  exact h

theorem divFloat64_le (a b : Nat) : divFloat64 a b ≤ 2 * (a * 2 ^ 128) + 1 := by
  have h := roundFloat64_le (a * 2 ^ 128) b
  have h1 := Nat.div_le_self (a * 2 ^ 128) b
  unfold divFloat64
  omega

theorem chunkDistanceTotal_succ (src : List Nat) (L k : Nat) :
    chunkDistanceTotal src L (k + 1)
      = chunkDistanceTotal src L k
        + (ComputeHamming (window src L 0) (window src L (k + 1))).getD 0 := by
  unfold chunkDistanceTotal
  rw [List.range_succ, List.map_append, List.sum_append, List.map_singleton, List.sum_singleton]

theorem window_length (src : List Nat) (size i : Nat) (h : (i + 1) * size ≤ src.length) :
    (window src size i).length = size := by
  unfold window
  rw [List.length_take, List.length_drop]
  have : (i + 1) * size = i * size + size := by ring
  omega

theorem OnesCount8_le (b : Nat) : OnesCount8 b ≤ 8 := by
  unfold OnesCount8
  exact (List.countP_le_length _).trans (by rw [List.length_range])

theorem popcount_sum_le (r : List Nat) : (r.map OnesCount8).sum ≤ 8 * r.length := by
  induction r with
  | nil => exact Nat.le_refl _
  | cons b r ih =>
    rw [List.map_cons, List.sum_cons, List.length_cons]
    have := OnesCount8_le b
    omega

theorem ComputeHamming_le (x y : List Nat) : (ComputeHamming x y).getD 0 ≤ 8 * x.length := by
  unfold ComputeHamming XorSlice
  by_cases h : y.length = 0 ∧ x.length ≠ 0
  · rw [if_pos h]
    exact Nat.zero_le _
  · rw [if_neg h, Option.some_bind, Option.getD_some, ComputeHamming_loop_eq, Nat.zero_add]
    exact (popcount_sum_le _).trans (by rw [XorSlice_loop_length])

theorem chunkDistanceTotal_le (src : List Nat) (L : Nat) :
    ∀ k : Nat, chunkDistanceTotal src L k ≤ 8 * (k * L) := by
  intro k
  induction k with
  | zero =>
    have h0 : chunkDistanceTotal src L 0 = 0 := rfl
    rw [h0]
    exact Nat.zero_le _
  | succ k ih =>
    rw [chunkDistanceTotal_succ]
    have h1 : (ComputeHamming (window src L 0) (window src L (k + 1))).getD 0 ≤ 8 * L :=
      (ComputeHamming_le _ _).trans
        (Nat.mul_le_mul_left 8 (by unfold window; rw [List.length_take]; exact Nat.min_le_left _ _))
    have h2 : (k + 1) * L = k * L + L := by ring
    omega

/-- The sum of the distances of the full chunks is below `2^53` for a buffer of
fewer than `2^50` bytes. -/
theorem chunkDistanceTotal_lt (src : List Nat) (L k : Nat) (hsmall : src.length < 2 ^ 50)
    (hk : k * L ≤ src.length) : chunkDistanceTotal src L k < 2 ^ 53 := by
  have h := chunkDistanceTotal_le src L k
  omega

/-- The loop of `averageChunks` from index `idx` on, for a buffer of fewer than
`2^50` bytes, is left at the index `k = floor(len(src)/size) - 1`, with the sum
of the distances of the chunks `1 .. k` in `avg`; no addition rounds. -/
theorem averageChunks_loop_eq (src : List Nat) (size : Nat) (hs : 1 ≤ size)
    (hsmall : src.length < 2 ^ 50) :
    ∀ (n idx i : Nat), idx ≤ src.length / size - 1 →
      src.length / size - 1 + 1 ≤ idx + n →
      averageChunks.loop src size n idx i (chunkDistanceTotal src size idx * 2 ^ 128)
        = some (src.length / size - 1,
            chunkDistanceTotal src size (src.length / size - 1) * 2 ^ 128) := by
  intro n
  induction n with
  | zero =>
    intro idx i h1 h2
    exact absurd h2 (by omega)
  | succ n ih =>
    intro idx i h1 h2
    unfold averageChunks.loop
    by_cases hbr : size * (idx + 2) > src.length
    · rw [if_pos hbr]
      have hk : idx = src.length / size - 1 := by
        have h3 : src.length / size < idx + 2 :=
          (Nat.div_lt_iff_lt_mul hs).2 (by rw [Nat.mul_comm]; exact hbr)
        omega
      rw [← hk]
    · rw [if_neg hbr]
      have hle : size * (idx + 2) ≤ src.length := Nat.le_of_not_lt hbr
      have hle2 : (idx + 1 + 1) * size ≤ src.length := by rw [Nat.mul_comm]; exact hle
      have hle1 : (idx + 1) * size ≤ src.length := by
        have : (idx + 1 + 1) * size = (idx + 1) * size + size := by ring
        omega
      have hsz : size ≤ src.length := by
        have : size * 1 ≤ size * (idx + 2) := Nat.mul_le_mul_left size (by omega)
        omega
      have hdiv : idx + 2 ≤ src.length / size := (Nat.le_div_iff_mul_le hs).2 hle2
      have e0 : sliceTo src size = some (window src size 0) := by
        unfold sliceTo window
        rw [if_pos hsz, Nat.zero_mul, List.drop_zero]
      have e1 : slice src (size * (idx + 1)) (size * (idx + 2))
          = some (window src size (idx + 1)) := by
        rw [Nat.mul_comm size (idx + 1), Nat.mul_comm size (idx + 2)]
        exact slice_window src size (idx + 1) hs (by omega)
      have hl0 : (window src size 0).length = size :=
        window_length src size 0 (by rw [Nat.zero_add, Nat.one_mul]; exact hsz)
      have hl1 : (window src size (idx + 1)).length = size := window_length src size _ hle2
      obtain ⟨h, e2⟩ : ∃ h, ComputeHamming (window src size 0) (window src size (idx + 1))
          = some h := ⟨_, ComputeHamming_eq _ _ (hl0.trans hl1.symm)⟩
      have hT := chunkDistanceTotal_succ src size idx
      rw [e2, Option.getD_some] at hT
      have hlt := chunkDistanceTotal_lt src size (idx + 1) hsmall hle1
      rw [e0, Option.some_bind, e1, Option.some_bind, e2, Option.some_bind,
        float64OfInt_exact h (by omega), addFloat64_exact _ _ (by omega), ← hT]
      exact ih (idx + 1) idx (by omega) (by omega)

/-- Result of `averageChunks` for a buffer of fewer than `2^50` bytes: NaN when
there are fewer than two full chunks, and otherwise the `float64` quotient of
the sum of the distances of the first chunk to the others by their number. -/
theorem averageChunks_eq (src : List Nat) (size : Nat) (hs : 1 ≤ size)
    (hsmall : src.length < 2 ^ 50) :
    averageChunks src size
      = some (if src.length / size - 1 = 0 then none
          else some (divFloat64
            (float64OfInt (chunkDistanceTotal src size (src.length / size - 1)))
            (float64OfInt (src.length / size - 1)))) := by
  have hKL : (src.length / size - 1) * size ≤ src.length :=
    (Nat.mul_le_mul_right size (Nat.sub_le _ _)).trans (Nat.div_mul_le_self _ _)
  have hlt := chunkDistanceTotal_lt src size (src.length / size - 1) hsmall hKL
  have h0 : chunkDistanceTotal src size 0 * 2 ^ 128 = 0 := by
    rw [show chunkDistanceTotal src size 0 = 0 from rfl, Nat.zero_mul]
  have hloop : averageChunks.loop src size src.length 0 0 0
      = some (src.length / size - 1,
          chunkDistanceTotal src size (src.length / size - 1) * 2 ^ 128) := by
    rcases Nat.eq_zero_or_pos src.length with hz | hp
    · rw [hz, Nat.zero_div, Nat.zero_sub, h0]
      rfl
    · have hd := Nat.div_le_self src.length size
      have h := averageChunks_loop_eq src size hs hsmall src.length 0 0 (Nat.zero_le _)
        (by omega)
      rw [h0] at h
      exact h
  unfold averageChunks
  rw [hloop, Option.some_bind, float64OfInt_exact _ hlt]
  by_cases hk : src.length / size - 1 = 0
  · rw [if_pos hk, if_pos hk]
  · rw [if_neg hk, if_neg hk]

/-- The `float64` score of a size is below `math.MaxFloat64`, for a buffer of
fewer than `2^50` bytes. -/
theorem float64Score_lt_max (src : List Nat) (L : Nat)
    (hsmall : src.length < 2 ^ 50) : float64Score src L < MaxFloat64 := by
  have hKL : (src.length / L - 1) * L ≤ src.length :=
    (Nat.mul_le_mul_right L (Nat.sub_le _ _)).trans (Nat.div_mul_le_self _ _)
  have hlt := chunkDistanceTotal_lt src L (src.length / L - 1) hsmall hKL
  have h1 := float64OfInt_exact _ hlt
  have h2 := divFloat64_le (float64OfInt (chunkDistanceTotal src L (src.length / L - 1)))
    (float64OfInt (src.length / L - 1))
  have h3 := divFloat64_le
    (divFloat64 (float64OfInt (chunkDistanceTotal src L (src.length / L - 1)))
      (float64OfInt (src.length / L - 1))) (float64OfInt L)
  unfold float64Score MaxFloat64
  rw [h1] at h2 h3 ⊢
  omega

theorem two_chunks_iff (n L : Nat) (hL : 1 ≤ L) : n / L - 1 ≠ 0 ↔ 2 * L ≤ n := by
  rw [← Nat.le_div_iff_mul_le hL]
  omega

/-- The loop of `FindXorKeySize` over the sizes `size .. 39`.  Before size
`size`, either no size had two full chunks and `low` is still `MaxFloat64`, or
`result` is the first size before `size` whose `float64` score is minimal
among the sizes before `size` with two full chunks, and `low` is that distance.
The same holds, for all sizes up to 39, of what the loop returns. -/
theorem FindXorKeySize_loop_min (src : List Nat) (hsmall : src.length < 2 ^ 50) :
    ∀ (n size result : Nat) (low : Nat), 2 ≤ size →
      ((low = MaxFloat64 ∧ ∀ M, 2 ≤ M → M < size → ¬ 2 * M ≤ src.length)
        ∨ (2 ≤ result ∧ result < size ∧ 2 * result ≤ src.length
          ∧ low = float64Score src result
          ∧ (∀ M, 2 ≤ M → M < size → 2 * M ≤ src.length →
              float64Score src result ≤ float64Score src M)
          ∧ ∀ M, 2 ≤ M → M < result → 2 * M ≤ src.length →
              float64Score src result < float64Score src M)) →
      ∃ L, FindXorKeySize.loop src n size result low = some L
        ∧ ((∀ M, 2 ≤ M → M < size + n → ¬ 2 * M ≤ src.length)
          ∨ (2 ≤ L ∧ L < size + n ∧ 2 * L ≤ src.length
            ∧ (∀ M, 2 ≤ M → M < size + n → 2 * M ≤ src.length →
                float64Score src L ≤ float64Score src M)
            ∧ ∀ M, 2 ≤ M → M < L → 2 * M ≤ src.length →
                float64Score src L < float64Score src M)) := by
  intro n
  induction n with
  | zero =>
    intro size result low _ hinv
    refine ⟨result, rfl, ?_⟩
    rcases hinv with ⟨_, h⟩ | ⟨h1, h2, h3, _, h5, h6⟩
    · exact Or.inl h
    · exact Or.inr ⟨h1, h2, h3, h5, h6⟩
  | succ n ih =>
    intro size result low hs hinv
    have hs1 : 1 ≤ size := by omega
    have e : size + (n + 1) = size + 1 + n := by omega
    rw [e]
    unfold FindXorKeySize.loop
    rw [averageChunks_eq src size hs1 hsmall, Option.some_bind]
    by_cases hk : src.length / size - 1 = 0
    · -- fewer than two full chunks: the score is NaN
      rw [if_pos hk]
      have hnv : ¬ 2 * size ≤ src.length := fun h => (two_chunks_iff _ _ hs1).2 h hk
      refine ih (size + 1) result low (by omega) ?_
      rcases hinv with ⟨h0, h⟩ | ⟨h1, h2, h3, h4, h5, h6⟩
      · refine Or.inl ⟨h0, ?_⟩
        intro M hM2 hMs
        rcases Nat.lt_succ_iff_lt_or_eq.1 hMs with h' | h'
        · exact h M hM2 h'
        · rw [h']; exact hnv
      · refine Or.inr ⟨h1, Nat.lt_succ_of_lt h2, h3, h4, ?_, h6⟩
        intro M hM2 hMs hMv
        rcases Nat.lt_succ_iff_lt_or_eq.1 hMs with h' | h'
        · exact h5 M hM2 h' hMv
        · rw [h'] at hMv; exact absurd hMv hnv
    · rw [if_neg hk]
      have hv : 2 * size ≤ src.length := (two_chunks_iff _ _ hs1).1 hk
      have hsc : divFloat64
            (divFloat64 (float64OfInt (chunkDistanceTotal src size (src.length / size - 1)))
              (float64OfInt (src.length / size - 1)))
            (float64OfInt size)
          = float64Score src size := rfl
      simp only [hsc]
      by_cases hlt : float64Score src size < low
      · rw [if_pos hlt]
        refine ih (size + 1) size (float64Score src size) (by omega) ?_
        refine Or.inr ⟨hs, Nat.lt_succ_self _, hv, rfl, ?_, ?_⟩
        · intro M hM2 hMs hMv
          rcases Nat.lt_succ_iff_lt_or_eq.1 hMs with h' | h'
          · rcases hinv with ⟨_, h⟩ | ⟨_, _, _, h4, h5, _⟩
            · exact absurd hMv (h M hM2 h')
            · rw [h4] at hlt
              exact le_of_lt (lt_of_lt_of_le hlt (h5 M hM2 h' hMv))
          · rw [h']
        · intro M hM2 hMs hMv
          rcases hinv with ⟨_, h⟩ | ⟨_, _, _, h4, h5, _⟩
          · exact absurd hMv (h M hM2 hMs)
          · rw [h4] at hlt
            exact lt_of_lt_of_le hlt (h5 M hM2 hMs hMv)
      · rw [if_neg hlt]
        refine ih (size + 1) result low (by omega) ?_
        rcases hinv with ⟨h0, _⟩ | ⟨h1, h2, h3, h4, h5, h6⟩
        · rw [h0] at hlt
          exact absurd (float64Score_lt_max src size hsmall) hlt
        · refine Or.inr ⟨h1, Nat.lt_succ_of_lt h2, h3, h4, ?_, h6⟩
          intro M hM2 hMs hMv
          rcases Nat.lt_succ_iff_lt_or_eq.1 hMs with h' | h'
          · exact h5 M hM2 h' hMv
          · rw [h', ← h4]
            exact le_of_not_lt hlt

/-- C16 (amended). For every `src` of at least 4 and fewer than `2^50` bytes:
`FindXorKeySize(src)` returns a length `L` with `2 <= L < 40` and
`2*L <= len(src)` whose `float64` score is minimal among the lengths `M` with
`2 <= M < 40` and two full chunks (`2*M <= len(src)`); the score of `M` is the
sum of `ComputeHamming(chunk 0, chunk c)` over `c = 1 .. floor(len(src)/M) - 1`
divided by the number of these chunks and then by `M`, each quotient rounded to
`float64`.  Every smaller such length has a strictly larger `float64` score, so
the first length with the minimal `float64` score is returned. -/
theorem FindXorKeySize_minimises_float64 (src : List Nat) (hlen : 4 ≤ src.length)
    (hsmall : src.length < 2 ^ 50) :
    ∃ L, FindXorKeySize src = some L ∧ 2 ≤ L ∧ L < 40 ∧ 2 * L ≤ src.length
      ∧ (∀ M, 2 ≤ M → M < 40 → 2 * M ≤ src.length →
          float64Score src L ≤ float64Score src M)
      ∧ ∀ M, 2 ≤ M → M < L → 2 * M ≤ src.length →
          float64Score src L < float64Score src M := by
  obtain ⟨L, hL, h⟩ := FindXorKeySize_loop_min src hsmall 38 2 0 MaxFloat64 (Nat.le_refl 2)
    (Or.inl ⟨rfl, fun M h2 hlt => absurd hlt (Nat.not_lt_of_le h2)⟩)
  rcases h with h | ⟨h1, h2, h3, h4, h5⟩
  · exact absurd hlen (h 2 (Nat.le_refl 2) (by decide))
  · exact ⟨L, hL, h1, h2, h3, h4, h5⟩

theorem FindXorKeySize_minimises_float64_witness :
    4 ≤ tieExample.length ∧ tieExample.length < 2 ^ 50
    ∧ ∃ L, FindXorKeySize tieExample = some L ∧ 2 ≤ L ∧ L < 40 ∧ 2 * L ≤ tieExample.length
      ∧ (∀ M, 2 ≤ M → M < 40 → 2 * M ≤ tieExample.length →
          float64Score tieExample L ≤ float64Score tieExample M)
      ∧ ∀ M, 2 ≤ M → M < L → 2 * M ≤ tieExample.length →
          float64Score tieExample L < float64Score tieExample M :=
  ⟨by decide, by decide, FindXorKeySize_minimises_float64 tieExample (by decide) (by decide)⟩

/-- C16 (counterexample). On the 24 bytes of `tieExample` the sizes 5 and 12
have the same normalised distance in exact arithmetic, `(10/3)/5 = 8/12`, and
`FindXorKeySize` returns 12 and not the smaller size 5: in `float64`, `10/3`
rounds up, so the score of 5 is one unit in the last place above that of 12. -/
theorem FindXorKeySize_float64_tie :
    FindXorKeySize tieExample = some 12
    ∧ 2 ≤ 5 ∧ 5 < 12 ∧ 2 * 5 ≤ tieExample.length
    ∧ normalizedDistance tieExample 5 = normalizedDistance tieExample 12
    ∧ float64Score tieExample 12 < float64Score tieExample 5 := by
  have h5 : chunkDistanceTotal tieExample 5 (tieExample.length / 5 - 1) = 10 := by decide
  have h12 : chunkDistanceTotal tieExample 12 (tieExample.length / 12 - 1) = 8 := by decide
  have hl : tieExample.length = 24 := rfl
  refine ⟨by decide!, by decide, by decide, by decide, ?_, by decide!⟩
  unfold normalizedDistance
  rw [h5, h12, hl]
  norm_num

/-! ## The CBC padding-oracle attack at a position with pad value at least 2 -/

/-- The XOR loop of `DecryptPaddingOracle`, byte by byte: the bytes of `src`
at the indices `prev-k-n+1 .. prev-k` are XORed with `out[index + (curr-prev)]
^ pad`, the others are left as they are. -/
theorem DecryptPaddingOracle_xorLoop_pointwise (out : List Nat) (prev curr pad : Nat)
    (hcp : prev ≤ curr) (hco : curr < out.length) :
    ∀ (n k : Nat) (src : List Nat), k + n ≤ prev + 1 → prev < src.length →
      ∃ r, DecryptPaddingOracle.xorLoop out prev curr pad n k src = some r
        ∧ r.length = src.length
        ∧ ∀ x, r[x]? = if prev + 1 ≤ x + (k + n) ∧ x + k ≤ prev then
              (src[x]?).map fun s => s ^^^ (out.getD (x + (curr - prev)) 0 ^^^ pad)
            else src[x]? := by
  intro n
  induction n with
  | zero =>
    intro k src _ _
    refine ⟨src, rfl, rfl, ?_⟩
    intro x
    rw [if_neg (by omega)]
  | succ n ih =>
    intro k src hk hps
    have hks : prev - k < src.length := by omega
    have hko : curr - k < out.length := by omega
    obtain ⟨r, hr, hrl, hrx⟩ := ih (k + 1)
      (src.set (prev - k) (src[prev - k] ^^^ (out[curr - k] ^^^ pad))) (by omega)
      (by rw [List.length_set]; exact hps)
    refine ⟨r, ?_, by rw [hrl, List.length_set], ?_⟩
    · unfold DecryptPaddingOracle.xorLoop
      rw [if_neg (by omega), List.getElem?_eq_getElem hks, List.getElem?_eq_getElem hko]
      exact hr
    · intro x
      rw [hrx x]
      by_cases hx : x = prev - k
      · subst hx
        have e1 : prev - k + (curr - prev) = curr - k := by omega
        rw [if_neg (by omega), if_pos (by omega), List.getElem?_set_self hks,
          List.getElem?_eq_getElem hks, Option.map_some', e1,
          List.getD_eq_getElem?_getD, List.getElem?_eq_getElem hko, Option.getD_some]
      · rw [List.getElem?_set_ne (fun h => hx h.symm)]
        by_cases hc : prev + 1 ≤ x + (k + (n + 1)) ∧ x + k ≤ prev
        · rw [if_pos hc, if_pos (by omega)]
        · rw [if_neg hc, if_neg (by omega)]

/-- Running the XOR loop twice with the same `out` restores `src`. -/
theorem DecryptPaddingOracle_xorLoop_restores (out : List Nat) (prev curr pad n : Nat)
    (src : List Nat) (hcp : prev ≤ curr) (hco : curr < out.length) (hn : n ≤ prev + 1)
    (hps : prev < src.length) :
    ∃ r, DecryptPaddingOracle.xorLoop out prev curr pad n 0 src = some r
      ∧ r.length = src.length
      ∧ (∀ x, r[x]? = if prev + 1 ≤ x + n ∧ x ≤ prev then
            (src[x]?).map fun s => s ^^^ (out.getD (x + (curr - prev)) 0 ^^^ pad)
          else src[x]?)
      ∧ DecryptPaddingOracle.xorLoop out prev curr pad n 0 r = some src := by
  obtain ⟨r, hr, hrl, hrx⟩ := DecryptPaddingOracle_xorLoop_pointwise out prev curr pad hcp hco
    n 0 src (by omega) hps
  obtain ⟨r2, hr2, hr2l, hr2x⟩ := DecryptPaddingOracle_xorLoop_pointwise out prev curr pad hcp
    hco n 0 r (by omega) (by rw [hrl]; exact hps)
  have hrx' : ∀ x, r[x]? = if prev + 1 ≤ x + n ∧ x ≤ prev then
        (src[x]?).map fun s => s ^^^ (out.getD (x + (curr - prev)) 0 ^^^ pad)
      else src[x]? := by
    intro x
    have h := hrx x
    simp only [Nat.zero_add, Nat.add_zero] at h
    exact h
  refine ⟨r, hr, hrl, hrx', ?_⟩
  rw [hr2]
  congr 1
  apply List.ext_getElem?
  intro x
  rw [hr2x x, hrx x]
  by_cases hc : prev + 1 ≤ x + (0 + n) ∧ x + 0 ≤ prev
  · rw [if_pos hc, if_pos hc, Option.map_map]
    cases src[x]? with
    | none => rfl
    | some s =>
      simp only [Option.map_some', Function.comp_apply, Nat.xor_cancel_right]
  · rw [if_neg hc, if_neg hc]

theorem xorBytes_getElem?_some (a b : List Nat) (x u v : Nat) (ha : a[x]? = some u)
    (hb : b[x]? = some v) : (xorBytes a b)[x]? = some (u ^^^ v) := by
  unfold xorBytes
  rw [List.getElem?_zipWith, ha, hb]

theorem isBytes_getD (l : List Nat) (h : IsBytes l) (n : Nat) : l.getD n 0 < 256 := by
  rw [List.getD_eq_getElem?_getD]
  cases hx : l[n]? with
  | none => exact (by decide : (0 : Nat) < 256)
  | some v => exact h v (List.getElem?_mem hx)

/-- The first `b + 3` blocks of a buffer, block by block. -/
theorem take_blocks (s : List Nat) (bs b : Nat) :
    s.take ((b + 3) * bs) = s.take bs ++ ((s.drop bs).take (b * bs)
      ++ ((s.drop ((b + 1) * bs)).take bs ++ (s.drop ((b + 2) * bs)).take bs)) := by
  have e : (b + 3) * bs = bs + (b * bs + (bs + bs)) := by ring
  have e1 : (b + 1) * bs = bs + b * bs := by ring
  have e2 : (b + 2) * bs = bs + b * bs + bs := by ring
  rw [e, e1, e2, List.take_add, List.take_add, List.take_add, List.drop_drop, List.drop_drop]

/-- Answer of the exact padding oracle on the first `b + 3` blocks of a buffer:
the last block of the decryption is the decryption of block `b + 2` XOR block
`b + 1`. -/
theorem exactPadCheck_blocks (bl : Block) (hwf : bl.WF) (iv s : List Nat) (b : Nat)
    (hiv : iv.length = bl.BlockSize) (hs : IsBytes s)
    (hlen : (b + 3) * bl.BlockSize ≤ s.length) :
    ∃ W, exactPadCheck bl iv (s.take ((b + 3) * bl.BlockSize))
      = some (wellFormedPKCS7
          (W ++ xorBytes (bl.Decrypt ((s.drop ((b + 2) * bl.BlockSize)).take bl.BlockSize))
            ((s.drop ((b + 1) * bl.BlockSize)).take bl.BlockSize)) bl.BlockSize) := by
  have e3 : (b + 3) * bl.BlockSize = b * bl.BlockSize + bl.BlockSize + bl.BlockSize
      + bl.BlockSize := by ring
  have e2 : (b + 2) * bl.BlockSize = b * bl.BlockSize + bl.BlockSize + bl.BlockSize := by ring
  have e1 : (b + 1) * bl.BlockSize = b * bl.BlockSize + bl.BlockSize := by ring
  rw [take_blocks]
  exact exactPadCheck_last_block bl hwf iv (s.take bl.BlockSize)
    ((s.drop bl.BlockSize).take (b * bl.BlockSize))
    ((s.drop ((b + 1) * bl.BlockSize)).take bl.BlockSize)
    ((s.drop ((b + 2) * bl.BlockSize)).take bl.BlockSize) b hiv
    (by rw [List.length_take]; omega)
    (by rw [List.length_take, List.length_drop]; omega)
    (isBytes_take _ (isBytes_drop _ hs))
    (by rw [List.length_take, List.length_drop]; omega)
    (isBytes_take _ (isBytes_drop _ hs))
    (by rw [List.length_take, List.length_drop]; omega)
    (isBytes_take _ (isBytes_drop _ hs))

/-- CBC encryption, block `b`: in `iv ++ c`, the block after block `b` is the
encryption of plaintext block `b` XOR block `b`. -/
theorem cbcEnc_block_relation (bl : Block) (hwf : bl.WF) :
    ∀ (b m : Nat) (P iv : List Nat), b < m → m * bl.BlockSize ≤ P.length → IsBytes P →
      iv.length = bl.BlockSize → IsBytes iv →
      ((iv ++ cbcEncBlocks bl m P iv).drop ((b + 1) * bl.BlockSize)).take bl.BlockSize
        = bl.Encrypt (xorBytes ((P.drop (b * bl.BlockSize)).take bl.BlockSize)
            (((iv ++ cbcEncBlocks bl m P iv).drop (b * bl.BlockSize)).take bl.BlockSize)) := by
  intro b
  induction b with
  | zero =>
    intro m P iv hm hP hPb hiv hivb
    obtain ⟨m, rfl⟩ : ∃ k, m = k + 1 := ⟨m - 1, by omega⟩
    have hexp : (m + 1) * bl.BlockSize = bl.BlockSize + m * bl.BlockSize := by ring
    have htl : (P.take bl.BlockSize).length = bl.BlockSize := by
      rw [List.length_take]; omega
    have hxl : (xorBytes (P.take bl.BlockSize) iv).length = bl.BlockSize := by
      rw [xorBytes_length _ _ (by omega), htl]
    have hxb := xorBytes_isBytes _ _ (isBytes_take bl.BlockSize hPb) hivb
    rw [cbcEncBlocks_succ, Nat.zero_add, Nat.one_mul, Nat.zero_mul, List.drop_zero,
      List.drop_zero, List.drop_left' hiv, List.take_left' (hwf.enc_len _ hxl hxb),
      List.take_left' hiv]
  | succ b ih =>
    intro m P iv hm hP hPb hiv hivb
    obtain ⟨m, rfl⟩ : ∃ k, m = k + 1 := ⟨m - 1, by omega⟩
    have hexp : (m + 1) * bl.BlockSize = bl.BlockSize + m * bl.BlockSize := by ring
    have htl : (P.take bl.BlockSize).length = bl.BlockSize := by
      rw [List.length_take]; omega
    have hxl : (xorBytes (P.take bl.BlockSize) iv).length = bl.BlockSize := by
      rw [xorBytes_length _ _ (by omega), htl]
    have hxb := xorBytes_isBytes _ _ (isBytes_take bl.BlockSize hPb) hivb
    have e1 : (b + 1 + 1) * bl.BlockSize = bl.BlockSize + (b + 1) * bl.BlockSize := by ring
    have e0 : (b + 1) * bl.BlockSize = bl.BlockSize + b * bl.BlockSize := by ring
    have h := ih m (P.drop bl.BlockSize) (bl.Encrypt (xorBytes (P.take bl.BlockSize) iv))
      (by omega) (by rw [List.length_drop]; omega) (isBytes_drop _ hPb)
      (hwf.enc_len _ hxl hxb) (hwf.enc_bytes _ hxl hxb)
    rw [List.drop_drop] at h
    rw [cbcEncBlocks_succ, e1, ← List.drop_drop, List.drop_left' hiv, h]
    congr 2
    · rw [e0]
    · rw [e0, ← List.drop_drop _ bl.BlockSize, List.drop_left' hiv]

/-- Well-formedness of a buffer whose last block `Z` holds the pad value
`p = bs - o >= 2` at the offsets after `o` and the byte `v` at the offset `o`:
the padding is well formed exactly when `v = p`. -/
theorem wellFormedPKCS7_block_tail (W Z : List Nat) (bs o v p : Nat) (hZ : Z.length = bs)
    (hp : p = bs - o) (hp2 : 2 ≤ p) (hv : Z[o]? = some v)
    (hrest : ∀ x, o < x → x < bs → Z[x]? = some p) :
    wellFormedPKCS7 (W ++ Z) bs = decide (v = p) := by
  have hlen : (W ++ Z).length = W.length + bs := by rw [List.length_append, hZ]
  have hlast : (W ++ Z).getLast? = some p := by
    rw [List.getLast?_eq_getElem?, hlen, List.getElem?_append_right (by omega)]
    have : W.length + bs - 1 - W.length = bs - 1 := by omega
    rw [this]
    exact hrest (bs - 1) (by omega) (by omega)
  have hdrop : (W ++ Z).drop ((W ++ Z).length - p) = Z.drop o := by
    have : (W ++ Z).length - p = W.length + o := by omega
    rw [this, List.drop_append]
  unfold wellFormedPKCS7
  rw [hlast]
  simp only
  rw [hdrop, decide_eq_true (show 1 ≤ p by omega), decide_eq_true (show p ≤ bs by omega),
    decide_eq_true (show p ≤ (W ++ Z).length by omega), Bool.true_and, Bool.true_and,
    Bool.true_and, Bool.eq_iff_iff, List.all_eq_true, decide_eq_true_iff]
  constructor
  · intro h
    have hm : v ∈ Z.drop o := by
      rw [List.mem_iff_getElem?]
      exact ⟨0, by rw [List.getElem?_drop, Nat.add_zero]; exact hv⟩
    exact beq_iff_eq.1 (h v hm)
  · intro h y hy
    obtain ⟨k, hk⟩ := List.mem_iff_getElem?.1 hy
    rw [List.getElem?_drop] at hk
    rw [beq_iff_eq]
    cases k with
    | zero =>
      rw [Nat.add_zero, hv] at hk
      rw [← Option.some.inj hk, h]
    | succ k =>
      have hlt : o + (k + 1) < Z.length := by
        rcases Nat.lt_or_ge (o + (k + 1)) Z.length with h1 | h1
        · exact h1
        · rw [List.getElem?_eq_none h1] at hk; cases hk
      rw [hrest (o + (k + 1)) (by omega) (by omega)] at hk
      exact (Option.some.inj hk).symm

/-- One probe of `DecryptPaddingOracle` against the exact padding oracle, at the
offset `o` of the block that starts at `t + bs`, with pad value `p = bs - o >= 2`,
when `out1` holds the candidate `j` at that position and the bytes `Pb` of the
plaintext block at the later offsets: the oracle accepts exactly when `j` is the
plaintext byte `a`, and the second XOR loop restores the buffer. -/
theorem DecryptPaddingOracle_probe (bl : Block) (hwf : bl.WF) (iv src0 out1 Pb : List Nat)
    (b t o p j a prev curr : Nat) (hiv : iv.length = bl.BlockSize)
    (ht : t = (b + 1) * bl.BlockSize) (hp : p = bl.BlockSize - o) (hp2 : 2 ≤ p)
    (hp256 : p < 256) (hprev : prev = t + bl.BlockSize - 1) (hcurr : curr = prev + bl.BlockSize)
    (hsb : IsBytes src0) (hsl : t + bl.BlockSize + bl.BlockSize ≤ src0.length)
    (hrel : bl.Decrypt ((src0.drop (t + bl.BlockSize)).take bl.BlockSize)
      = xorBytes Pb ((src0.drop t).take bl.BlockSize))
    (hPl : Pb.length = bl.BlockSize)
    (hob : IsBytes out1) (hol : t + bl.BlockSize + bl.BlockSize ≤ out1.length)
    (hoj : out1[t + bl.BlockSize + o]? = some j) (ha : Pb[o]? = some a)
    (hlater : ∀ x, o < x → x < bl.BlockSize → out1[t + bl.BlockSize + x]? = Pb[x]?) :
    ∃ src1 arg, DecryptPaddingOracle.xorLoop out1 prev curr p p 0 src0 = some src1
      ∧ sliceTo src1 (curr + 1) = some arg
      ∧ exactPadCheck bl iv arg = some (decide (j = a))
      ∧ DecryptPaddingOracle.xorLoop out1 prev curr p p 0 src1 = some src0 := by
  subst hprev; subst hcurr
  have e2 : (b + 2) * bl.BlockSize = t + bl.BlockSize := by rw [ht]; ring
  have e3 : (b + 3) * bl.BlockSize = t + bl.BlockSize + bl.BlockSize := by rw [ht]; ring
  obtain ⟨r, hr, hrl, hrx, hback⟩ := DecryptPaddingOracle_xorLoop_restores out1
    (t + bl.BlockSize - 1) (t + bl.BlockSize - 1 + bl.BlockSize) p p src0 (by omega) (by omega)
    (by omega) (by omega)
  have hcp : t + bl.BlockSize - 1 + bl.BlockSize - (t + bl.BlockSize - 1) = bl.BlockSize := by
    omega
  rw [hcp] at hrx
  have hrb : IsBytes r := by
    intro z hz
    obtain ⟨x, hx⟩ := List.mem_iff_getElem?.1 hz
    rw [hrx x] at hx
    split at hx
    · obtain ⟨s, hs, hz⟩ := Option.map_eq_some'.1 hx
      rw [← hz]
      exact Nat.xor_lt_two_pow (n := 8) (hsb s (List.getElem?_mem hs))
        (Nat.xor_lt_two_pow (n := 8) (isBytes_getD out1 hob _) hp256)
    · exact hsb z (List.getElem?_mem hx)
  have hslice : sliceTo r (t + bl.BlockSize - 1 + bl.BlockSize + 1)
      = some (r.take ((b + 3) * bl.BlockSize)) := by
    have : t + bl.BlockSize - 1 + bl.BlockSize + 1 = (b + 3) * bl.BlockSize := by omega
    rw [this]
    unfold sliceTo
    rw [if_pos (by omega)]
  obtain ⟨W, hW⟩ := exactPadCheck_blocks bl hwf iv r b hiv hrb (by omega)
  have hL : (r.drop (t + bl.BlockSize)).take bl.BlockSize
      = (src0.drop (t + bl.BlockSize)).take bl.BlockSize := by
    apply List.ext_getElem?
    intro x
    have hc : ¬ (t + bl.BlockSize - 1 + 1 ≤ t + bl.BlockSize + x + p
        ∧ t + bl.BlockSize + x ≤ t + bl.BlockSize - 1) := by omega
    rw [List.getElem?_take, List.getElem?_take, List.getElem?_drop, List.getElem?_drop, hrx,
      if_neg hc]
  rw [e2, ← ht, hL, hrel] at hW
  have hZl : (xorBytes (xorBytes Pb ((src0.drop t).take bl.BlockSize))
      ((r.drop t).take bl.BlockSize)).length = bl.BlockSize := by
    have h1 : ((src0.drop t).take bl.BlockSize).length = bl.BlockSize := by
      rw [List.length_take, List.length_drop]; omega
    have h2 : ((r.drop t).take bl.BlockSize).length = bl.BlockSize := by
      rw [List.length_take, List.length_drop]; omega
    rw [xorBytes_length _ _ (by rw [xorBytes_length _ _ (by omega)]; omega),
      xorBytes_length _ _ (by omega), hPl]
  have hZ : ∀ x u w, o ≤ x → x < bl.BlockSize → Pb[x]? = some u →
      out1[t + bl.BlockSize + x]? = some w →
      (xorBytes (xorBytes Pb ((src0.drop t).take bl.BlockSize))
        ((r.drop t).take bl.BlockSize))[x]? = some (u ^^^ (w ^^^ p)) := by
    intro x u w hox hx hu hw
    have hlt : t + x < src0.length := by omega
    have hs : src0[t + x]? = some src0[t + x] := List.getElem?_eq_getElem hlt
    have h1 : (xorBytes Pb ((src0.drop t).take bl.BlockSize))[x]? = some (u ^^^ src0[t + x]) :=
      xorBytes_getElem?_some _ _ _ _ _ hu
        (by rw [List.getElem?_take, if_pos hx, List.getElem?_drop]; exact hs)
    have hidx : t + x + bl.BlockSize = t + bl.BlockSize + x := by omega
    have h2 : ((r.drop t).take bl.BlockSize)[x]? = some (src0[t + x] ^^^ (w ^^^ p)) := by
      rw [List.getElem?_take, if_pos hx, List.getElem?_drop, hrx,
        if_pos ⟨by omega, by omega⟩, hs, Option.map_some', List.getD_eq_getElem?_getD, hidx, hw,
        Option.getD_some]
    have h3 := xorBytes_getElem?_some _ _ x _ _ h1 h2
    rw [xor_flip] at h3
    exact h3
  have hZo := hZ o a j (Nat.le_refl _) (by omega) ha hoj
  have hZr : ∀ x, o < x → x < bl.BlockSize →
      (xorBytes (xorBytes Pb ((src0.drop t).take bl.BlockSize))
        ((r.drop t).take bl.BlockSize))[x]? = some p := by
    intro x hox hx
    have hxl : x < Pb.length := by omega
    have hu : Pb[x]? = some Pb[x] := List.getElem?_eq_getElem hxl
    have h := hZ x Pb[x] Pb[x] (Nat.le_of_lt hox) hx hu (by rw [hlater x hox hx]; exact hu)
    rw [Nat.xor_cancel_left] at h
    exact h
  rw [wellFormedPKCS7_block_tail W _ bl.BlockSize o (a ^^^ (j ^^^ p)) p hZl hp hp2 hZo hZr] at hW
  have hdec : decide (a ^^^ (j ^^^ p) = p) = decide (j = a) := by
    apply decide_eq_decide.2
    constructor
    · intro h
      have h1 : a ^^^ (j ^^^ p) ^^^ (j ^^^ p) = a := Nat.xor_cancel_right _ _
      rw [h, Nat.xor_comm j p, Nat.xor_cancel_left] at h1
      exact h1
    · intro h
      rw [h, Nat.xor_cancel_left]
  rw [hdec] at hW
  exact ⟨r, _, hr, hslice, hW, hback⟩

/-- The candidate loop of `DecryptPaddingOracle` against the exact padding
oracle, from the candidate `j` on, at a position with pad value `p >= 2` whose
later bytes in the block are recovered: the buffer is returned as it was, and
`valid` is set exactly when the plaintext byte `a` is a candidate still to come
and is not `p`; `out` then holds `a` at the position. -/
theorem DecryptPaddingOracle_jLoop_exact (bl : Block) (hwf : bl.WF) (iv src0 Pb : List Nat)
    (b t o p a i prev curr : Nat) (hiv : iv.length = bl.BlockSize)
    (ht : t = (b + 1) * bl.BlockSize) (hp : p = bl.BlockSize - o) (hp2 : 2 ≤ p)
    (hp256 : p < 256) (hi : i = t + bl.BlockSize + o) (hprev : prev = t + bl.BlockSize - 1)
    (hcurr : curr = prev + bl.BlockSize)
    (hsb : IsBytes src0) (hsl : t + bl.BlockSize + bl.BlockSize ≤ src0.length)
    (hrel : bl.Decrypt ((src0.drop (t + bl.BlockSize)).take bl.BlockSize)
      = xorBytes Pb ((src0.drop t).take bl.BlockSize))
    (hPl : Pb.length = bl.BlockSize) (ha : Pb[o]? = some a) :
    ∀ (fuel j : Nat) (out : List Nat), j + fuel ≤ 256 → IsBytes out →
      t + bl.BlockSize + bl.BlockSize ≤ out.length →
      (∀ x, o < x → x < bl.BlockSize → out[t + bl.BlockSize + x]? = Pb[x]?) →
      ∃ out2 v, DecryptPaddingOracle.jLoop (exactPadCheck bl iv) i prev curr p fuel j src0 out
            false = some (src0, out2, v)
        ∧ (v = true ↔ (a ≠ p ∧ j ≤ a ∧ a < j + fuel))
        ∧ (v = true → out2[i]? = some a)
        ∧ out2.length = out.length ∧ IsBytes out2
        ∧ ∀ x, x ≠ i → out2[x]? = out[x]? := by
  intro fuel
  induction fuel with
  | zero =>
    intro j out _ hob hol hlater
    refine ⟨out, false, rfl, ?_, ?_, rfl, hob, fun _ _ => rfl⟩
    · constructor
      · intro h; cases h
      · intro h; omega
    · intro h; cases h
  | succ fuel ih =>
    intro j out hj hob hol hlater
    have hil : i < out.length := by omega
    rw [DecryptPaddingOracle_jLoop_succ]
    by_cases hjp : j = p
    · rw [if_pos hjp]
      obtain ⟨out2, v, h1, h2, h3, h4, h5, h6⟩ := ih (j + 1) out (by omega) hob hol hlater
      refine ⟨out2, v, h1, ?_, h3, h4, h5, h6⟩
      rw [h2]
      constructor
      · intro ⟨k1, k2, k3⟩; exact ⟨k1, by omega, by omega⟩
      · intro ⟨k1, k2, k3⟩; exact ⟨k1, by omega, by omega⟩
    · have hsetb : IsBytes (out.set i j) := isBytes_set _ _ _ hob (by omega)
      have hsetl : t + bl.BlockSize + bl.BlockSize ≤ (out.set i j).length := by
        rw [List.length_set]; exact hol
      have hsetlater : ∀ x, o < x → x < bl.BlockSize →
          (out.set i j)[t + bl.BlockSize + x]? = Pb[x]? := by
        intro x h1 h2
        rw [List.getElem?_set_ne (by omega)]
        exact hlater x h1 h2
      obtain ⟨src1, arg, x1, x2, x3, x4⟩ := DecryptPaddingOracle_probe bl hwf iv src0
        (out.set i j) Pb b t o p j a prev curr hiv ht hp hp2 hp256 hprev hcurr hsb hsl hrel hPl
        hsetb hsetl (by rw [← hi]; exact List.getElem?_set_self hil) ha hsetlater
      rw [if_neg hjp, if_neg (by omega), x1, Option.some_bind, x2, Option.some_bind, x3,
        Option.some_bind, x4, Option.some_bind]
      by_cases hja : j = a
      · rw [decide_eq_true hja]
        simp only [if_true]
        refine ⟨out.set i j, true, rfl, ?_, ?_, List.length_set _ _ _, hsetb,
          fun x hx => List.getElem?_set_ne (Ne.symm hx)⟩
        · constructor
          · intro _; exact ⟨by omega, by omega, by omega⟩
          · intro _; rfl
        · intro _
          rw [← hja]
          exact List.getElem?_set_self hil
      · rw [decide_eq_false hja]
        simp only [Bool.false_eq_true, if_false]
        obtain ⟨out2, v, h1, h2, h3, h4, h5, h6⟩ := ih (j + 1) (out.set i j) (by omega) hsetb
          hsetl hsetlater
        refine ⟨out2, v, h1, ?_, h3, by rw [h4, List.length_set], h5,
          fun x hx => by rw [h6 x hx, List.getElem?_set_ne (Ne.symm hx)]⟩
        rw [h2]
        constructor
        · intro ⟨k1, k2, k3⟩; exact ⟨k1, by omega, by omega⟩
        · intro ⟨k1, k2, k3⟩; exact ⟨k1, by omega, by omega⟩

/-- One probe of `DecryptPaddingOracle` against the exact padding oracle, on any
byte buffers: the two XOR loops, the slice and the oracle return, and the second
XOR loop restores the buffer. -/
theorem DecryptPaddingOracle_probe_total (bl : Block) (hwf : bl.WF) (iv src0 out1 : List Nat)
    (b t p prev curr : Nat) (hiv : iv.length = bl.BlockSize)
    (ht : t = (b + 1) * bl.BlockSize) (hp : p ≤ bl.BlockSize) (hp256 : p < 256)
    (hprev : prev = t + bl.BlockSize - 1) (hcurr : curr = prev + bl.BlockSize)
    (hsb : IsBytes src0) (hsl : t + bl.BlockSize + bl.BlockSize ≤ src0.length)
    (hob : IsBytes out1) (hol : t + bl.BlockSize + bl.BlockSize ≤ out1.length) :
    ∃ src1 arg v, DecryptPaddingOracle.xorLoop out1 prev curr p p 0 src0 = some src1
      ∧ sliceTo src1 (curr + 1) = some arg
      ∧ exactPadCheck bl iv arg = some v
      ∧ DecryptPaddingOracle.xorLoop out1 prev curr p p 0 src1 = some src0 := by
  subst hprev; subst hcurr
  have hpos := hwf.pos
  have e3 : (b + 3) * bl.BlockSize = t + bl.BlockSize + bl.BlockSize := by rw [ht]; ring
  obtain ⟨r, hr, hrl, hrx, hback⟩ := DecryptPaddingOracle_xorLoop_restores out1
    (t + bl.BlockSize - 1) (t + bl.BlockSize - 1 + bl.BlockSize) p p src0 (by omega) (by omega)
    (by omega) (by omega)
  have hrb : IsBytes r := by
    intro z hz
    obtain ⟨x, hx⟩ := List.mem_iff_getElem?.1 hz
    rw [hrx x] at hx
    split at hx
    · obtain ⟨s, hs, hz⟩ := Option.map_eq_some'.1 hx
      rw [← hz]
      exact Nat.xor_lt_two_pow (n := 8) (hsb s (List.getElem?_mem hs))
        (Nat.xor_lt_two_pow (n := 8) (isBytes_getD out1 hob _) hp256)
    · exact hsb z (List.getElem?_mem hx)
  have hslice : sliceTo r (t + bl.BlockSize - 1 + bl.BlockSize + 1)
      = some (r.take ((b + 3) * bl.BlockSize)) := by
    have : t + bl.BlockSize - 1 + bl.BlockSize + 1 = (b + 3) * bl.BlockSize := by omega
    rw [this]
    unfold sliceTo
    rw [if_pos (by omega)]
  obtain ⟨W, hW⟩ := exactPadCheck_blocks bl hwf iv r b hiv hrb (by omega)
  exact ⟨r, _, _, hr, hslice, hW, hback⟩

/-- The candidate loop of `DecryptPaddingOracle` against the exact padding
oracle returns on any byte buffers, with the ciphertext buffer as it was. -/
theorem DecryptPaddingOracle_jLoop_total (bl : Block) (hwf : bl.WF) (iv src0 : List Nat)
    (b t p i prev curr : Nat) (hiv : iv.length = bl.BlockSize)
    (ht : t = (b + 1) * bl.BlockSize) (hp : p ≤ bl.BlockSize) (hp256 : p < 256)
    (hi : i < t + bl.BlockSize + bl.BlockSize)
    (hprev : prev = t + bl.BlockSize - 1) (hcurr : curr = prev + bl.BlockSize)
    (hsb : IsBytes src0) (hsl : t + bl.BlockSize + bl.BlockSize ≤ src0.length) :
    ∀ (fuel j : Nat) (out : List Nat), j + fuel ≤ 256 → IsBytes out →
      t + bl.BlockSize + bl.BlockSize ≤ out.length →
      ∃ out2 v, DecryptPaddingOracle.jLoop (exactPadCheck bl iv) i prev curr p fuel j src0 out
            false = some (src0, out2, v)
        ∧ out2.length = out.length ∧ IsBytes out2 := by
  intro fuel
  induction fuel with
  | zero =>
    intro j out _ hob _
    exact ⟨out, false, rfl, rfl, hob⟩
  | succ fuel ih =>
    intro j out hj hob hol
    rw [DecryptPaddingOracle_jLoop_succ]
    by_cases hjp : j = p
    · rw [if_pos hjp]
      exact ih (j + 1) out (by omega) hob hol
    · have hsetb : IsBytes (out.set i j) := isBytes_set _ _ _ hob (by omega)
      have hsetl : t + bl.BlockSize + bl.BlockSize ≤ (out.set i j).length := by
        rw [List.length_set]; exact hol
      obtain ⟨src1, arg, v, x1, x2, x3, x4⟩ := DecryptPaddingOracle_probe_total bl hwf iv src0
        (out.set i j) b t p prev curr hiv ht hp hp256 hprev hcurr hsb hsl hsetb hsetl
      rw [if_neg hjp, if_neg (by omega), x1, Option.some_bind, x2, Option.some_bind, x3,
        Option.some_bind, x4, Option.some_bind]
      cases v with
      | true =>
        simp only [if_true]
        exact ⟨out.set i j, true, rfl, List.length_set _ _ _, hsetb⟩
      | false =>
        simp only [Bool.false_eq_true, if_false]
        obtain ⟨out2, v, h1, h2, h3⟩ := ih (j + 1) (out.set i j) (by omega) hsetb hsetl
        exact ⟨out2, v, h1, by rw [h2, List.length_set], h3⟩

/-- The position loop of `DecryptPaddingOracle` against the exact padding
oracle returns on any byte buffers of `m + 2` blocks, with the ciphertext
buffer as it was. -/
theorem DecryptPaddingOracle_iLoop_total (bl : Block) (hwf : bl.WF)
    (iv src0 : List Nat) (m : Nat) (hiv : iv.length = bl.BlockSize)
    (hsb : IsBytes src0) (hsl : src0.length = (m + 2) * bl.BlockSize) :
    ∀ (n : Nat) (out : List Nat), n ≤ m * bl.BlockSize → IsBytes out →
      out.length = (m + 2) * bl.BlockSize →
      ∃ r, DecryptPaddingOracle.iLoop (exactPadCheck bl iv) bl.BlockSize n src0 out = some r
        ∧ r.1 = src0 := by
  intro n
  induction n with
  | zero =>
    intro out _ _ _
    exact ⟨(src0, out), rfl, rfl⟩
  | succ n ih =>
    intro out hn hob hol
    have hpos := hwf.pos
    obtain ⟨b, o, hno, ho⟩ : ∃ b o, n = b * bl.BlockSize + o ∧ o < bl.BlockSize :=
      ⟨n / bl.BlockSize, n % bl.BlockSize,
        by rw [Nat.mul_comm]; exact (Nat.div_add_mod n bl.BlockSize).symm, Nat.mod_lt _ hpos⟩
    have e1 : (b + 1) * bl.BlockSize = b * bl.BlockSize + bl.BlockSize := by ring
    have e2 : (b + 2) * bl.BlockSize = b * bl.BlockSize + bl.BlockSize + bl.BlockSize := by
      ring
    have em : (m + 2) * bl.BlockSize = m * bl.BlockSize + bl.BlockSize + bl.BlockSize := by
      ring
    have hb : b < m := by
      rcases Nat.lt_or_ge b m with h | h
      · exact h
      · have := Nat.mul_le_mul_right bl.BlockSize h
        omega
    have hbm : (b + 1) * bl.BlockSize ≤ m * bl.BlockSize := Nat.mul_le_mul_right _ hb
    have hi2 : 2 * bl.BlockSize + n = o + (b + 2) * bl.BlockSize := by omega
    have hidiv : (2 * bl.BlockSize + n) / bl.BlockSize = b + 2 := by
      rw [hi2, Nat.add_mul_div_right _ _ hpos, Nat.div_eq_of_lt ho, Nat.zero_add]
    have hprev : (2 * bl.BlockSize + n) / bl.BlockSize * bl.BlockSize - 1
        = (b + 1) * bl.BlockSize + bl.BlockSize - 1 := by
      rw [hidiv, e2, e1]
    have hilt : 2 * bl.BlockSize + n < (b + 1) * bl.BlockSize + bl.BlockSize + bl.BlockSize := by
      omega
    have hsl2 : (b + 1) * bl.BlockSize + bl.BlockSize + bl.BlockSize ≤ src0.length := by omega
    have hol2 : (b + 1) * bl.BlockSize + bl.BlockSize + bl.BlockSize ≤ out.length := by omega
    have hple : (bl.BlockSize - (2 * bl.BlockSize + n) % bl.BlockSize) % 256
        ≤ bl.BlockSize := (Nat.mod_le _ _).trans (Nat.sub_le _ _)
    have hp256 : (bl.BlockSize - (2 * bl.BlockSize + n) % bl.BlockSize) % 256 < 256 :=
      Nat.mod_lt _ (by decide)
    obtain ⟨out2, v, h1, h2, h3⟩ := DecryptPaddingOracle_jLoop_total bl hwf iv src0 b
      ((b + 1) * bl.BlockSize) _ (2 * bl.BlockSize + n) _ _ hiv rfl hple hp256 hilt hprev
      rfl hsb hsl2 256 0 out (by omega) hob hol2
    rw [DecryptPaddingOracle_iLoop_succ (exactPadCheck bl iv) bl.BlockSize n _ _ _ _ src0 out
      rfl rfl rfl rfl, h1, Option.some_bind]
    cases v with
    | true => exact ih out2 (by omega) h3 (by rw [h2]; exact hol)
    | false =>
      exact ih (out2.set _ _) (by omega) (isBytes_set _ _ _ h3 hp256)
        (by rw [List.length_set, h2]; exact hol)

/-- C23. `DecryptPaddingOracle` against an exact PKCS#7 padding oracle for CBC
decryption, on the buffer `iv ++ iv ++ EncryptCBC(P, iv)`: at every position
`i = 2*bs + n` whose pad value `pad = bs - i % bs` is at least 2, if the bytes of
`out` at the later positions of the same block equal the bytes of the plaintext
`P`, then (1) every probe `j != pad` is accepted by the oracle exactly when `j`
is the plaintext byte `P[n]`, and the second XOR loop restores the ciphertext
buffer; (2) the candidate loop returns the buffer as it was, with `valid` set
exactly when `P[n]` is not `pad`, and then with `P[n]` in `out[i]`, the other
bytes of `out` unchanged; (3) the iteration of the position loop leaves `P[n]`
in `out[i]` (by the validating candidate, or by the fallback `out[i] = pad` when
`P[n] = pad`), and the position loop returns, with the buffer as it was, `P[n]`
at the index `i` of the recovered bytes and the bytes after `i` unchanged. -/
theorem DecryptPaddingOracle_recovers_byte (bl : Block) (hwf : bl.WF) (hinv : bl.Invertible)
    (hbs : bl.BlockSize < 256) (iv P C out : List Nat) (m n i prev curr pad : Nat)
    (hiv : iv.length = bl.BlockSize) (hivb : IsBytes iv)
    (hP : P.length = m * bl.BlockSize) (hPb : IsBytes P)
    (hC : EncryptCBC bl P iv = some C) (hn : n < m * bl.BlockSize)
    (hi : i = 2 * bl.BlockSize + n) (hprev : prev = i / bl.BlockSize * bl.BlockSize - 1)
    (hcurr : curr = prev + bl.BlockSize)
    (hpad : pad = (bl.BlockSize - i % bl.BlockSize) % 256) (hpad2 : 2 ≤ pad)
    (hout : out.length = (m + 2) * bl.BlockSize) (hob : IsBytes out)
    (hlater : ∀ k, k < pad - 1 → out[i + 1 + k]? = P[n + 1 + k]?) :
    (∀ j, j < 256 → j ≠ pad →
      ∃ src1 arg,
        DecryptPaddingOracle.xorLoop (out.set i j) prev curr pad pad 0 (iv ++ (iv ++ C))
          = some src1
        ∧ sliceTo src1 (curr + 1) = some arg
        ∧ exactPadCheck bl iv arg = some (decide (P[n]? = some j))
        ∧ DecryptPaddingOracle.xorLoop (out.set i j) prev curr pad pad 0 src1
          = some (iv ++ (iv ++ C)))
    ∧ (∃ out2 v,
        DecryptPaddingOracle.jLoop (exactPadCheck bl iv) i prev curr pad 256 0 (iv ++ (iv ++ C))
          out false = some (iv ++ (iv ++ C), out2, v)
        ∧ (v = true ↔ P[n]? ≠ some pad) ∧ (v = true → out2[i]? = P[n]?)
        ∧ out2.length = out.length ∧ ∀ x, x ≠ i → out2[x]? = out[x]?)
    ∧ ∃ out1 r,
        DecryptPaddingOracle.iLoop (exactPadCheck bl iv) bl.BlockSize (n + 1) (iv ++ (iv ++ C))
            out
          = DecryptPaddingOracle.iLoop (exactPadCheck bl iv) bl.BlockSize n (iv ++ (iv ++ C))
            out1
        ∧ out1.length = out.length ∧ IsBytes out1 ∧ out1[i]? = P[n]?
        ∧ (∀ x, x ≠ i → out1[x]? = out[x]?)
        ∧ DecryptPaddingOracle.iLoop (exactPadCheck bl iv) bl.BlockSize (n + 1)
            (iv ++ (iv ++ C)) out = some r
        ∧ r.1 = iv ++ (iv ++ C) ∧ r.2.length = out.length ∧ r.2[i]? = P[n]?
        ∧ ∀ x, i < x → r.2[x]? = out[x]? := by
  have hpos := hwf.pos
  obtain ⟨b, o, hno, ho⟩ : ∃ b o, n = b * bl.BlockSize + o ∧ o < bl.BlockSize :=
    ⟨n / bl.BlockSize, n % bl.BlockSize,
      by rw [Nat.mul_comm]; exact (Nat.div_add_mod n bl.BlockSize).symm, Nat.mod_lt _ hpos⟩
  obtain ⟨t, ht⟩ : ∃ t, t = (b + 1) * bl.BlockSize := ⟨_, rfl⟩
  have e1 : (b + 1) * bl.BlockSize = b * bl.BlockSize + bl.BlockSize := by ring
  have e2 : (b + 2) * bl.BlockSize = b * bl.BlockSize + bl.BlockSize + bl.BlockSize := by ring
  have em : (m + 2) * bl.BlockSize = m * bl.BlockSize + bl.BlockSize + bl.BlockSize := by ring
  have hb : b < m := by
    rcases Nat.lt_or_ge b m with h | h
    · exact h
    · have := Nat.mul_le_mul_right bl.BlockSize h
      omega
  have hbm : (b + 1) * bl.BlockSize ≤ m * bl.BlockSize := Nat.mul_le_mul_right _ hb
  have hi2 : i = o + (b + 2) * bl.BlockSize := by omega
  have hidiv : i / bl.BlockSize = b + 2 := by
    rw [hi2, Nat.add_mul_div_right _ _ hpos, Nat.div_eq_of_lt ho, Nat.zero_add]
  have himod : i % bl.BlockSize = o := by
    rw [hi2, Nat.add_mul_mod_self_right, Nat.mod_eq_of_lt ho]
  have hp : pad = bl.BlockSize - o := by
    rw [hpad, himod, Nat.mod_eq_of_lt (by omega)]
  have hp256 : pad < 256 := by omega
  have hi3 : i = t + bl.BlockSize + o := by omega
  have hprev2 : prev = t + bl.BlockSize - 1 := by
    rw [hprev, hidiv, e2]; omega
  -- the ciphertext buffer
  have hCeq : C = cbcEncBlocks bl m P iv := by
    have h := EncryptCBC_eq bl hwf P iv hPb hivb (by rw [hP]; exact Nat.mul_mod_left _ _) hiv
    rw [hP, Nat.mul_div_cancel _ hpos, hC] at h
    exact Option.some.inj h
  obtain ⟨hCl, hCb⟩ := cbcEncBlocks_length bl hwf m P iv (by omega) hPb hiv hivb
  rw [← hCeq] at hCl hCb
  have hsb : IsBytes (iv ++ (iv ++ C)) :=
    isBytes_append.2 ⟨hivb, isBytes_append.2 ⟨hivb, hCb⟩⟩
  have hsl : t + bl.BlockSize + bl.BlockSize ≤ (iv ++ (iv ++ C)).length := by
    rw [List.length_append, List.length_append, hiv, hCl]; omega
  have hol : t + bl.BlockSize + bl.BlockSize ≤ out.length := by omega
  -- the plaintext block
  have hPl : ((P.drop (b * bl.BlockSize)).take bl.BlockSize).length = bl.BlockSize := by
    rw [List.length_take, List.length_drop]; omega
  have hPx : ∀ x, x < bl.BlockSize →
      ((P.drop (b * bl.BlockSize)).take bl.BlockSize)[x]? = P[b * bl.BlockSize + x]? := by
    intro x hx
    rw [List.getElem?_take, if_pos hx, List.getElem?_drop]
  have hnl : n < P.length := by omega
  have hPn : P[n]? = some P[n] := List.getElem?_eq_getElem hnl
  have ha : ((P.drop (b * bl.BlockSize)).take bl.BlockSize)[o]? = some P[n] := by
    rw [hPx o ho, ← hno]; exact hPn
  have ha256 : P[n] < 256 := hPb _ (List.getElem?_mem hPn)
  have hrel : bl.Decrypt (((iv ++ (iv ++ C)).drop (t + bl.BlockSize)).take bl.BlockSize)
      = xorBytes ((P.drop (b * bl.BlockSize)).take bl.BlockSize)
          (((iv ++ (iv ++ C)).drop t).take bl.BlockSize) := by
    have hd1 : (iv ++ (iv ++ C)).drop (t + bl.BlockSize)
        = (iv ++ C).drop ((b + 1) * bl.BlockSize) := by
      rw [show t + bl.BlockSize = bl.BlockSize + (b + 1) * bl.BlockSize by omega,
        ← List.drop_drop, List.drop_left' hiv]
    have hd2 : (iv ++ (iv ++ C)).drop t = (iv ++ C).drop (b * bl.BlockSize) := by
      rw [show t = bl.BlockSize + b * bl.BlockSize by omega, ← List.drop_drop,
        List.drop_left' hiv]
    have hBl : (((iv ++ C).drop (b * bl.BlockSize)).take bl.BlockSize).length
        = bl.BlockSize := by
      rw [List.length_take, List.length_drop, List.length_append, hiv, hCl]; omega
    have hBb : IsBytes (((iv ++ C).drop (b * bl.BlockSize)).take bl.BlockSize) :=
      isBytes_take _ (isBytes_drop _ (isBytes_append.2 ⟨hivb, hCb⟩))
    have hxl : (xorBytes ((P.drop (b * bl.BlockSize)).take bl.BlockSize)
        (((iv ++ C).drop (b * bl.BlockSize)).take bl.BlockSize)).length = bl.BlockSize := by
      rw [xorBytes_length _ _ (by omega), hPl]
    have hxb := xorBytes_isBytes _ _
      (isBytes_take bl.BlockSize (isBytes_drop (b * bl.BlockSize) hPb)) hBb
    rw [hd1, hd2, hCeq, cbcEnc_block_relation bl hwf b m P iv hb (by omega) hPb hiv hivb,
      ← hCeq, hinv _ hxl hxb]
  have hlater2 : ∀ x, o < x → x < bl.BlockSize →
      out[t + bl.BlockSize + x]? = ((P.drop (b * bl.BlockSize)).take bl.BlockSize)[x]? := by
    intro x h1 h2
    have h := hlater (x - o - 1) (by omega)
    rw [show i + 1 + (x - o - 1) = t + bl.BlockSize + x by omega,
      show n + 1 + (x - o - 1) = b * bl.BlockSize + x by omega] at h
    rw [h, hPx x h2]
  have hil : i < out.length := by omega
  refine ⟨?_, ?_, ?_⟩
  · intro j hj hjp
    obtain ⟨src1, arg, x1, x2, x3, x4⟩ := DecryptPaddingOracle_probe bl hwf iv (iv ++ (iv ++ C))
      (out.set i j) _ b t o pad j P[n] prev curr hiv ht hp hpad2 hp256 hprev2 hcurr hsb hsl hrel
      hPl (isBytes_set _ _ _ hob hj) (by rw [List.length_set]; exact hol)
      (by rw [← hi3]; exact List.getElem?_set_self hil) ha
      (fun x h1 h2 => by rw [List.getElem?_set_ne (by omega)]; exact hlater2 x h1 h2)
    refine ⟨src1, arg, x1, x2, ?_, x4⟩
    rw [x3, hPn]
    congr 1
    apply decide_eq_decide.2
    constructor
    · intro h; rw [h]
    · intro h; exact (Option.some.inj h).symm
  · obtain ⟨out2, v, h1, h2, h3, h4, _, h6⟩ := DecryptPaddingOracle_jLoop_exact bl hwf iv
      (iv ++ (iv ++ C))
      _ b t o pad P[n] i prev curr hiv ht hp hpad2 hp256 hi3 hprev2 hcurr hsb hsl hrel hPl ha
      256 0 out (by omega) hob hol hlater2
    refine ⟨out2, v, h1, ?_, fun hv => by rw [h3 hv, hPn], h4, h6⟩
    rw [h2, hPn]
    constructor
    · intro ⟨k1, _, _⟩ h; exact k1 (Option.some.inj h)
    · intro h; exact ⟨fun k => h (by rw [k]), by omega, by omega⟩
  · obtain ⟨out2, v, h1, h2, h3, h4, h5, h6⟩ := DecryptPaddingOracle_jLoop_exact bl hwf iv
      (iv ++ (iv ++ C)) _ b t o pad P[n] i prev curr hiv ht hp hpad2 hp256 hi3 hprev2 hcurr hsb
      hsl hrel hPl ha 256 0 out (by omega) hob hol hlater2
    have hstep : ∃ out1,
        DecryptPaddingOracle.iLoop (exactPadCheck bl iv) bl.BlockSize (n + 1)
            (iv ++ (iv ++ C)) out
          = DecryptPaddingOracle.iLoop (exactPadCheck bl iv) bl.BlockSize n (iv ++ (iv ++ C))
            out1
        ∧ out1.length = out.length ∧ IsBytes out1 ∧ out1[i]? = P[n]?
        ∧ ∀ x, x ≠ i → out1[x]? = out[x]? := by
      rw [DecryptPaddingOracle_iLoop_succ (exactPadCheck bl iv) bl.BlockSize n i prev curr pad
        (iv ++ (iv ++ C)) out hi.symm hprev.symm hcurr.symm hpad.symm, h1, Option.some_bind]
      cases v with
      | true =>
        exact ⟨out2, rfl, h4, h5, by rw [h3 rfl, hPn], h6⟩
      | false =>
        have hap : P[n] = pad := by
          by_contra hne
          have := h2.2 ⟨hne, by omega, by omega⟩
          cases this
        refine ⟨out2.set i pad, rfl, by rw [List.length_set, h4], isBytes_set _ _ _ h5 hp256,
          ?_, fun x hx => by rw [List.getElem?_set_ne (Ne.symm hx), h6 x hx]⟩
        rw [List.getElem?_set_self (by omega), hPn, hap]
    obtain ⟨out1, s1, s2, s3, s4, s5⟩ := hstep
    have hs0l : (iv ++ (iv ++ C)).length = (m + 2) * bl.BlockSize := by
      rw [List.length_append, List.length_append, hiv, hCl]; omega
    obtain ⟨r, hr, hr1⟩ := DecryptPaddingOracle_iLoop_total bl hwf iv (iv ++ (iv ++ C)) m
      hiv hsb hs0l n out1 (by omega) s3 (by rw [s2]; exact hout)
    obtain ⟨k1, k2⟩ := DecryptPaddingOracle_iLoop_out _ _ _ _ _ _ hr
    refine ⟨out1, r, s1, s2, s3, s4, s5, by rw [s1]; exact hr, hr1, by rw [k1, s2], ?_, ?_⟩
    · rw [k2 i (by omega)]; exact s4
    · intro x hx
      rw [k2 x (by omega), s5 x (by omega)]

theorem DecryptPaddingOracle_recovers_byte_witness :
    (xorBlock 4 90).WF ∧ (xorBlock 4 90).Invertible
    ∧ EncryptCBC (xorBlock 4 90) [10, 20, 30, 40, 50, 60, 2, 7] [1, 2, 3, 4]
        = some [81, 76, 71, 118, 57, 42, 31, 43]
    ∧ (13 = 2 * (xorBlock 4 90).BlockSize + 5
      ∧ 11 = 13 / (xorBlock 4 90).BlockSize * (xorBlock 4 90).BlockSize - 1
      ∧ 15 = 11 + (xorBlock 4 90).BlockSize
      ∧ 3 = ((xorBlock 4 90).BlockSize - 13 % (xorBlock 4 90).BlockSize) % 256)
    ∧ (∀ k, k < 3 - 1 →
        [0, 0, 0, 0, 0, 0, 0, 0, 0, 0, 0, 0, 0, 0, 2, 7][13 + 1 + k]?
          = [10, 20, 30, 40, 50, 60, 2, 7][5 + 1 + k]?)
    ∧ (∀ j, j < 256 → j ≠ 3 →
        ∃ src1 arg,
          DecryptPaddingOracle.xorLoop
              ([0, 0, 0, 0, 0, 0, 0, 0, 0, 0, 0, 0, 0, 0, 2, 7].set 13 j) 11 15 3 3 0
              ([1, 2, 3, 4] ++ ([1, 2, 3, 4] ++ [81, 76, 71, 118, 57, 42, 31, 43]))
            = some src1
          ∧ sliceTo src1 (15 + 1) = some arg
          ∧ exactPadCheck (xorBlock 4 90) [1, 2, 3, 4] arg
            = some (decide ([10, 20, 30, 40, 50, 60, 2, 7][5]? = some j))
          ∧ DecryptPaddingOracle.xorLoop
              ([0, 0, 0, 0, 0, 0, 0, 0, 0, 0, 0, 0, 0, 0, 2, 7].set 13 j) 11 15 3 3 0 src1
            = some ([1, 2, 3, 4] ++ ([1, 2, 3, 4] ++ [81, 76, 71, 118, 57, 42, 31, 43])))
    ∧ (∃ out2 v,
        DecryptPaddingOracle.jLoop (exactPadCheck (xorBlock 4 90) [1, 2, 3, 4]) 13 11 15 3 256 0
          ([1, 2, 3, 4] ++ ([1, 2, 3, 4] ++ [81, 76, 71, 118, 57, 42, 31, 43]))
          [0, 0, 0, 0, 0, 0, 0, 0, 0, 0, 0, 0, 0, 0, 2, 7] false
          = some (([1, 2, 3, 4] ++ ([1, 2, 3, 4] ++ [81, 76, 71, 118, 57, 42, 31, 43])), out2, v)
        ∧ (v = true ↔ [10, 20, 30, 40, 50, 60, 2, 7][5]? ≠ some 3)
        ∧ (v = true → out2[13]? = [10, 20, 30, 40, 50, 60, 2, 7][5]?)
        ∧ out2.length = [0, 0, 0, 0, 0, 0, 0, 0, 0, 0, 0, 0, 0, 0, 2, 7].length
        ∧ ∀ x, x ≠ 13 → out2[x]? = [0, 0, 0, 0, 0, 0, 0, 0, 0, 0, 0, 0, 0, 0, 2, 7][x]?)
    ∧ ∃ out1 r,
        DecryptPaddingOracle.iLoop (exactPadCheck (xorBlock 4 90) [1, 2, 3, 4])
            (xorBlock 4 90).BlockSize (5 + 1)
            ([1, 2, 3, 4] ++ ([1, 2, 3, 4] ++ [81, 76, 71, 118, 57, 42, 31, 43]))
            [0, 0, 0, 0, 0, 0, 0, 0, 0, 0, 0, 0, 0, 0, 2, 7]
          = DecryptPaddingOracle.iLoop (exactPadCheck (xorBlock 4 90) [1, 2, 3, 4])
            (xorBlock 4 90).BlockSize 5
            ([1, 2, 3, 4] ++ ([1, 2, 3, 4] ++ [81, 76, 71, 118, 57, 42, 31, 43])) out1
        ∧ out1.length = [0, 0, 0, 0, 0, 0, 0, 0, 0, 0, 0, 0, 0, 0, 2, 7].length
        ∧ IsBytes out1 ∧ out1[13]? = [10, 20, 30, 40, 50, 60, 2, 7][5]?
        ∧ (∀ x, x ≠ 13 → out1[x]? = [0, 0, 0, 0, 0, 0, 0, 0, 0, 0, 0, 0, 0, 0, 2, 7][x]?)
        ∧ DecryptPaddingOracle.iLoop (exactPadCheck (xorBlock 4 90) [1, 2, 3, 4])
            (xorBlock 4 90).BlockSize (5 + 1)
            ([1, 2, 3, 4] ++ ([1, 2, 3, 4] ++ [81, 76, 71, 118, 57, 42, 31, 43]))
            [0, 0, 0, 0, 0, 0, 0, 0, 0, 0, 0, 0, 0, 0, 2, 7] = some r
        ∧ r.1 = [1, 2, 3, 4] ++ ([1, 2, 3, 4] ++ [81, 76, 71, 118, 57, 42, 31, 43])
        ∧ r.2.length = [0, 0, 0, 0, 0, 0, 0, 0, 0, 0, 0, 0, 0, 0, 2, 7].length
        ∧ r.2[13]? = [10, 20, 30, 40, 50, 60, 2, 7][5]?
        ∧ ∀ x, 13 < x → r.2[x]? = [0, 0, 0, 0, 0, 0, 0, 0, 0, 0, 0, 0, 0, 0, 2, 7][x]? :=
  ⟨xorBlock_wf 4 90 (by decide) (by decide), xorBlock_invertible 4 90, by decide,
    ⟨by decide, by decide, by decide, by decide⟩, by decide,
    DecryptPaddingOracle_recovers_byte (xorBlock 4 90) (xorBlock_wf 4 90 (by decide) (by decide))
      (xorBlock_invertible 4 90) (by decide) [1, 2, 3, 4] [10, 20, 30, 40, 50, 60, 2, 7]
      [81, 76, 71, 118, 57, 42, 31, 43]
      [0, 0, 0, 0, 0, 0, 0, 0, 0, 0, 0, 0, 0, 0, 2, 7] 2 5 13 11 15 3 (by decide)
      (by decide) (by decide) (by decide) (by decide) (by decide) (by decide) (by decide)
      (by decide) (by decide) (by decide) (by decide) (by decide) (by decide)⟩

end Cryptopals
